import Mathlib

/-!
Verification development for the Squeue repository (src/squeue.go, deque version).

The Go code implements a double-ended queue made of circular array segments
(`head`, `tail`) plus a circular directory (`cache`) of segments that hold
live-but-inactive elements.  We give a shallow embedding:

* Go slices of `interface{}` become `List (Option α)`; the Go `nil` interface
  value is `none` (it doubles as the implementation's vacant-slot sentinel).
* Go slice backing arrays live in an explicit heap `arrays : List (Arr α)`;
  a `*[]interface{}` pointer stored in a `Cached` entry is the index of its
  backing array in that heap (the Go code never reassigns the pointed-at slice
  variables, so pointer identity coincides with backing-array identity).
* All integer fields are `Int`, mirroring Go `int`; the Go code keeps every
  index in `[0, len)` before applying `%`, and `Int.emod` agrees with Go `%`
  on non-negative operands.
* Reads/writes through a slice index are guarded (`aget`/`aset`); the Go
  program panics out of range, and every theorem below only evaluates these
  accessors in range (concrete runs are fully in range, universal theorems
  carry range invariants).  Dereferencing a possibly-`nil` `*Cached` is
  modelled by an explicit `Option` match whose `none` branch aborts the
  operation (`Option`-valued operations / the `Pk.bad` outcome), matching a
  Go nil-pointer panic.
* `PeekFront`/`PeekBack` are recursive in Go; they are modelled with fuel
  `cache.length + 2`, which suffices because each recursion step advances the
  directory pointer by one position modulo `cache.length` and the error test
  fires within one sweep.
-/

set_option autoImplicit false

namespace Squeue

/-- A stored value: `none` is the Go `nil` interface value. -/
abbrev Val (α : Type) := Option α

/-- A segment: the contents of one Go slice backing array. -/
abbrev Arr (α : Type) := List (Val α)

/-- Go type `Cached`: pointer to a segment plus the recorded index of its
first element.  `ptr` is the heap index of the backing array. -/
structure Cached where
  ptr : Nat
  idx : Int
deriving Repr, DecidableEq

/-- Go type `Squeue` (deque version), together with the explicit heap of
backing arrays.  `head`/`tail` are `none` when the Go slice is `nil`. -/
structure Sq (α : Type) where
  arrays : List (Arr α)
  head : Option Nat
  tail : Option Nat
  cache : List (Option Cached)
  headF : Int
  headL : Int
  tailF : Int
  tailL : Int
  cacheF : Int
  cacheL : Int
  cacheSize : Int
deriving Repr, DecidableEq

/-- Guarded read `a[i]`; every use below is in range (Go panics out of range). -/
def aget {α : Type} (a : Arr α) (i : Int) : Val α :=
  if 0 ≤ i ∧ i < (a.length : Int) then a.getD i.toNat none else none

/-- Guarded write `a[i] = v`; every use below is in range. -/
def aset {α : Type} (a : Arr α) (i : Int) (v : Val α) : Arr α :=
  if 0 ≤ i ∧ i < (a.length : Int) then a.set i.toNat v else a

/-- Dereference a slice reference: the backing array for `head`/`tail`
(`[]` for the Go `nil` slice). -/
def deref {α : Type} (s : Sq α) (p : Option Nat) : Arr α :=
  match p with
  | none => []
  | some p => s.arrays.getD p []

/-- Go `len` of a referenced slice (`len(nil) = 0`). -/
def alenI {α : Type} (s : Sq α) (p : Option Nat) : Int :=
  ((deref s p).length : Int)

/-- Store back through a slice reference (writes the backing array). -/
def heapWrite {α : Type} (s : Sq α) (p : Option Nat) (a : Arr α) : Sq α :=
  match p with
  | none => s
  | some p => { s with arrays := s.arrays.set p a }

/-- Read `cache[i]` (a possibly-nil `*Cached`). -/
def cacheGet {α : Type} (s : Sq α) (i : Int) : Option Cached :=
  if 0 ≤ i ∧ i < (s.cache.length : Int) then s.cache.getD i.toNat none else none

/-- Write `cache[i] = c`. -/
def cacheSet {α : Type} (s : Sq α) (i : Int) (c : Option Cached) : Sq α :=
  if 0 ≤ i ∧ i < (s.cache.length : Int) then { s with cache := s.cache.set i.toNat c } else s

/-- Go helper `max` (src/squeue.go): returns the first argument on ties. -/
def gmax (n m : Int) : Int := if m > n then m else n

/-- Go helper `min` (src/squeue.go): returns the first argument on ties. -/
def gmin (n m : Int) : Int := if m < n then m else n

/-- `New(initial...)`: head is a fresh segment of length `2*max(n,10)` holding
the initial values, the directory has 6 slots with slot 0 pointing at head. -/
def mkNew {α : Type} (initial : List (Val α)) : Sq α :=
  let n : Int := initial.length
  let cap : Nat := (2 * gmax n 10).toNat
  let headArr : Arr α := initial ++ List.replicate (cap - initial.length) none
  { arrays := [headArr]
    head := some 0
    tail := none
    cache := (some ⟨0, 0⟩) :: List.replicate 5 none
    headF := 0, headL := n
    tailF := 0, tailL := 0
    cacheF := 0, cacheL := 1
    cacheSize := 0 }

/-- `New()` with no arguments. -/
def new0 (α : Type) : Sq α := mkNew []

/-- `resize(m)`: copy directory entries into a fresh circular array of length
`m` starting at logical offset 0.  Returns `none` where the Go loops would
index past the new array (never happens from `grow`). -/
def resize {α : Type} (s : Sq α) (m : Int) : Option (Sq α) :=
  if s.cacheF = 0 then
    -- copy(qq, sq.cache); j = len(sq.cache)
    let k : Nat := min m.toNat s.cache.length
    let qq := s.cache.take k ++ List.replicate (m.toNat - k) none
    some { s with cacheF := 0, cacheL := (s.cache.length : Int), cache := qq }
  else
    let moved := s.cache.drop s.cacheF.toNat ++ s.cache.take s.cacheL.toNat
    if moved.length ≤ m.toNat then
      some { s with cacheF := 0, cacheL := (moved.length : Int),
                    cache := moved ++ List.replicate (m.toNat - moved.length) none }
    else none

/-- `grow()`: double the directory capacity (floor 8 below capacity 6). -/
def grow {α : Type} (s : Sq α) : Option (Sq α) :=
  let n : Int := (s.cache.length : Int)
  if n < 6 then resize s 8 else resize s (2 * n)

/-- Register a freshly allocated segment of capacity `cap` at directory slot
`slot`; returns the new state and the new array's heap index. -/
def allocSeg {α : Type} (cap : Int) (slot : Int) (s : Sq α) : Sq α × Nat :=
  let pnew := s.arrays.length
  let s1 := { s with arrays := s.arrays ++ [List.replicate cap.toNat none] }
  (cacheSet s1 slot (some ⟨pnew, 0⟩), pnew)

/-- `sq.head[sq.headF] = elem`. -/
def writeHead {α : Type} (elem : Val α) (s : Sq α) : Sq α :=
  heapWrite s s.head (aset (deref s s.head) s.headF elem)

/-- `sq.head[sq.headL] = elem; sq.headL = (sq.headL+1) %% len(sq.head)`. -/
def writeHeadAdvance {α : Type} (elem : Val α) (s : Sq α) : Sq α :=
  let hd := deref s s.head
  let s1 := heapWrite s s.head (aset hd s.headL elem)
  { s1 with headL := (s1.headL + 1) % (hd.length : Int) }

/-- `sq.tail[sq.tailL] = elem; sq.tailL = (sq.tailL+1) %% len(sq.tail)`. -/
def writeTailAdvance {α : Type} (elem : Val α) (s : Sq α) : Sq α :=
  let tl := deref s s.tail
  let s1 := heapWrite s s.tail (aset tl s.tailL elem)
  { s1 with tailL := (s1.tailL + 1) % (tl.length : Int) }

/-- The filing prefix of `Shift` on a full head: either the head becomes the
tail (no tail yet), or the head is filed into the directory, growing it
first when full.  `none` is a Go nil-pointer panic. -/
def shiftFile {α : Type} (s : Sq α) : Option (Sq α) :=
  match s.tail with
  | none => some { s with tail := s.head, tailF := s.headF, tailL := s.headL }
  | some _ =>
    match (if s.cacheF = s.cacheL then grow s else some s) with
    | none => none
    | some s1 =>
      match cacheGet s1 s1.cacheF with
      | none => none
      | some c =>
          some { (cacheSet s1 s1.cacheF (some { c with idx := s1.headF })) with
                 cacheSize := s1.cacheSize + alenI s1 s1.head }

/-- The install-new-head suffix of `Shift`, after `cacheF` has been stepped
back: recycle the cached segment found at `cacheF` or allocate a fresh one,
and write the element. -/
def shiftInstall {α : Type} (elem : Val α) (s : Sq α) : Sq α :=
  match cacheGet s s.cacheF with
  | some c => writeHead elem { s with head := some c.ptr, headF := 0, headL := 0 }
  | none =>
      let capI := gmin (2 * gmax (alenI s s.head) (alenI s s.tail)) 100000
      let p := allocSeg capI s.cacheF s
      writeHead elem { p.1 with head := some p.2, headF := 0, headL := 1 }

/-- `Shift(elem)`: add to the front of the queue.  `none` is a Go panic. -/
def shiftOp {α : Type} (elem : Val α) (s : Sq α) : Option (Sq α) :=
  if ¬(s.headL = s.headF ∧ (aget (deref s s.head) s.headL).isSome = true) then
    -- Slots remain in head slice
    let f1 := s.headF - 1
    let f2 := if f1 < 0 then f1 + alenI s s.head else f1
    some (writeHead elem { s with headF := f2 })
  else
    (shiftFile s).map fun s1 =>
      let f1 := s1.cacheF - 1
      let f2 := if f1 < 0 then f1 + (s1.cache.length : Int) else f1
      shiftInstall elem { s1 with cacheF := f2 }

/-- The make-new-tail step of `Push`: recycle the cached segment at `cacheL`
or allocate a fresh one of capacity `cap`, then advance `cacheL`. -/
def pushNewTail {α : Type} (cap : Int) (s : Sq α) : Sq α :=
  let s1 :=
    match cacheGet s s.cacheL with
    | some c => { s with tail := some c.ptr, tailF := 0, tailL := 0 }
    | none =>
        let p := allocSeg cap s.cacheL s
        { p.1 with tail := some p.2, tailF := 0, tailL := 0 }
  { s1 with cacheL := (s1.cacheL + 1) % (s1.cache.length : Int) }

/-- The file-old-tail prefix of `Push` on a full tail, growing the directory
first when full.  `none` is a Go nil-pointer panic. -/
def pushFile {α : Type} (s : Sq α) : Option (Sq α) :=
  match (if s.cacheL = s.cacheF then grow s else some s) with
  | none => none
  | some s1 =>
    let d0 := s1.cacheL - 1
    let d1 := if d0 < 0 then d0 + (s1.cache.length : Int) else d0
    match cacheGet s1 d1 with
    | none => none
    | some c =>
        let s2 := cacheSet s1 d1 (some { c with idx := s1.tailF })
        some { s2 with cacheSize := s2.cacheSize + alenI s2 s2.tail }

/-- `Push(elem)`: add to the back of the queue.  `none` is a Go panic. -/
def pushOp {α : Type} (elem : Val α) (s : Sq α) : Option (Sq α) :=
  match s.tail with
  | none =>
      if ¬(s.headL = s.headF ∧ (aget (deref s s.head) s.headL).isSome = true) then
        some (writeHeadAdvance elem s)
      else
        some (writeTailAdvance elem (pushNewTail (gmin (2 * alenI s s.head) 100000) s))
  | some _ =>
      if s.tailL = s.tailF ∧ (aget (deref s s.tail) s.tailL).isSome = true then
        (pushFile s).map fun s1 =>
          writeTailAdvance elem
            (pushNewTail (gmin (2 * gmax (alenI s1 s1.head) (alenI s1 s1.tail)) 100000) s1)
      else
        some (writeTailAdvance elem s)

/-- Result of a peek/delete operation: the returned element and resulting
state, an `EmptyQueue` error with the resulting state, or a Go panic /
nontermination (`bad`). -/
inductive Pk (α : Type) where
  | ok (v : Val α) (s : Sq α)
  | err (s : Sq α)
  | bad
deriving Repr, DecidableEq

/-- One head-promotion step of `PeekFront` (after the error check fails):
void the stale directory slot behind the head when allowed, advance
`cacheF`, and promote the next segment — or the tail — to be the head.
`none` is a Go nil-pointer panic. -/
def pfStep {α : Type} (s : Sq α) : Option (Sq α) :=
  let n : Int := (s.cache.length : Int)
  let d0 := s.cacheF - 1
  let d1 := if d0 < 0 then d0 + n else d0
  let s1 := if s.cacheF ≠ s.cacheL ∧ d1 ≠ s.cacheL then cacheSet s d1 none else s
  let s2 := { s1 with cacheF := (s1.cacheF + 1) % n }
  if (s2.cacheF + 1) % n = s2.cacheL then
    some { s2 with head := s2.tail, headF := s2.tailF, headL := s2.tailL, tail := none }
  else
    match cacheGet s2 s2.cacheF with
    | none => none
    | some c =>
        let s3 := { s2 with head := some c.ptr }
        let s4 := { s3 with cacheSize := s3.cacheSize - alenI s3 s3.head }
        some { s4 with headF := c.idx, headL := c.idx }

/-- `PeekFront` with explicit fuel (the Go function recurses). -/
def peekFrontF {α : Type} : Nat → Sq α → Pk α
  | 0, _ => .bad
  | fuel + 1, s =>
    let elem := aget (deref s s.head) s.headF
    if elem.isSome then .ok elem s
    else if (s.cacheF + 1) % (s.cache.length : Int) = s.cacheL then .err s
    else
      match pfStep s with
      | none => .bad
      | some s2 => peekFrontF fuel s2

/-- `PeekFront()`. -/
def peekFront {α : Type} (s : Sq α) : Pk α := peekFrontF (s.cache.length + 2) s

/-- The slot `PeekBack` reads: `q[l-1]` circularly. -/
def backRead {α : Type} (q : Arr α) (l : Int) : Val α :=
  if l = 0 then aget q ((q.length : Int) - 1) else aget q (l - 1)

/-- One tail-demotion step of `PeekBack` (after its back-read found `nil`):
void the stale directory slot beyond the tail when allowed, retreat
`cacheL`, and demote the tail — promoting the previous filed segment as the
new tail unless only the head remains.  `none` is a Go nil-pointer panic. -/
def pbStep {α : Type} (s : Sq α) : Option (Sq α) :=
  let n : Int := (s.cache.length : Int)
  let d0 := s.cacheF - 1
  let d1 := if d0 < 0 then d0 + n else d0
  let e2 := s.cacheL - 1
  let d2 := if e2 < 0 then e2 + n else e2
  let e3 := s.cacheL - 2
  let d3 := if e3 < 0 then e3 + n else e3
  let s1 := if s.cacheL ≠ s.cacheF ∧ s.cacheL ≠ d1 then cacheSet s s.cacheL none else s
  let s2 := { s1 with cacheL := d2 }
  if s2.cacheL = (s2.cacheF + 1) % n then
    some { s2 with tail := none }
  else
    match cacheGet s2 d3 with
    | none => none
    | some c =>
        let s3 := { s2 with tail := some c.ptr, tailF := c.idx, tailL := c.idx }
        some { s3 with cacheSize := s3.cacheSize - alenI s3 s3.tail }

/-- `PeekBack` with explicit fuel. -/
def peekBackF {α : Type} : Nat → Sq α → Pk α
  | 0, _ => .bad
  | fuel + 1, s =>
    match s.tail with
    | none =>
        let elem := backRead (deref s s.head) s.headL
        if elem.isSome then .ok elem s else .err s
    | some _ =>
        let elem := backRead (deref s s.tail) s.tailL
        if elem.isSome then .ok elem s
        else
          match pbStep s with
          | none => .bad
          | some s2 => peekBackF fuel s2

/-- `PeekBack()`. -/
def peekBack {α : Type} (s : Sq α) : Pk α := peekBackF (s.cache.length + 2) s

/-- `Unshift()`: remove from the front (delegates to `PeekFront`). -/
def unshiftOp {α : Type} (s : Sq α) : Pk α :=
  match peekFront s with
  | .ok v s1 =>
      let s2 := heapWrite s1 s1.head (aset (deref s1 s1.head) s1.headF none)
      .ok v { s2 with headF := (s2.headF + 1) % (alenI s2 s2.head) }
  | .err s1 => .err s1
  | .bad => .bad

/-- `Pop()`: remove from the back (delegates to `PeekBack`). -/
def popOp {α : Type} (s : Sq α) : Pk α :=
  match peekBack s with
  | .ok v s1 =>
      match s1.tail with
      | none =>
          let l1 := s1.headL - 1
          let l2 := if l1 < 0 then l1 + alenI s1 s1.head else l1
          let s2 := { s1 with headL := l2 }
          .ok v (heapWrite s2 s2.head (aset (deref s2 s2.head) s2.headL none))
      | some _ =>
          let l1 := s1.tailL - 1
          let l2 := if l1 < 0 then l1 + alenI s1 s1.tail else l1
          let s2 := { s1 with tailL := l2 }
          .ok v (heapWrite s2 s2.tail (aset (deref s2 s2.tail) s2.tailL none))
  | .err s1 => .err s1
  | .bad => .bad

/-- `headSize()`: live count of the head segment. -/
def headSize {α : Type} (s : Sq α) : Int :=
  match s.head with
  | none => 0
  | some _ =>
    let f := s.headF
    let l := s.headL
    if f < l then l - f
    else if f > l then alenI s s.head - f + l
    else if (aget (deref s s.head) f).isSome then alenI s s.head else 0

/-- `tailSize()`: live count of the tail segment. -/
def tailSize {α : Type} (s : Sq α) : Int :=
  match s.tail with
  | none => 0
  | some _ =>
    let f := s.tailF
    let l := s.tailL
    if f < l then l - f
    else if f > l then alenI s s.tail - f + l
    else if (aget (deref s s.tail) f).isSome then alenI s s.tail else 0

/-- `Size()`. -/
def sizeOf {α : Type} (s : Sq α) : Int := headSize s + s.cacheSize + tailSize s

/-- `Empty()`. -/
def emptyOf {α : Type} (s : Sq α) : Bool := sizeOf s = 0

/-- `appendHead(s)`: append the head segment's slots in queue order. -/
def appendHead {α : Type} (s : Sq α) (acc : List (Val α)) : List (Val α) :=
  let q := deref s s.head
  let p := s.headF
  let c := s.headL
  if p < c then
    acc ++ ((List.range q.length).filterMap fun j =>
      if p ≤ (j : Int) ∧ (j : Int) < c then some (aget q j) else none)
  else
    (acc ++ ((List.range q.length).filterMap fun j =>
      if p ≤ (j : Int) then some (aget q j) else none)) ++
    ((List.range q.length).filterMap fun j =>
      if (j : Int) < c then some (aget q j) else none)

/-- `appendTail(s)`: append the tail segment's slots in queue order. -/
def appendTail {α : Type} (s : Sq α) (acc : List (Val α)) : List (Val α) :=
  let q := deref s s.tail
  let p := s.tailF
  let c := s.tailL
  if p < c then
    acc ++ ((List.range q.length).filterMap fun j =>
      if p ≤ (j : Int) ∧ (j : Int) < c then some (aget q j) else none)
  else
    (acc ++ ((List.range q.length).filterMap fun j =>
      if p ≤ (j : Int) then some (aget q j) else none)) ++
    ((List.range q.length).filterMap fun j =>
      if (j : Int) < c then some (aget q j) else none)

/-- `appendCacheInner(s, i)`: append all slots of the segment filed at
directory position `i`, starting from its recorded index. -/
def appendCacheInner {α : Type} (s : Sq α) (acc : List (Val α)) (i : Int) : List (Val α) :=
  match cacheGet s i with
  | none => acc   -- Go would panic; unreachable in the runs considered below
  | some c =>
    let q := deref s (some c.ptr)
    let p := c.idx
    (acc ++ ((List.range q.length).filterMap fun j =>
      if p ≤ (j : Int) then some (aget q j) else none)) ++
    ((List.range q.length).filterMap fun j =>
      if (j : Int) < p then some (aget q j) else none)

/-- `appendCache(s)`: append every directory-filed segment in queue order. -/
def appendCache {α : Type} (s : Sq α) (acc : List (Val α)) : List (Val α) :=
  if s.cacheF < s.cacheL then
    ((List.range s.cache.length).filter fun i =>
        s.cacheF + 1 ≤ (i : Int) ∧ (i : Int) < s.cacheL - 1).foldl
      (fun a i => appendCacheInner s a i) acc
  else
    let first := ((List.range s.cache.length).filter fun i =>
        s.cacheF + 1 ≤ (i : Int)).foldl (fun a i => appendCacheInner s a i) acc
    ((List.range s.cache.length).filter fun i =>
        (i : Int) < s.cacheL - 1).foldl (fun a i => appendCacheInner s a i) first

/-- `Each()`: head slots, then filed segments, then tail slots. -/
def eachOf {α : Type} (s : Sq α) : List (Val α) :=
  appendTail s (appendCache s (appendHead s []))

/-! ### Basic lemmas about the state helpers -/

section BasicLemmas

variable {α : Type}

@[simp] theorem length_aset (a : Arr α) (i : Int) (v : Val α) :
    (aset a i v).length = a.length := by
  unfold aset; split <;> simp

@[simp] theorem arrays_cacheSet (s : Sq α) (i : Int) (c : Option Cached) :
    (cacheSet s i c).arrays = s.arrays := by
  unfold cacheSet; split <;> rfl

@[simp] theorem head_cacheSet (s : Sq α) (i : Int) (c : Option Cached) :
    (cacheSet s i c).head = s.head := by
  unfold cacheSet; split <;> rfl

@[simp] theorem tail_cacheSet (s : Sq α) (i : Int) (c : Option Cached) :
    (cacheSet s i c).tail = s.tail := by
  unfold cacheSet; split <;> rfl

@[simp] theorem headF_cacheSet (s : Sq α) (i : Int) (c : Option Cached) :
    (cacheSet s i c).headF = s.headF := by
  unfold cacheSet; split <;> rfl

@[simp] theorem headL_cacheSet (s : Sq α) (i : Int) (c : Option Cached) :
    (cacheSet s i c).headL = s.headL := by
  unfold cacheSet; split <;> rfl

@[simp] theorem tailF_cacheSet (s : Sq α) (i : Int) (c : Option Cached) :
    (cacheSet s i c).tailF = s.tailF := by
  unfold cacheSet; split <;> rfl

@[simp] theorem tailL_cacheSet (s : Sq α) (i : Int) (c : Option Cached) :
    (cacheSet s i c).tailL = s.tailL := by
  unfold cacheSet; split <;> rfl

@[simp] theorem cacheF_cacheSet (s : Sq α) (i : Int) (c : Option Cached) :
    (cacheSet s i c).cacheF = s.cacheF := by
  unfold cacheSet; split <;> rfl

@[simp] theorem cacheL_cacheSet (s : Sq α) (i : Int) (c : Option Cached) :
    (cacheSet s i c).cacheL = s.cacheL := by
  unfold cacheSet; split <;> rfl

@[simp] theorem cacheSize_cacheSet (s : Sq α) (i : Int) (c : Option Cached) :
    (cacheSet s i c).cacheSize = s.cacheSize := by
  unfold cacheSet; split <;> rfl

@[simp] theorem length_cache_cacheSet (s : Sq α) (i : Int) (c : Option Cached) :
    (cacheSet s i c).cache.length = s.cache.length := by
  unfold cacheSet; split <;> simp

@[simp] theorem cache_heapWrite (s : Sq α) (p : Option Nat) (a : Arr α) :
    (heapWrite s p a).cache = s.cache := by
  unfold heapWrite; cases p <;> rfl

@[simp] theorem head_heapWrite (s : Sq α) (p : Option Nat) (a : Arr α) :
    (heapWrite s p a).head = s.head := by
  unfold heapWrite; cases p <;> rfl

@[simp] theorem tail_heapWrite (s : Sq α) (p : Option Nat) (a : Arr α) :
    (heapWrite s p a).tail = s.tail := by
  unfold heapWrite; cases p <;> rfl

@[simp] theorem headF_heapWrite (s : Sq α) (p : Option Nat) (a : Arr α) :
    (heapWrite s p a).headF = s.headF := by
  unfold heapWrite; cases p <;> rfl

@[simp] theorem headL_heapWrite (s : Sq α) (p : Option Nat) (a : Arr α) :
    (heapWrite s p a).headL = s.headL := by
  unfold heapWrite; cases p <;> rfl

@[simp] theorem tailF_heapWrite (s : Sq α) (p : Option Nat) (a : Arr α) :
    (heapWrite s p a).tailF = s.tailF := by
  unfold heapWrite; cases p <;> rfl

@[simp] theorem tailL_heapWrite (s : Sq α) (p : Option Nat) (a : Arr α) :
    (heapWrite s p a).tailL = s.tailL := by
  unfold heapWrite; cases p <;> rfl

@[simp] theorem cacheF_heapWrite (s : Sq α) (p : Option Nat) (a : Arr α) :
    (heapWrite s p a).cacheF = s.cacheF := by
  unfold heapWrite; cases p <;> rfl

@[simp] theorem cacheL_heapWrite (s : Sq α) (p : Option Nat) (a : Arr α) :
    (heapWrite s p a).cacheL = s.cacheL := by
  unfold heapWrite; cases p <;> rfl

@[simp] theorem cacheSize_heapWrite (s : Sq α) (p : Option Nat) (a : Arr α) :
    (heapWrite s p a).cacheSize = s.cacheSize := by
  unfold heapWrite; cases p <;> rfl

@[simp] theorem length_arrays_heapWrite (s : Sq α) (p : Option Nat) (a : Arr α) :
    (heapWrite s p a).arrays.length = s.arrays.length := by
  unfold heapWrite; cases p <;> simp

/-- Writing through a valid reference stores the array there. -/
theorem deref_heapWrite_self (s : Sq α) (p : Nat) (a : Arr α)
    (hp : p < s.arrays.length) :
    deref (heapWrite s (some p) a) (some p) = a := by
  unfold heapWrite deref
  simp only [List.getD_eq_getElem?_getD]
  rw [List.getElem?_set_eq_of_lt _ (by simpa using hp)]
  rfl

/-- Writing through one reference leaves other arrays unchanged. -/
theorem deref_heapWrite_ne (s : Sq α) (p q : Nat) (a : Arr α) (hpq : p ≠ q) :
    deref (heapWrite s (some p) a) (some q) = deref s (some q) := by
  unfold heapWrite deref
  simp only [List.getD_eq_getElem?_getD]
  rw [List.getElem?_set_ne hpq]

@[simp] theorem deref_none (s : Sq α) : deref s none = ([] : Arr α) := rfl

theorem cacheGet_cacheSet_ne (s : Sq α) (i j : Int) (c : Option Cached)
    (hij : i ≠ j) : cacheGet (cacheSet s i c) j = cacheGet s j := by
  unfold cacheGet cacheSet
  split
  · simp only [List.getD_eq_getElem?_getD, List.length_set]
    split
    · rw [List.getElem?_set_ne (by omega)]
    · rfl
  · rfl

theorem cacheGet_cacheSet_self (s : Sq α) (i : Int) (c : Option Cached)
    (h0 : 0 ≤ i) (h1 : i < (s.cache.length : Int)) :
    cacheGet (cacheSet s i c) i = c := by
  unfold cacheSet
  rw [if_pos ⟨h0, h1⟩]
  unfold cacheGet
  simp only [List.length_set]
  rw [if_pos ⟨h0, h1⟩]
  simp only [List.getD_eq_getElem?_getD]
  rw [List.getElem?_set_eq_of_lt _ (by omega)]
  rfl

@[simp] theorem getD_append_length (l : List (Arr α)) (x : Arr α) :
    (l ++ [x]).getD l.length ([] : Arr α) = x := by
  simp [List.getD_eq_getElem?_getD]

end BasicLemmas

/-! ### Operation traces

A trace is a list of public mutating operations.  Failed delete operations
(`EmptyQueue`) leave whatever state the Go method left behind; a Go panic or
nontermination aborts the trace (`none`). -/

/-- One public mutating operation. -/
inductive Op (α : Type) where
  | push (v : Val α)
  | shift (v : Val α)
  | unshift
  | pop
  | peekF
  | peekB
deriving Repr, DecidableEq

/-- Apply one operation to a state, keeping only the state. -/
def stepOp {α : Type} (s : Sq α) (o : Op α) : Option (Sq α) :=
  match o with
  | .push v => pushOp v s
  | .shift v => shiftOp v s
  | .unshift =>
      match unshiftOp s with
      | .ok _ s1 => some s1
      | .err s1 => some s1
      | .bad => none
  | .pop =>
      match popOp s with
      | .ok _ s1 => some s1
      | .err s1 => some s1
      | .bad => none
  | .peekF =>
      match peekFront s with
      | .ok _ s1 => some s1
      | .err s1 => some s1
      | .bad => none
  | .peekB =>
      match peekBack s with
      | .ok _ s1 => some s1
      | .err s1 => some s1
      | .bad => none

/-- Run a trace from a state. -/
def runTrace {α : Type} (s : Sq α) (ops : List (Op α)) : Option (Sq α) :=
  ops.foldl (fun acc o => acc.bind fun s1 => stepOp s1 o) (some s)

/-- Push each value of a list in order (all pushes succeed or the run aborts). -/
def pushList {α : Type} (s : Sq α) (xs : List (Val α)) : Option (Sq α) :=
  runTrace s (xs.map Op.push)

/-- Perform `n` unshifts, collecting the returned elements of the successful
ones in order; an `EmptyQueue` error contributes no element. -/
def unshiftN {α : Type} : Nat → Sq α → Option (List (Val α) × Sq α)
  | 0, s => some ([], s)
  | n + 1, s =>
      match unshiftOp s with
      | .ok v s1 => (unshiftN n s1).map fun (vs, s2) => (v :: vs, s2)
      | .err s1 => (unshiftN n s1).map fun (vs, s2) => (vs, s2)
      | .bad => none

/-- Run a trace, also counting the delete operations (`unshift`/`pop`) that
succeed (return an element). -/
def runCount {α : Type} (s : Sq α) (ops : List (Op α)) : Option (Sq α × Nat) :=
  ops.foldl
    (fun acc o => acc.bind fun (s1, k) =>
      match o with
      | .unshift =>
          match unshiftOp s1 with
          | .ok _ s2 => some (s2, k + 1)
          | .err s2 => some (s2, k)
          | .bad => none
      | .pop =>
          match popOp s1 with
          | .ok _ s2 => some (s2, k + 1)
          | .err s2 => some (s2, k)
          | .bad => none
      | _ => (stepOp s1 o).map fun s2 => (s2, k))
    (some (s, 0))

/-- Number of insert operations (`push`/`shift`) in a trace. -/
def insertCount {α : Type} (ops : List (Op α)) : Nat :=
  (ops.filter fun o =>
    match o with
    | .push _ => true
    | .shift _ => true
    | _ => false).length

/-- Whether a peek/delete outcome is the `EmptyQueue` error. -/
def Pk.isErr {α : Type} : Pk α → Bool
  | .err _ => true
  | _ => false

/-! ### Concrete counterexample traces -/

/-- 23 inserts (non-nil), 2 successful unshifts; ends in a state whose
`Size()` is 60 although only 21 elements remain.  The final `Shift` recycles
a cached segment but leaves `headF = headL = 0` with a value written at slot
0, which `headSize` reads as a completely full segment. -/
def trC1 : List (Op Int) :=
  [.push (some 269), .push (some 270), .push (some 274), .shift (some 275),
   .shift (some 276), .push (some 277), .shift (some 278), .shift (some 279),
   .push (some 281), .shift (some 282), .push (some 288), .shift (some 289),
   .push (some 290), .shift (some 291), .push (some 293), .push (some 294),
   .push (some 301), .push (some 302), .push (some 305), .shift (some 306),
   .shift (some 307), .unshift, .unshift, .shift (some 324), .shift (some 325)]

/-- Inserts several `nil` elements; ends in a state with `Size() = 0` on
which `PeekBack` nevertheless returns the element 9. -/
def trC2 : List (Op Int) :=
  [.push none, .push none, .shift (some 1), .shift none, .shift (some 3),
   .push none, .shift (some 4), .shift none, .shift none, .push none,
   .shift none, .shift (some 5), .shift none, .shift none, .shift none,
   .push none, .shift (some 7), .push none, .push (some 8), .unshift,
   .push none, .push (some 9)]

/-- 21 pushes, one pop, 20 unshifts: the deque is empty but still holds an
empty tail segment, so the next failing `Pop` demotes that tail and mutates
the state while returning the `EmptyQueue` error. -/
def trC5 : List (Op Int) :=
  ((List.range 21).map fun i => Op.push (some ((i : Int) + 1)))
    ++ [.pop] ++ List.replicate 20 .unshift

/-! ### Claim theorems: concrete runs -/

/-- C1: the size invariant fails on the code.  Running `trC1` from a fresh
deque performs 23 insertions and exactly 2 successful removals, yet `Size()`
returns 60 instead of 21.  (`Size()` is indeed computed as
`headSize + cacheSize + tailSize` without scanning filed segments — see
`sizeOf` — but the cached bookkeeping is wrong after `Shift` recycles a
segment.) -/
theorem C1_size_invariant_fails :
    (runCount (new0 Int) trC1).map (fun p => (sizeOf p.1, p.2)) = some (60, 2) ∧
    insertCount trC1 = 23 ∧ (60 : Int) ≠ 23 - 2 := by
  exact ⟨by decide, by decide, by decide⟩

/-- C2 counterexample: a reachable state (after inserting some `nil`
elements) that has been drained to `Size() = 0` (one successful removal
occurred) on which `PeekBack` succeeds and returns element 9 instead of
failing with `EmptyQueue`. -/
theorem C2_drained_peek_succeeds :
    (runCount (new0 Int) trC2).map (fun p => (sizeOf p.1, p.2)) = some (0, 1) ∧
    (runTrace (new0 Int) trC2).bind
      (fun s => match peekBack s with | .ok v _ => some v | _ => none) = some (some 9) := by
  exact ⟨by decide, by decide⟩

/-- C4: traversal fidelity fails on the code.  On a freshly constructed
deque — which is reachable, has `Size() = 0`, and whose
unshift-until-empty trace is empty (`Unshift` immediately errors) — `Each()`
returns the 20 raw (all-`nil`) slots of the head segment instead of the
empty sequence. -/
theorem C4_each_fresh_mismatch :
    eachOf (new0 Int) = List.replicate 20 (none : Val Int) ∧
    sizeOf (new0 Int) = 0 ∧
    (unshiftOp (new0 Int)).isErr = true ∧
    eachOf (new0 Int) ≠ ([] : List (Val Int)) := by
  exact ⟨by decide, by decide, by decide, by decide⟩

/-- C5 counterexample: after `trC5` the deque is empty but still holds an
empty tail segment; the next `Pop` returns the `EmptyQueue` error yet leaves
a *different* state (the tail segment is demoted and `cacheL` moves). -/
theorem C5_failing_pop_mutates :
    (runTrace (new0 Int) trC5).bind
      (fun s => match popOp s with | .err s1 => some (decide (s1 = s)) | _ => none)
      = some false := by
  decide

/-- C5 amended: on a freshly constructed deque every failing delete/peek
operation returns the `EmptyQueue` error and leaves the state byte-for-byte
unchanged; in general a failing call may still mutate internal bookkeeping
(see `C5_failing_pop_mutates`). -/
theorem C5_fresh_failures_leave_state_unchanged (α : Type) :
    peekFront (new0 α) = .err (new0 α) ∧
    peekBack (new0 α) = .err (new0 α) ∧
    unshiftOp (new0 α) = .err (new0 α) ∧
    popOp (new0 α) = .err (new0 α) :=
  ⟨rfl, rfl, rfl, rfl⟩

/-- Witness for `C5_fresh_failures_leave_state_unchanged` at `α = Int`. -/
theorem C5_fresh_failures_witness :
    peekFront (new0 Int) = .err (new0 Int) ∧
    peekBack (new0 Int) = .err (new0 Int) ∧
    unshiftOp (new0 Int) = .err (new0 Int) ∧
    popOp (new0 Int) = .err (new0 Int) :=
  C5_fresh_failures_leave_state_unchanged Int

/-- C6: the concrete scenario.  From empty: `Push 1`, `Push 2`, `Shift 0`
gives `Each() = [0,1,2]`; then `Unshift` returns 0 and `Each() = [1,2]`;
then `Pop` returns 2 and `Size() = 1`. -/
theorem C6_concrete_scenario :
    (runTrace (new0 Int) [.push (some 1), .push (some 2), .shift (some 0)]).map eachOf
      = some [some 0, some 1, some 2] ∧
    (runTrace (new0 Int) [.push (some 1), .push (some 2), .shift (some 0)]).bind
        (fun s => match unshiftOp s with | .ok v s1 => some (v, eachOf s1) | _ => none)
      = some (some 0, [some 1, some 2]) ∧
    (runTrace (new0 Int) [.push (some 1), .push (some 2), .shift (some 0), .unshift]).bind
        (fun s => match popOp s with | .ok v s1 => some (v, sizeOf s1) | _ => none)
      = some (some 2, 1) := by
  exact ⟨by decide, by decide, by decide⟩

/-- C10: pushing the `nil` interface value makes `Size()` report 1 while
`PeekFront` and `Unshift` fail with the `EmptyQueue` error — the stored
`nil` is indistinguishable from the internal vacant-slot sentinel. -/
theorem C10_nil_push_degenerate :
    (pushOp (none : Val Int) (new0 Int)).map
      (fun s => (sizeOf s, (peekFront s).isErr, (unshiftOp s).isErr))
      = some (1, true, true) := by
  decide

/-! ### Claim theorems: directory growth (C8) -/

/-- `resize` on a full directory copies the entries in circular order to the
front of the fresh slot array. -/
theorem resize_full {α : Type} (s : Sq α) (m : Int)
    (h1 : s.cacheF < (s.cache.length : Int))
    (hfull : s.cacheF = s.cacheL) (hm : (s.cache.length : Int) ≤ m) :
    resize s m = some { s with
                        cacheF := 0, cacheL := (s.cache.length : Int),
                        cache := s.cache.rotate s.cacheF.toNat ++
                          List.replicate (m.toNat - s.cache.length) none } := by
  have hcf : s.cacheF.toNat ≤ s.cache.length := by omega
  have hmn : s.cache.length ≤ m.toNat := by omega
  unfold resize
  rcases eq_or_ne s.cacheF 0 with h | h
  · rw [if_pos h]
    have hmin : min m.toNat s.cache.length = s.cache.length := by omega
    simp only [hmin, h, Int.toNat_zero, List.rotate_zero, List.take_length]
  · rw [if_neg h]
    rw [← hfull]
    have hlen : (s.cache.drop s.cacheF.toNat ++ s.cache.take s.cacheF.toNat).length = s.cache.length := by
      simp; omega
    rw [if_pos (by rw [hlen]; exact hmn)]
    rw [hlen]
    rw [List.rotate_eq_drop_append_take hcf]

/-- C8: on a full directory (`cacheF = cacheL`, as found by a filing push or
shift), `grow` doubles the capacity (with floor 8 below capacity 6) and
`resize` copies the entries to the front of the larger circular array in
logical order: new entry `k` is old entry `(cacheF + k) %% len`, `cacheF`
becomes 0 and `cacheL` the number of entries copied; the remaining new slots
are empty and nothing else changes.  In particular no filed entry is dropped
or reordered. -/
theorem grow_spec {α : Type} (s : Sq α)
    (h1 : s.cacheF < (s.cache.length : Int)) (h0 : 0 ≤ s.cacheF)
    (hfull : s.cacheF = s.cacheL) :
    ∃ s2 : Sq α, grow s = some s2 ∧
      (s2.cache.length : Int) =
        (if (s.cache.length : Int) < 6 then 8 else 2 * (s.cache.length : Int)) ∧
      s2.cacheF = 0 ∧ s2.cacheL = (s.cache.length : Int) ∧
      (∀ k : Nat, k < s.cache.length →
        s2.cache.getD k none = s.cache.getD ((s.cacheF.toNat + k) % s.cache.length) none) ∧
      (∀ k : Nat, s.cache.length ≤ k → k < s2.cache.length → s2.cache.getD k none = none) ∧
      s2.arrays = s.arrays ∧ s2.head = s.head ∧ s2.tail = s.tail ∧
      s2.headF = s.headF ∧ s2.headL = s.headL ∧ s2.tailF = s.tailF ∧
      s2.tailL = s.tailL ∧ s2.cacheSize = s.cacheSize := by
  have main : ∀ m : Int, (s.cache.length : Int) ≤ m →
      ∀ s2 : Sq α, s2 = { s with
          cacheF := 0, cacheL := (s.cache.length : Int),
          cache := s.cache.rotate s.cacheF.toNat ++
            List.replicate (m.toNat - s.cache.length) none } →
      (s2.cache.length : Int) = m ∧
      s2.cacheF = 0 ∧ s2.cacheL = (s.cache.length : Int) ∧
      (∀ k : Nat, k < s.cache.length →
        s2.cache.getD k none = s.cache.getD ((s.cacheF.toNat + k) % s.cache.length) none) ∧
      (∀ k : Nat, s.cache.length ≤ k → k < s2.cache.length → s2.cache.getD k none = none) := by
    intro m hm s2 hs2
    have hrl : (s.cache.rotate s.cacheF.toNat).length = s.cache.length := List.length_rotate _ _
    have hclen : s2.cache.length = m.toNat := by
      rw [hs2]; simp only [List.length_append, List.length_replicate, hrl]; omega
    refine ⟨by rw [hclen]; omega, by rw [hs2], by rw [hs2], ?_, ?_⟩
    · intro k hk
      have hk2 : k < (s.cache.rotate s.cacheF.toNat).length := by omega
      rw [hs2]
      show (s.cache.rotate s.cacheF.toNat ++ _).getD k none = _
      rw [List.getD_append _ _ _ _ hk2, List.getD_eq_getElem _ _ hk2]
      have hidx : (k + s.cacheF.toNat) % s.cache.length < s.cache.length :=
        Nat.mod_lt _ (by omega)
      rw [Nat.add_comm s.cacheF.toNat k]
      rw [List.getD_eq_getElem _ _ hidx]
      exact List.getElem_rotate s.cache s.cacheF.toNat k hk2
    · intro k hk1 hk2
      rw [hs2] at hk2 ⊢
      show (s.cache.rotate s.cacheF.toNat ++ _).getD k none = _
      rw [List.getD_append_right _ _ _ _ (by omega)]
      rcases lt_or_ge (k - (s.cache.rotate s.cacheF.toNat).length)
          (List.replicate (m.toNat - s.cache.length) (none : Option Cached)).length with h | h
      · rw [List.getD_eq_getElem _ _ h, List.getElem_replicate]
      · rw [List.getD_eq_default _ _ h]
  unfold grow
  by_cases h6 : (s.cache.length : Int) < 6
  · rw [if_pos h6]
    refine ⟨_, resize_full s 8 h1 hfull (by omega), ?_⟩
    have := main 8 (by omega) _ rfl
    rw [if_pos h6]
    exact ⟨this.1, this.2.1, this.2.2.1, this.2.2.2.1, this.2.2.2.2, rfl, rfl, rfl, rfl, rfl,
      rfl, rfl, rfl⟩
  · rw [if_neg h6]
    refine ⟨_, resize_full s (2 * (s.cache.length : Int)) h1 hfull (by omega), ?_⟩
    have := main (2 * (s.cache.length : Int)) (by omega) _ rfl
    rw [if_neg h6]
    exact ⟨this.1, this.2.1, this.2.2.1, this.2.2.2.1, this.2.2.2.2, rfl, rfl, rfl, rfl, rfl,
      rfl, rfl, rfl⟩

end Squeue

/-! ### Claim theorems: fresh segment capacity (C9) -/

namespace Squeue

/-- C8 (claim theorem): see `grow_spec` for the underlying specification of
`grow`/`resize` on a full directory. -/
theorem C8_grow_preserves_directory (α : Type) (s : Sq α)
    (h1 : s.cacheF < (s.cache.length : Int)) (h0 : 0 ≤ s.cacheF)
    (hfull : s.cacheF = s.cacheL) :
    ∃ s2 : Sq α, grow s = some s2 ∧
      (s2.cache.length : Int) =
        (if (s.cache.length : Int) < 6 then 8 else 2 * (s.cache.length : Int)) ∧
      s2.cacheF = 0 ∧ s2.cacheL = (s.cache.length : Int) ∧
      (∀ k : Nat, k < s.cache.length →
        s2.cache.getD k none = s.cache.getD ((s.cacheF.toNat + k) % s.cache.length) none) ∧
      (∀ k : Nat, s.cache.length ≤ k → k < s2.cache.length → s2.cache.getD k none = none) ∧
      s2.arrays = s.arrays ∧ s2.head = s.head ∧ s2.tail = s.tail ∧
      s2.headF = s.headF ∧ s2.headL = s.headL ∧ s2.tailF = s.tailF ∧
      s2.tailL = s.tailL ∧ s2.cacheSize = s.cacheSize :=
  grow_spec s h1 h0 hfull

/-- A concrete full directory (`cacheF = cacheL`). -/
def c8w : Sq Int := { new0 Int with cacheL := 0 }

/-- Witness for `C8_grow_preserves_directory` at the concrete state `c8w`. -/
theorem C8_grow_witness :
    ∃ s2 : Sq Int, grow c8w = some s2 ∧
      (s2.cache.length : Int) =
        (if (c8w.cache.length : Int) < 6 then 8 else 2 * (c8w.cache.length : Int)) ∧
      s2.cacheF = 0 ∧ s2.cacheL = (c8w.cache.length : Int) ∧
      (∀ k : Nat, k < c8w.cache.length →
        s2.cache.getD k none = c8w.cache.getD ((c8w.cacheF.toNat + k) % c8w.cache.length) none) ∧
      (∀ k : Nat, c8w.cache.length ≤ k → k < s2.cache.length → s2.cache.getD k none = none) ∧
      s2.arrays = c8w.arrays ∧ s2.head = c8w.head ∧ s2.tail = c8w.tail ∧
      s2.headF = c8w.headF ∧ s2.headL = c8w.headL ∧ s2.tailF = c8w.tailF ∧
      s2.tailL = c8w.tailL ∧ s2.cacheSize = c8w.cacheSize :=
  C8_grow_preserves_directory Int c8w (by decide) (by decide) (by decide)



/-- The capacity formula: twice the larger of the head's and tail's current
capacities, capped at 100000. -/
def allocCap {α : Type} (s : Sq α) : Int :=
  gmin (2 * gmax (alenI s s.head) (alenI s s.tail)) 100000

theorem alenI_nonneg {α : Type} (s : Sq α) (p : Option Nat) : 0 ≤ alenI s p := by
  unfold alenI; positivity

theorem allocCap_nonneg {α : Type} (s : Sq α) : 0 ≤ allocCap s := by
  unfold allocCap gmin gmax
  have h1 := alenI_nonneg s s.head
  have h2 := alenI_nonneg s s.tail
  split <;> split <;> omega

/-- `pushNewTail` with an empty recycling slot allocates one fresh segment of
exactly the requested capacity. -/
theorem pushNewTail_alloc {α : Type} (cap : Int) (s : Sq α)
    (hmiss : cacheGet s s.cacheL = none) (hcap : 0 ≤ cap) :
    (pushNewTail cap s).arrays = s.arrays ++ [List.replicate cap.toNat none] ∧
    (pushNewTail cap s).tail = some s.arrays.length := by
  unfold pushNewTail allocSeg
  rw [hmiss]
  constructor <;> simp

theorem writeTailAdvance_arrays_len {α : Type} (v : Val α) (s : Sq α) :
    (writeTailAdvance v s).arrays.length = s.arrays.length := by
  unfold writeTailAdvance; simp

/-- After `writeTailAdvance` into a valid tail, the tail array is the old
one with the element written. -/
theorem writeTailAdvance_tail_arr {α : Type} (v : Val α) (s : Sq α) (p : Nat)
    (hp : s.tail = some p) (hlt : p < s.arrays.length) :
    deref (writeTailAdvance v s) (some p) = aset (deref s (some p)) s.tailL v := by
  unfold writeTailAdvance
  rw [hp]
  exact deref_heapWrite_self _ _ _ hlt

theorem C9_case_a {α : Type} (v : Val α) (s : Sq α)
    (ha1 : s.tail = none) (ha2 : s.headL = s.headF)
    (ha3 : (aget (deref s s.head) s.headL).isSome = true)
    (ha4 : cacheGet s s.cacheL = none) :
    ∃ s2 : Sq α, pushOp v s = some s2 ∧
      s2.arrays.length = s.arrays.length + 1 ∧
      ((s2.arrays.getD s.arrays.length []).length : Int) = allocCap s := by
  have hcap0 : 0 ≤ gmin (2 * alenI s s.head) 100000 := by
    have := alenI_nonneg s s.head; unfold gmin; split <;> omega
  have halloc := pushNewTail_alloc (gmin (2 * alenI s s.head) 100000) s ha4 hcap0
  refine ⟨writeTailAdvance v (pushNewTail (gmin (2 * alenI s s.head) 100000) s), ?_, ?_, ?_⟩
  · unfold pushOp
    rw [ha1]
    rw [if_neg (not_not_intro ⟨ha2, ha3⟩)]
  · rw [writeTailAdvance_arrays_len, halloc.1]
    simp
  · set s1 := pushNewTail (gmin (2 * alenI s s.head) 100000) s with hs1
    have harr := writeTailAdvance_tail_arr v s1 s.arrays.length
      (by rw [halloc.2]) (by rw [halloc.1]; simp)
    have hget : (writeTailAdvance v s1).arrays.getD s.arrays.length [] =
        deref (writeTailAdvance v s1) (some s.arrays.length) := by
      unfold deref; rfl
    rw [hget, harr]
    have hderef : deref s1 (some s.arrays.length) = List.replicate (gmin (2 * alenI s s.head) 100000).toNat none := by
      unfold deref
      rw [halloc.1]
      simp
    rw [hderef]
    simp only [length_aset, List.length_replicate]
    have : alenI s s.tail = 0 := by rw [ha1]; rfl
    unfold allocCap
    rw [this]
    have h1 := alenI_nonneg s s.head
    unfold gmin gmax
    repeat' split
    all_goals omega


theorem deref_congr_arrays {α : Type} (s1 s2 : Sq α) (p : Option Nat)
    (h : s1.arrays = s2.arrays) : deref s1 p = deref s2 p := by
  unfold deref; cases p <;> simp [h]

theorem alenI_congr {α : Type} (s1 s2 : Sq α) (p : Option Nat)
    (h : s1.arrays = s2.arrays) : alenI s1 p = alenI s2 p := by
  unfold alenI; rw [deref_congr_arrays s1 s2 p h]

theorem allocSeg_spec {α : Type} (cap slot : Int) (s : Sq α) :
    (allocSeg cap slot s).1.arrays = s.arrays ++ [List.replicate cap.toNat none] ∧
    (allocSeg cap slot s).2 = s.arrays.length := by
  unfold allocSeg; constructor <;> simp

theorem writeHead_arrays_len {α : Type} (v : Val α) (s : Sq α) :
    (writeHead v s).arrays.length = s.arrays.length := by
  unfold writeHead; simp

theorem writeHead_head_arr {α : Type} (v : Val α) (s : Sq α) (p : Nat)
    (hp : s.head = some p) (hlt : p < s.arrays.length) :
    deref (writeHead v s) (some p) = aset (deref s (some p)) s.headF v := by
  unfold writeHead
  rw [hp]
  exact deref_heapWrite_self _ _ _ hlt

@[simp] theorem alenI_cacheSet {α : Type} (s : Sq α) (i : Int) (c : Option Cached)
    (p : Option Nat) : alenI (cacheSet s i c) p = alenI s p :=
  alenI_congr _ _ _ (arrays_cacheSet s i c)

/-- `pushFile` without growth: file the tail's start offset at the directory
slot before `cacheL` and account its length. -/
theorem pushFile_no_grow {α : Type} (s : Sq α) (c : Cached)
    (h4 : s.cacheL ≠ s.cacheF)
    (hc : cacheGet s (if s.cacheL - 1 < 0 then s.cacheL - 1 + (s.cache.length : Int)
                      else s.cacheL - 1) = some c) :
    pushFile s = some
      { (cacheSet s (if s.cacheL - 1 < 0 then s.cacheL - 1 + (s.cache.length : Int)
                     else s.cacheL - 1) (some { c with idx := s.tailF })) with
        cacheSize := s.cacheSize + alenI s s.tail } := by
  unfold pushFile
  rw [if_neg h4]
  simp only [hc]
  simp only [cacheSize_cacheSet, tail_cacheSet, alenI_cacheSet]

theorem C9_case_b {α : Type} (v : Val α) (s : Sq α) (t : Nat) (c : Cached)
    (hb1 : s.tail = some t)
    (hb2 : s.tailL = s.tailF) (hb3 : (aget (deref s s.tail) s.tailL).isSome = true)
    (hb4 : s.cacheL ≠ s.cacheF)
    (hb7 : 2 ≤ s.cache.length)
    (hb8 : cacheGet s (if s.cacheL - 1 < 0 then s.cacheL - 1 + (s.cache.length : Int)
                       else s.cacheL - 1) = some c)
    (hb9 : cacheGet s s.cacheL = none) :
    ∃ s2 : Sq α, pushOp v s = some s2 ∧
      s2.arrays.length = s.arrays.length + 1 ∧
      ((s2.arrays.getD s.arrays.length []).length : Int) = allocCap s := by
  set d1 := (if s.cacheL - 1 < 0 then s.cacheL - 1 + (s.cache.length : Int)
             else s.cacheL - 1) with hd1def
  set s1 : Sq α :=
    { (cacheSet s d1 (some { c with idx := s.tailF })) with
      cacheSize := s.cacheSize + alenI s s.tail } with hs1def
  have harr1 : s1.arrays = s.arrays := by rw [hs1def]; simp
  have hhead1 : s1.head = s.head := by rw [hs1def]; simp
  have htail1 : s1.tail = s.tail := by rw [hs1def]; simp
  have hlen1 : alenI s1 s1.head = alenI s s.head := by
    rw [hhead1]; exact alenI_congr _ _ _ harr1
  have hlen2 : alenI s1 s1.tail = alenI s s.tail := by
    rw [htail1]; exact alenI_congr _ _ _ harr1
  have hcL1 : s1.cacheL = s.cacheL := by rw [hs1def]; simp
  have hd1ne : d1 ≠ s.cacheL := by rw [hd1def]; split <;> omega
  have hmiss1 : cacheGet s1 s1.cacheL = none := by
    rw [hcL1]
    have : cacheGet s1 s.cacheL = cacheGet (cacheSet s d1 (some { c with idx := s.tailF })) s.cacheL := rfl
    rw [this, cacheGet_cacheSet_ne _ _ _ _ hd1ne]
    exact hb9
  set cap := gmin (2 * gmax (alenI s1 s1.head) (alenI s1 s1.tail)) 100000 with hcapdef
  have hcap : cap = allocCap s := by
    rw [hcapdef]; unfold allocCap; rw [hlen1, hlen2]
  have hcap0 : 0 ≤ cap := by rw [hcap]; exact allocCap_nonneg s
  have halloc := pushNewTail_alloc cap s1 hmiss1 hcap0
  refine ⟨writeTailAdvance v (pushNewTail cap s1), ?_, ?_, ?_⟩
  · unfold pushOp
    split
    · rename_i heq; rw [heq] at hb1; cases hb1
    · rename_i t2 heq
      rw [if_pos ⟨hb2, hb3⟩]
      rw [pushFile_no_grow s c hb4 hb8]
      rw [← hd1def, ← hs1def]
      rfl
  · rw [writeTailAdvance_arrays_len, halloc.1, harr1]
    simp
  · have harrlen : s1.arrays.length = s.arrays.length := by rw [harr1]
    have harr := writeTailAdvance_tail_arr v (pushNewTail cap s1) s1.arrays.length
      (by rw [halloc.2]) (by rw [halloc.1]; simp)
    have hget : (writeTailAdvance v (pushNewTail cap s1)).arrays.getD s.arrays.length ([] : Arr α) =
        deref (writeTailAdvance v (pushNewTail cap s1)) (some s.arrays.length) := rfl
    rw [hget, ← harrlen, harr]
    have hderef : deref (pushNewTail cap s1) (some s1.arrays.length) =
        List.replicate cap.toNat none := by
      unfold deref; rw [halloc.1]; simp
    rw [hderef]
    simp only [length_aset, List.length_replicate]
    rw [← hcap]
    omega


theorem C9_case_d {α : Type} (v : Val α) (s : Sq α)
    (hd1 : s.tail = none) (hd2 : s.headL = s.headF)
    (hd3 : (aget (deref s s.head) s.headL).isSome = true)
    (hd4 : cacheGet s (if s.cacheF - 1 < 0 then s.cacheF - 1 + (s.cache.length : Int)
                       else s.cacheF - 1) = none) :
    ∃ s2 : Sq α, shiftOp v s = some s2 ∧
      s2.arrays.length = s.arrays.length + 1 ∧
      ((s2.arrays.getD s.arrays.length []).length : Int) = allocCap s := by
  set s1 : Sq α := { s with tail := s.head, tailF := s.headF, tailL := s.headL } with hs1
  set f2 := (if s1.cacheF - 1 < 0 then s1.cacheF - 1 + (s1.cache.length : Int)
             else s1.cacheF - 1) with hf2
  set s1b : Sq α := { s1 with cacheF := f2 } with hs1b
  have hmiss : cacheGet s1b s1b.cacheF = none := hd4
  set cap := gmin (2 * gmax (alenI s1b s1b.head) (alenI s1b s1b.tail)) 100000 with hcap
  have heq1 : shiftOp v s = some (shiftInstall v s1b) := by
    unfold shiftOp
    rw [if_neg (not_not_intro ⟨hd2, hd3⟩)]
    unfold shiftFile
    split
    · rfl
    · rename_i t heq; rw [heq] at hd1; cases hd1
  have heq2 : shiftInstall v s1b =
      writeHead v { (allocSeg cap s1b.cacheF s1b).1 with
                    head := some (allocSeg cap s1b.cacheF s1b).2, headF := 0, headL := 1 } := by
    unfold shiftInstall
    split
    · rename_i c hsome; rw [hmiss] at hsome; cases hsome
    · rfl
  have hallarr : (allocSeg cap s1b.cacheF s1b).1.arrays
      = s.arrays ++ [List.replicate cap.toNat none] := (allocSeg_spec cap s1b.cacheF s1b).1
  have hallp : (allocSeg cap s1b.cacheF s1b).2 = s.arrays.length := (allocSeg_spec cap s1b.cacheF s1b).2
  have hhead : alenI s s.head = alenI s1b s1b.head := rfl
  have hcapval : cap = allocCap s := by
    have htl : alenI s s.tail = 0 := by rw [hd1]; rfl
    have hh0 : 0 ≤ alenI s s.head := alenI_nonneg s s.head
    have hps : cap = gmin (2 * gmax (alenI s s.head) (alenI s s.head)) 100000 := hcap
    rw [hps]
    unfold allocCap
    rw [htl]
    unfold gmin gmax
    repeat' split
    all_goals omega
  set sfin : Sq α := { (allocSeg cap s1b.cacheF s1b).1 with
                       head := some (allocSeg cap s1b.cacheF s1b).2, headF := 0, headL := 1 } with hsfin
  have hcap0 : 0 ≤ cap := by rw [hcapval]; exact allocCap_nonneg s
  refine ⟨writeHead v sfin, by rw [heq1, heq2], ?_, ?_⟩
  · rw [writeHead_arrays_len]
    show (allocSeg cap s1b.cacheF s1b).1.arrays.length = s.arrays.length + 1
    rw [hallarr]; simp
  · have hlt : s.arrays.length < sfin.arrays.length := by
      show s.arrays.length < (allocSeg cap s1b.cacheF s1b).1.arrays.length
      rw [hallarr]; simp
    have harr := writeHead_head_arr v sfin s.arrays.length (by rw [hsfin]; simp [hallp]) hlt
    have hget : (writeHead v sfin).arrays.getD s.arrays.length ([] : Arr α) =
        deref (writeHead v sfin) (some s.arrays.length) := rfl
    rw [hget, harr]
    have hderef : deref sfin (some s.arrays.length) = List.replicate cap.toNat none := by
      show (allocSeg cap s1b.cacheF s1b).1.arrays.getD s.arrays.length ([] : Arr α) = _
      rw [hallarr]; simp
    rw [hderef]
    simp only [length_aset, List.length_replicate]
    rw [← hcapval]
    omega


theorem cacheSet_eq_update {α : Type} (s : Sq α) (i : Int) (c : Option Cached) :
    cacheSet s i c = { s with cache := (cacheSet s i c).cache } := by
  unfold cacheSet; split <;> rfl

theorem C9_case_c {α : Type} (v : Val α) (s : Sq α) (t : Nat) (c : Cached)
    (hc1 : s.tail = some t) (hc2 : s.headL = s.headF)
    (hc3 : (aget (deref s s.head) s.headL).isSome = true)
    (hc4 : s.cacheF ≠ s.cacheL)
    (hc5 : cacheGet s s.cacheF = some c)
    (hc7 : 2 ≤ s.cache.length) (hc8 : 0 ≤ s.cacheF) (hc9 : s.cacheF < (s.cache.length : Int))
    (hc6 : cacheGet s (if s.cacheF - 1 < 0 then s.cacheF - 1 + (s.cache.length : Int)
                       else s.cacheF - 1) = none) :
    ∃ s2 : Sq α, shiftOp v s = some s2 ∧
      s2.arrays.length = s.arrays.length + 1 ∧
      ((s2.arrays.getD s.arrays.length []).length : Int) = allocCap s := by
  set cc := (cacheSet s s.cacheF (some { c with idx := s.headF })).cache with hcc
  set s1 : Sq α := { s with cache := cc, cacheSize := s.cacheSize + alenI s s.head } with hs1
  set f2 := (if s1.cacheF - 1 < 0 then s1.cacheF - 1 + (s1.cache.length : Int)
             else s1.cacheF - 1) with hf2
  set s1b : Sq α := { s1 with cacheF := f2 } with hs1b
  have hlencc : cc.length = s.cache.length := by
    rw [hcc]; exact length_cache_cacheSet s _ _
  have hf2s : f2 = (if s.cacheF - 1 < 0 then s.cacheF - 1 + (s.cache.length : Int)
                    else s.cacheF - 1) := by
    rw [hf2]
    show (if s.cacheF - 1 < 0 then s.cacheF - 1 + (cc.length : Int) else s.cacheF - 1) = _
    rw [hlencc]
  have hf2ne : f2 ≠ s.cacheF := by rw [hf2s]; split <;> omega
  have hmiss : cacheGet s1b s1b.cacheF = none := by
    show cacheGet (cacheSet s s.cacheF (some { c with idx := s.headF })) f2 = none
    rw [cacheGet_cacheSet_ne _ _ _ _ (fun h => hf2ne h.symm)]
    rw [hf2s]
    exact hc6
  set cap := gmin (2 * gmax (alenI s1b s1b.head) (alenI s1b s1b.tail)) 100000 with hcap
  have heq1 : shiftOp v s = some (shiftInstall v s1b) := by
    unfold shiftOp
    rw [if_neg (not_not_intro ⟨hc2, hc3⟩)]
    unfold shiftFile
    split
    · rename_i heq; rw [heq] at hc1; cases hc1
    · rename_i t2 heq
      rw [if_neg hc4]
      simp only [hc5]
      rw [cacheSet_eq_update]
      rfl
  have heq2 : shiftInstall v s1b =
      writeHead v { (allocSeg cap s1b.cacheF s1b).1 with
                    head := some (allocSeg cap s1b.cacheF s1b).2, headF := 0, headL := 1 } := by
    unfold shiftInstall
    split
    · rename_i c2 hsome; rw [hmiss] at hsome; cases hsome
    · rfl
  have hallarr : (allocSeg cap s1b.cacheF s1b).1.arrays
      = s.arrays ++ [List.replicate cap.toNat none] := (allocSeg_spec cap s1b.cacheF s1b).1
  have hallp : (allocSeg cap s1b.cacheF s1b).2 = s.arrays.length := (allocSeg_spec cap s1b.cacheF s1b).2
  have hcapval : cap = allocCap s := hcap
  have hcap0 : 0 ≤ cap := by rw [hcapval]; exact allocCap_nonneg s
  set sfin : Sq α := { (allocSeg cap s1b.cacheF s1b).1 with
                       head := some (allocSeg cap s1b.cacheF s1b).2, headF := 0, headL := 1 } with hsfin
  refine ⟨writeHead v sfin, by rw [heq1, heq2], ?_, ?_⟩
  · rw [writeHead_arrays_len]
    show (allocSeg cap s1b.cacheF s1b).1.arrays.length = s.arrays.length + 1
    rw [hallarr]; simp
  · have hlt : s.arrays.length < sfin.arrays.length := by
      show s.arrays.length < (allocSeg cap s1b.cacheF s1b).1.arrays.length
      rw [hallarr]; simp
    have harr := writeHead_head_arr v sfin s.arrays.length (by rw [hsfin]; simp [hallp]) hlt
    have hget : (writeHead v sfin).arrays.getD s.arrays.length ([] : Arr α) =
        deref (writeHead v sfin) (some s.arrays.length) := rfl
    rw [hget, harr]
    have hderef : deref sfin (some s.arrays.length) = List.replicate cap.toNat none := by
      show (allocSeg cap s1b.cacheF s1b).1.arrays.getD s.arrays.length ([] : Arr α) = _
      rw [hallarr]; simp
    rw [hderef]
    simp only [length_aset, List.length_replicate]
    rw [← hcapval]
    omega


/-- Growing first and then filing is the same as filing the grown state. -/
theorem pushFile_grow_eq {α : Type} (s s2 : Sq α) (hfc : s.cacheL = s.cacheF)
    (hg : grow s = some s2) (hne2 : s2.cacheL ≠ s2.cacheF) :
    pushFile s = pushFile s2 := by
  unfold pushFile
  rw [if_pos hfc, hg, if_neg hne2]

/-- Growing first and then filing the full head is the same as filing the
grown state. -/
theorem shiftFile_grow_eq {α : Type} (s s2 : Sq α) (t : Nat) (htl : s.tail = some t)
    (htl2 : s2.tail = s.tail) (hfc : s.cacheF = s.cacheL) (hg : grow s = some s2)
    (hne2 : s2.cacheF ≠ s2.cacheL) :
    shiftFile s = shiftFile s2 := by
  unfold shiftFile
  rw [htl, htl2, htl]
  simp only []
  rw [if_pos hfc, hg, if_neg hne2]

/-- `Push` on a full tail with a *full* directory: the directory grows and a
fresh tail segment of the standard capacity is then always allocated (the
slot the allocation consults was cleared by the growth). -/
theorem C9_case_b_full {α : Type} (v : Val α) (s : Sq α) (t : Nat) (c : Cached)
    (hb1 : s.tail = some t)
    (hb2 : s.tailL = s.tailF) (hb3 : (aget (deref s s.tail) s.tailL).isSome = true)
    (hb4 : s.cacheL = s.cacheF)
    (hb5 : 0 ≤ s.cacheF) (hb6 : s.cacheF < (s.cache.length : Int))
    (hb8 : cacheGet s (if s.cacheL - 1 < 0 then s.cacheL - 1 + (s.cache.length : Int)
                       else s.cacheL - 1) = some c) :
    ∃ s2 : Sq α, pushOp v s = some s2 ∧
      s2.arrays.length = s.arrays.length + 1 ∧
      ((s2.arrays.getD s.arrays.length []).length : Int) = allocCap s := by
  have hn1 : 1 ≤ s.cache.length := by omega
  obtain ⟨s2, hg, hlen', hcF2, hcL2, hmapN, hhigh, harr, hhd, htl2, hhF, hhL, htF2,
    htL2, hcS⟩ := grow_spec s hb6 hb5 hb4.symm
  have hn2 : s.cache.length < s2.cache.length := by
    rcases Classical.em ((s.cache.length : Int) < 6) with hc6 | hc6
    · rw [if_pos hc6] at hlen'; omega
    · rw [if_neg hc6] at hlen'; omega
  have hne2 : s2.cacheL ≠ s2.cacheF := by rw [hcL2, hcF2]; omega
  have hb8a : s.cache.getD (if s.cacheL - 1 < 0 then s.cacheL - 1 + (s.cache.length : Int)
      else s.cacheL - 1).toNat none = some c := by
    unfold cacheGet at hb8
    rw [if_pos (by constructor <;> (split <;> omega))] at hb8
    exact hb8
  have hidx : (s.cacheF.toNat + (s.cache.length - 1)) % s.cache.length
      = (if s.cacheL - 1 < 0 then s.cacheL - 1 + (s.cache.length : Int)
         else s.cacheL - 1).toNat := by
    rw [hb4]
    rcases Classical.em (s.cacheF - 1 < 0) with hlt | hge
    · rw [if_pos hlt]
      rw [show s.cacheF.toNat = 0 from by omega, Nat.zero_add,
        Nat.mod_eq_of_lt (by omega)]
      omega
    · rw [if_neg hge]
      rw [show s.cacheF.toNat + (s.cache.length - 1)
          = (s.cacheF.toNat - 1) + s.cache.length from by omega, Nat.add_mod_right,
        Nat.mod_eq_of_lt (by omega)]
      omega
  have hgetS : cacheGet s2 ((s.cache.length : Int) - 1) = some c := by
    unfold cacheGet
    rw [if_pos ⟨by omega, by omega⟩]
    rw [show ((s.cache.length : Int) - 1).toNat = s.cache.length - 1 from by omega]
    rw [hmapN (s.cache.length - 1) (by omega), hidx]
    exact hb8a
  have hb8s2 : cacheGet s2 (if s2.cacheL - 1 < 0 then s2.cacheL - 1 + (s2.cache.length : Int)
      else s2.cacheL - 1) = some c := by
    rw [show (if s2.cacheL - 1 < 0 then s2.cacheL - 1 + (s2.cache.length : Int)
        else s2.cacheL - 1) = (s.cache.length : Int) - 1 from by
      rw [hcL2]; rw [if_neg (by omega)]]
    exact hgetS
  have hb9s2 : cacheGet s2 s2.cacheL = none := by
    rw [hcL2]
    unfold cacheGet
    rw [if_pos ⟨by omega, by omega⟩]
    exact hhigh s.cache.length (le_refl _) hn2
  have hd2 : ∀ q, deref s2 q = deref s q := fun q => deref_congr_arrays s2 s q harr
  have hb1x : s2.tail = some t := by rw [htl2]; exact hb1
  have hb2x : s2.tailL = s2.tailF := by rw [htL2, htF2]; exact hb2
  have hb3x : (aget (deref s2 s2.tail) s2.tailL).isSome = true := by
    rw [htl2, htL2, hd2]
    exact hb3
  obtain ⟨sR, hpR, hlenR, hcapR⟩ :=
    C9_case_b v s2 t c hb1x hb2x hb3x hne2 (by omega) hb8s2 hb9s2
  have hpeq : pushOp v s = pushOp v s2 := by
    unfold pushOp
    rw [hb1, hb1x]
    simp only []
    rw [if_pos ⟨hb2, show (aget (deref s (some t)) s.tailL).isSome = true from by
      rw [← hb1]; exact hb3⟩]
    rw [if_pos ⟨hb2x, show (aget (deref s2 (some t)) s2.tailL).isSome = true from by
      rw [← hb1x]; exact hb3x⟩]
    rw [pushFile_grow_eq s s2 hb4 hg hne2]
  have hacap : allocCap s2 = allocCap s := by
    unfold allocCap
    rw [hhd, htl2, alenI_congr s2 s _ harr, alenI_congr s2 s _ harr]
  have hcapR2 := hcapR
  rw [hacap] at hcapR2
  refine ⟨sR, by rw [hpeq]; exact hpR, ?_, ?_⟩
  · rw [hlenR, harr]
  · rw [show s.arrays.length = s2.arrays.length from by rw [harr]]
    exact hcapR2

/-- `Shift` on a full head with a tail and a *full* directory: the directory
grows and a fresh head segment of the standard capacity is then always
allocated (the slot the allocation consults was cleared by the growth). -/
theorem C9_case_c_full {α : Type} (v : Val α) (s : Sq α) (t : Nat) (c : Cached)
    (hc1 : s.tail = some t) (hc2 : s.headL = s.headF)
    (hc3 : (aget (deref s s.head) s.headL).isSome = true)
    (hc4 : s.cacheF = s.cacheL)
    (hc5 : cacheGet s s.cacheF = some c)
    (hc8 : 0 ≤ s.cacheF) (hc9 : s.cacheF < (s.cache.length : Int)) :
    ∃ s2 : Sq α, shiftOp v s = some s2 ∧
      s2.arrays.length = s.arrays.length + 1 ∧
      ((s2.arrays.getD s.arrays.length []).length : Int) = allocCap s := by
  have hn1 : 1 ≤ s.cache.length := by omega
  obtain ⟨s2, hg, hlen', hcF2, hcL2, hmapN, hhigh, harr, hhd, htl2, hhF, hhL, htF2,
    htL2, hcS⟩ := grow_spec s hc9 hc8 hc4
  have hn2 : s.cache.length < s2.cache.length := by
    rcases Classical.em ((s.cache.length : Int) < 6) with hc6 | hc6
    · rw [if_pos hc6] at hlen'; omega
    · rw [if_neg hc6] at hlen'; omega
  have hne2 : s2.cacheF ≠ s2.cacheL := by rw [hcF2, hcL2]; omega
  have hd2 : ∀ q, deref s2 q = deref s q := fun q => deref_congr_arrays s2 s q harr
  have hc5x : cacheGet s2 s2.cacheF = some c := by
    rw [hcF2]
    unfold cacheGet
    rw [if_pos ⟨by omega, by omega⟩]
    rw [show ((0 : Int)).toNat = 0 from rfl, hmapN 0 (by omega)]
    rw [show (s.cacheF.toNat + 0) % s.cache.length = s.cacheF.toNat from by
      rw [Nat.add_zero]; exact Nat.mod_eq_of_lt (by omega)]
    unfold cacheGet at hc5
    rw [if_pos ⟨hc8, hc9⟩] at hc5
    exact hc5
  have hc6x : cacheGet s2 (if s2.cacheF - 1 < 0 then s2.cacheF - 1 + (s2.cache.length : Int)
      else s2.cacheF - 1) = none := by
    rw [show (if s2.cacheF - 1 < 0 then s2.cacheF - 1 + (s2.cache.length : Int)
        else s2.cacheF - 1) = (s2.cache.length : Int) - 1 from by
      rw [hcF2, if_pos (show (0 : Int) - 1 < 0 from by omega)]; ring]
    unfold cacheGet
    rw [if_pos ⟨by omega, by omega⟩]
    rw [show ((s2.cache.length : Int) - 1).toNat = s2.cache.length - 1 from by omega]
    exact hhigh (s2.cache.length - 1) (by omega) (by omega)
  have hc1x : s2.tail = some t := by rw [htl2]; exact hc1
  have hc2x : s2.headL = s2.headF := by rw [hhL, hhF]; exact hc2
  have hc3x : (aget (deref s2 s2.head) s2.headL).isSome = true := by
    rw [hhd, hhL, hd2]
    exact hc3
  obtain ⟨sR, hpR, hlenR, hcapR⟩ :=
    C9_case_c v s2 t c hc1x hc2x hc3x hne2 hc5x (by omega) (by omega) (by omega) hc6x
  have hseq : shiftOp v s = shiftOp v s2 := by
    unfold shiftOp
    rw [if_neg (not_not_intro ⟨hc2, hc3⟩), if_neg (not_not_intro ⟨hc2x, hc3x⟩)]
    rw [shiftFile_grow_eq s s2 t hc1 htl2 hc4 hg hne2]
  have hacap : allocCap s2 = allocCap s := by
    unfold allocCap
    rw [hhd, htl2, alenI_congr s2 s _ harr, alenI_congr s2 s _ harr]
  have hcapR2 := hcapR
  rw [hacap] at hcapR2
  refine ⟨sR, by rw [hseq]; exact hpR, ?_, ?_⟩
  · rw [hlenR, harr]
  · rw [show s.arrays.length = s2.arrays.length from by rw [harr]]
    exact hcapR2

/-- C9: whenever `Push` or `Shift` must allocate a fresh segment (the active
segment is full and the directory slot consulted for recycling is empty —
which after a growth of a full directory is always the case, since growth
clears the consulted slot), the new segment's capacity is
`min(2 * max(len(head), len(tail)), 100000)`, with an absent `tail`
contributing capacity 0.  The six conjuncts are the allocation sites:
push with no tail, push with a full tail (directory not full), shift with a
tail (directory not full), shift with no tail, push with a full tail and a
full directory (grow first, then allocate), and shift with a full head, a
tail and a full directory (grow first, then allocate). -/
theorem C9_fresh_segment_capacity (α : Type) :
    (∀ (v : Val α) (s : Sq α),
      s.tail = none → s.headL = s.headF →
      (aget (deref s s.head) s.headL).isSome = true →
      cacheGet s s.cacheL = none →
      ∃ s2 : Sq α, pushOp v s = some s2 ∧
        s2.arrays.length = s.arrays.length + 1 ∧
        ((s2.arrays.getD s.arrays.length []).length : Int) = allocCap s) ∧
    (∀ (v : Val α) (s : Sq α) (t : Nat) (c : Cached),
      s.tail = some t → s.tailL = s.tailF →
      (aget (deref s s.tail) s.tailL).isSome = true →
      s.cacheL ≠ s.cacheF → 2 ≤ s.cache.length →
      cacheGet s (if s.cacheL - 1 < 0 then s.cacheL - 1 + (s.cache.length : Int)
                  else s.cacheL - 1) = some c →
      cacheGet s s.cacheL = none →
      ∃ s2 : Sq α, pushOp v s = some s2 ∧
        s2.arrays.length = s.arrays.length + 1 ∧
        ((s2.arrays.getD s.arrays.length []).length : Int) = allocCap s) ∧
    (∀ (v : Val α) (s : Sq α) (t : Nat) (c : Cached),
      s.tail = some t → s.headL = s.headF →
      (aget (deref s s.head) s.headL).isSome = true →
      s.cacheF ≠ s.cacheL → cacheGet s s.cacheF = some c →
      2 ≤ s.cache.length → 0 ≤ s.cacheF → s.cacheF < (s.cache.length : Int) →
      cacheGet s (if s.cacheF - 1 < 0 then s.cacheF - 1 + (s.cache.length : Int)
                  else s.cacheF - 1) = none →
      ∃ s2 : Sq α, shiftOp v s = some s2 ∧
        s2.arrays.length = s.arrays.length + 1 ∧
        ((s2.arrays.getD s.arrays.length []).length : Int) = allocCap s) ∧
    (∀ (v : Val α) (s : Sq α),
      s.tail = none → s.headL = s.headF →
      (aget (deref s s.head) s.headL).isSome = true →
      cacheGet s (if s.cacheF - 1 < 0 then s.cacheF - 1 + (s.cache.length : Int)
                  else s.cacheF - 1) = none →
      ∃ s2 : Sq α, shiftOp v s = some s2 ∧
        s2.arrays.length = s.arrays.length + 1 ∧
        ((s2.arrays.getD s.arrays.length []).length : Int) = allocCap s) ∧
    (∀ (v : Val α) (s : Sq α) (t : Nat) (c : Cached),
      s.tail = some t → s.tailL = s.tailF →
      (aget (deref s s.tail) s.tailL).isSome = true →
      s.cacheL = s.cacheF → 0 ≤ s.cacheF → s.cacheF < (s.cache.length : Int) →
      cacheGet s (if s.cacheL - 1 < 0 then s.cacheL - 1 + (s.cache.length : Int)
                  else s.cacheL - 1) = some c →
      ∃ s2 : Sq α, pushOp v s = some s2 ∧
        s2.arrays.length = s.arrays.length + 1 ∧
        ((s2.arrays.getD s.arrays.length []).length : Int) = allocCap s) ∧
    (∀ (v : Val α) (s : Sq α) (t : Nat) (c : Cached),
      s.tail = some t → s.headL = s.headF →
      (aget (deref s s.head) s.headL).isSome = true →
      s.cacheF = s.cacheL → cacheGet s s.cacheF = some c →
      0 ≤ s.cacheF → s.cacheF < (s.cache.length : Int) →
      ∃ s2 : Sq α, shiftOp v s = some s2 ∧
        s2.arrays.length = s.arrays.length + 1 ∧
        ((s2.arrays.getD s.arrays.length []).length : Int) = allocCap s) := by
  refine ⟨?_, ?_, ?_, ?_, ?_, ?_⟩
  · intro v s h1 h2 h3 h4; exact C9_case_a v s h1 h2 h3 h4
  · intro v s t c h1 h2 h3 h4 h5 h6 h7; exact C9_case_b v s t c h1 h2 h3 h4 h5 h6 h7
  · intro v s t c h1 h2 h3 h4 h5 h6 h7 h8 h9
    exact C9_case_c v s t c h1 h2 h3 h4 h5 h6 h7 h8 h9
  · intro v s h1 h2 h3 h4; exact C9_case_d v s h1 h2 h3 h4
  · intro v s t c h1 h2 h3 h4 h5 h6 h7
    exact C9_case_b_full v s t c h1 h2 h3 h4 h5 h6 h7
  · intro v s t c h1 h2 h3 h4 h5 h6 h7
    exact C9_case_c_full v s t c h1 h2 h3 h4 h5 h6 h7

/-- Concrete states reaching each of the four allocation sites of C9. -/
def c9sa : Sq Int :=
  (runTrace (new0 Int) ((List.range 20).map fun i => .push (some (i : Int)))).getD (new0 Int)

def c9sb : Sq Int :=
  (runTrace (new0 Int) ((List.range 60).map fun i => .push (some (i : Int)))).getD (new0 Int)

def c9sc : Sq Int :=
  (runTrace (new0 Int) ((List.range 21).map fun i => .push (some (i : Int)))).getD (new0 Int)

def c9sd : Sq Int :=
  (runTrace (new0 Int) ((List.range 20).map fun i => .shift (some (i : Int)))).getD (new0 Int)

/-- A full-directory state with full head and tail segments (the state shape
push 1261 / shift 1261 reaches, shrunk to one-slot segments and a two-slot
directory so the hypotheses can be checked by evaluation). -/
def c9sf : Sq Int :=
  { arrays := [[some 1], [some 2]]
    head := some 0
    tail := some 1
    cache := [some ⟨0, 0⟩, some ⟨1, 0⟩]
    headF := 0, headL := 0
    tailF := 0, tailL := 0
    cacheF := 0, cacheL := 0
    cacheSize := 0 }

set_option maxRecDepth 8000 in
/-- Witness for `C9_fresh_segment_capacity`: each allocation site reached by
a concrete run. -/
theorem C9_capacity_witness :
    (∃ s2 : Sq Int, pushOp (some 99) c9sa = some s2 ∧
      s2.arrays.length = c9sa.arrays.length + 1 ∧
      ((s2.arrays.getD c9sa.arrays.length []).length : Int) = allocCap c9sa) ∧
    (∃ s2 : Sq Int, pushOp (some 99) c9sb = some s2 ∧
      s2.arrays.length = c9sb.arrays.length + 1 ∧
      ((s2.arrays.getD c9sb.arrays.length []).length : Int) = allocCap c9sb) ∧
    (∃ s2 : Sq Int, shiftOp (some 99) c9sc = some s2 ∧
      s2.arrays.length = c9sc.arrays.length + 1 ∧
      ((s2.arrays.getD c9sc.arrays.length []).length : Int) = allocCap c9sc) ∧
    (∃ s2 : Sq Int, shiftOp (some 99) c9sd = some s2 ∧
      s2.arrays.length = c9sd.arrays.length + 1 ∧
      ((s2.arrays.getD c9sd.arrays.length []).length : Int) = allocCap c9sd) ∧
    (∃ s2 : Sq Int, pushOp (some 99) c9sf = some s2 ∧
      s2.arrays.length = c9sf.arrays.length + 1 ∧
      ((s2.arrays.getD c9sf.arrays.length []).length : Int) = allocCap c9sf) ∧
    (∃ s2 : Sq Int, shiftOp (some 99) c9sf = some s2 ∧
      s2.arrays.length = c9sf.arrays.length + 1 ∧
      ((s2.arrays.getD c9sf.arrays.length []).length : Int) = allocCap c9sf) := by
  refine ⟨?_, ?_, ?_, ?_, ?_, ?_⟩
  · exact (C9_fresh_segment_capacity Int).1 (some 99) c9sa
      (by decide) (by decide) (by decide) (by decide)
  · exact (C9_fresh_segment_capacity Int).2.1 (some 99) c9sb 1 ⟨1, 0⟩
      (by decide) (by decide) (by decide) (by decide) (by decide) (by decide) (by decide)
  · exact (C9_fresh_segment_capacity Int).2.2.1 (some 99) c9sc 1 ⟨0, 0⟩
      (by decide) (by decide) (by decide) (by decide) (by decide) (by decide)
      (by decide) (by decide) (by decide)
  · exact (C9_fresh_segment_capacity Int).2.2.2.1 (some 99) c9sd
      (by decide) (by decide) (by decide) (by decide)
  · exact (C9_fresh_segment_capacity Int).2.2.2.2.1 (some 99) c9sf 1 ⟨1, 0⟩
      (by decide) (by decide) (by decide) (by decide) (by decide) (by decide) (by decide)
  · exact (C9_fresh_segment_capacity Int).2.2.2.2.2 (some 99) c9sf 1 ⟨0, 0⟩
      (by decide) (by decide) (by decide) (by decide) (by decide) (by decide) (by decide)

end Squeue

/-! ### Structural invariant

`SInv` collects the structural (content-independent) well-formedness facts
that every state reachable from a constructor by successful operations
satisfies: index ranges, validity of the heap references, the directory
discipline (slot `cacheF` holds the head's segment, slot `cacheL - 1` holds
the tail's segment when a tail exists, a missing tail means the active
directory range has exactly one slot), and injectivity of the segment
references stored in the directory. -/

namespace Squeue

variable {α : Type}

/-- The directory slot before `i`, as the Go code computes it
(`i-1`, wrapped). -/
def prevSlot (s : Sq α) (i : Int) : Int :=
  if i - 1 < 0 then i - 1 + (s.cache.length : Int) else i - 1

structure SInv (s : Sq α) : Prop where
  cacheLen : 6 ≤ s.cache.length
  cFlo : 0 ≤ s.cacheF
  cFhi : s.cacheF < (s.cache.length : Int)
  cLlo : 0 ≤ s.cacheL
  cLhi : s.cacheL < (s.cache.length : Int)
  headSome : s.head ≠ none
  headValid : ∀ h, s.head = some h → h < s.arrays.length
  headLen : 0 < alenI s s.head
  hFlo : 0 ≤ s.headF
  hFhi : s.headF < alenI s s.head
  hLlo : 0 ≤ s.headL
  hLhi : s.headL < alenI s s.head
  tailValid : ∀ t, s.tail = some t → t < s.arrays.length
  tailLen : s.tail ≠ none → 0 < alenI s s.tail
  tFlo : s.tail ≠ none → 0 ≤ s.tailF
  tFhi : s.tail ≠ none → s.tailF < alenI s s.tail
  tLlo : s.tail ≠ none → 0 ≤ s.tailL
  tLhi : s.tail ≠ none → s.tailL < alenI s s.tail
  entryValid : ∀ i c, cacheGet s i = some c →
    c.ptr < s.arrays.length ∧ 0 < alenI s (some c.ptr) ∧
    0 ≤ c.idx ∧ c.idx < alenI s (some c.ptr)
  headEntry : ∃ c, cacheGet s s.cacheF = some c ∧ s.head = some c.ptr
  tailEntry : s.tail ≠ none →
    ∃ c, cacheGet s (prevSlot s s.cacheL) = some c ∧ s.tail = some c.ptr
  tailNilA : s.tail = none → (s.cacheF + 1) % (s.cache.length : Int) = s.cacheL
  tailSomeA : s.tail ≠ none → (s.cacheF + 1) % (s.cache.length : Int) ≠ s.cacheL
  inj : ∀ i j ci cj, cacheGet s i = some ci → cacheGet s j = some cj →
    i ≠ j → ci.ptr ≠ cj.ptr

theorem getD_replicate_none (n k : Nat) :
    (List.replicate n (none : Option Cached)).getD k none = none := by
  rcases lt_or_ge k n with h | h
  · rw [List.getD_eq_getElem _ _ (by simpa using h), List.getElem_replicate]
  · exact List.getD_eq_default _ _ (by simpa using h)

/-- The directory of a freshly constructed deque: entry 0 points at the head
segment, all other slots are empty. -/
theorem cacheGet_mkNew (init : List (Val α)) (i : Int) :
    cacheGet (mkNew init) i = if i = 0 then some ⟨0, 0⟩ else none := by
  unfold cacheGet mkNew
  rcases eq_or_ne i 0 with h | h
  · subst h; rfl
  · rw [if_neg h]
    split
    · rename_i hr
      have hk : ∃ k : Nat, i.toNat = k + 1 := by
        refine ⟨i.toNat - 1, ?_⟩
        omega
      obtain ⟨k, hk⟩ := hk
      show ((some ⟨0,0⟩ : Option Cached) :: List.replicate 5 none).getD i.toNat none = none
      rw [hk]
      rw [List.getD_cons_succ]
      exact getD_replicate_none 5 k
    · rfl

theorem length_head_mkNew (init : List (Val α)) :
    alenI (mkNew init) (mkNew init).head = 2 * gmax (init.length : Int) 10 := by
  unfold mkNew alenI deref
  simp only [List.getD]
  show ((init ++ List.replicate ((2 * gmax (init.length : Int) 10).toNat - init.length) none).length : Int) = _
  rw [List.length_append, List.length_replicate]
  unfold gmax
  split <;> omega

theorem SInv_mkNew (init : List (Val α)) : SInv (mkNew init) := by
  have hlen := length_head_mkNew init
  have hmax : (10 : Int) ≤ gmax (init.length : Int) 10 := by unfold gmax; split <;> omega
  have hn : (init.length : Int) ≤ 2 * gmax (init.length : Int) 10 - 1 := by
    unfold gmax; split <;> omega
  constructor
  case cacheLen => rfl
  case cFlo => exact le_refl 0
  case cFhi => show (0:Int) < 6; omega
  case cLlo => show (0:Int) ≤ 1; omega
  case cLhi => show (1:Int) < 6; omega
  case headSome => exact fun h => by cases h
  case headValid =>
    intro h hh
    have : h = 0 := by
      have h0 : (mkNew init : Sq α).head = some 0 := rfl
      rw [h0] at hh; cases hh; rfl
    rw [this]; show 0 < 1; omega
  case headLen => rw [hlen]; omega
  case hFlo => exact le_refl 0
  case hFhi =>
    rw [hlen]
    show (0 : Int) < 2 * gmax (init.length : Int) 10
    omega
  case hLlo => show (0:Int) ≤ (init.length : Int); omega
  case hLhi => rw [hlen]; show (init.length : Int) < _; omega
  case tailValid => intro t ht; cases ht
  case tailLen => intro h; exact absurd rfl h
  case tFlo => intro h; exact absurd rfl h
  case tFhi => intro h; exact absurd rfl h
  case tLlo => intro h; exact absurd rfl h
  case tLhi => intro h; exact absurd rfl h
  case entryValid =>
    intro i c hc
    rw [cacheGet_mkNew] at hc
    split at hc
    · cases hc
      refine ⟨by show 0 < 1; omega, ?_, le_refl 0, ?_⟩
      · show 0 < alenI (mkNew init) (some 0)
        have : (mkNew init : Sq α).head = some 0 := rfl
        rw [← this, hlen]; omega
      · show (0:Int) < alenI (mkNew init) (some 0)
        have : (mkNew init : Sq α).head = some 0 := rfl
        rw [← this, hlen]; omega
    · cases hc
  case headEntry =>
    refine ⟨⟨0, 0⟩, ?_, rfl⟩
    rw [cacheGet_mkNew]
    rfl
  case tailEntry => intro h; exact absurd rfl h
  case tailNilA => intro h; rfl
  case tailSomeA => intro h; exact absurd rfl h
  case inj =>
    intro i j ci cj hci hcj hij
    rw [cacheGet_mkNew] at hci hcj
    split at hci
    · split at hcj
      · rename_i hi hj; exact absurd (hi.trans hj.symm) hij
      · cases hcj
    · cases hci

theorem SInv_new0x : SInv (new0 α) := SInv_mkNew []

end Squeue

namespace Squeue

variable {α : Type}

theorem alenI_heapWrite (s : Sq α) (p : Nat) (a : Arr α)
    (hlen : a.length = (deref s (some p)).length) (q : Option Nat) :
    alenI (heapWrite s (some p) a) q = alenI s q := by
  cases q with
  | none => rfl
  | some q =>
    rcases eq_or_ne p q with h | h
    · subst h
      rcases lt_or_ge p s.arrays.length with hp | hp
      · unfold alenI
        rw [deref_heapWrite_self s p a hp, hlen]
      · unfold alenI deref heapWrite
        simp only [List.getD_eq_getElem?_getD]
        rw [List.set_eq_of_length_le (by simpa using hp)]
    · unfold alenI
      rw [deref_heapWrite_ne s p q a h]

theorem cacheGet_heapWrite (s : Sq α) (p : Option Nat) (a : Arr α) (i : Int) :
    cacheGet (heapWrite s p a) i = cacheGet s i := by
  unfold cacheGet
  rw [cache_heapWrite]

theorem prevSlot_heapWrite (s : Sq α) (p : Option Nat) (a : Arr α) (i : Int) :
    prevSlot (heapWrite s p a) i = prevSlot s i := by
  unfold prevSlot
  rw [cache_heapWrite]

/-- A length-preserving in-range heap write preserves the structural
invariant. -/
theorem SInv_heapWrite (s : Sq α) (p : Nat) (a : Arr α)
    (hp : p < s.arrays.length) (hlen : a.length = (deref s (some p)).length)
    (h : SInv s) : SInv (heapWrite s (some p) a) := by
  have hL := alenI_heapWrite s p a hlen
  have hG := cacheGet_heapWrite s (some p) a
  constructor
  case cacheLen => rw [cache_heapWrite]; exact h.cacheLen
  case cFlo => rw [cacheF_heapWrite]; exact h.cFlo
  case cFhi => rw [cacheF_heapWrite, cache_heapWrite]; exact h.cFhi
  case cLlo => rw [cacheL_heapWrite]; exact h.cLlo
  case cLhi => rw [cacheL_heapWrite, cache_heapWrite]; exact h.cLhi
  case headSome => rw [head_heapWrite]; exact h.headSome
  case headValid =>
    intro hh hhh
    rw [head_heapWrite] at hhh
    rw [length_arrays_heapWrite]
    exact h.headValid hh hhh
  case headLen => rw [head_heapWrite, hL]; exact h.headLen
  case hFlo => rw [headF_heapWrite]; exact h.hFlo
  case hFhi => rw [headF_heapWrite, head_heapWrite, hL]; exact h.hFhi
  case hLlo => rw [headL_heapWrite]; exact h.hLlo
  case hLhi => rw [headL_heapWrite, head_heapWrite, hL]; exact h.hLhi
  case tailValid =>
    intro t ht
    rw [tail_heapWrite] at ht
    rw [length_arrays_heapWrite]
    exact h.tailValid t ht
  case tailLen =>
    intro ht
    rw [tail_heapWrite] at ht
    rw [tail_heapWrite, hL]
    exact h.tailLen ht
  case tFlo => intro ht; rw [tail_heapWrite] at ht; rw [tailF_heapWrite]; exact h.tFlo ht
  case tFhi =>
    intro ht; rw [tail_heapWrite] at ht
    rw [tailF_heapWrite, tail_heapWrite, hL]; exact h.tFhi ht
  case tLlo => intro ht; rw [tail_heapWrite] at ht; rw [tailL_heapWrite]; exact h.tLlo ht
  case tLhi =>
    intro ht; rw [tail_heapWrite] at ht
    rw [tailL_heapWrite, tail_heapWrite, hL]; exact h.tLhi ht
  case entryValid =>
    intro i c hc
    rw [hG] at hc
    have := h.entryValid i c hc
    rw [length_arrays_heapWrite, hL]
    exact this
  case headEntry =>
    obtain ⟨c, hc, hh⟩ := h.headEntry
    exact ⟨c, by rw [cacheF_heapWrite, hG]; exact hc, by rw [head_heapWrite]; exact hh⟩
  case tailEntry =>
    intro ht
    rw [tail_heapWrite] at ht
    obtain ⟨c, hc, hh⟩ := h.tailEntry ht
    refine ⟨c, ?_, by rw [tail_heapWrite]; exact hh⟩
    rw [cacheL_heapWrite, prevSlot_heapWrite, hG]
    exact hc
  case tailNilA =>
    intro ht
    rw [tail_heapWrite] at ht
    rw [cacheF_heapWrite, cache_heapWrite, cacheL_heapWrite]
    exact h.tailNilA ht
  case tailSomeA =>
    intro ht
    rw [tail_heapWrite] at ht
    rw [cacheF_heapWrite, cache_heapWrite, cacheL_heapWrite]
    exact h.tailSomeA ht
  case inj =>
    intro i j ci cj hci hcj hij
    rw [hG] at hci hcj
    exact h.inj i j ci cj hci hcj hij

end Squeue

namespace Squeue

variable {α : Type}

theorem SInv_setHeadF (s : Sq α) (f : Int) (h0 : 0 ≤ f) (h1 : f < alenI s s.head)
    (h : SInv s) : SInv ({ s with headF := f }) :=
  { h with hFlo := h0, hFhi := h1 }

theorem SInv_setHeadL (s : Sq α) (l : Int) (h0 : 0 ≤ l) (h1 : l < alenI s s.head)
    (h : SInv s) : SInv ({ s with headL := l }) :=
  { h with hLlo := h0, hLhi := h1 }

theorem SInv_setTailL (s : Sq α) (l : Int) (h0 : 0 ≤ l) (h1 : l < alenI s s.tail)
    (h : SInv s) : SInv ({ s with tailL := l }) :=
  { h with tLlo := fun _ => h0, tLhi := fun _ => h1 }

theorem Int.emod_range (a n : Int) (hn : 0 < n) : 0 ≤ a % n ∧ a % n < n :=
  ⟨Int.emod_nonneg a (by omega), Int.emod_lt_of_pos a hn⟩

/-- `writeHead` on any state with the invariant preserves it, for any state
whose head field is in range. -/
theorem SInv_writeHead (v : Val α) (s : Sq α) (h : SInv s) : SInv (writeHead v s) := by
  obtain ⟨hh, hhs⟩ := Option.ne_none_iff_exists'.mp h.headSome
  have hv := h.headValid hh hhs
  unfold writeHead
  rw [hhs]
  exact SInv_heapWrite s hh _ hv (by rw [length_aset]) h

/-- Head pointer arithmetic stays in range, so `writeHead` after stepping
`headF` back preserves the invariant (the first `Shift` branch). -/
theorem SInv_shift_write (v : Val α) (s : Sq α) (h : SInv s) :
    SInv (writeHead v { s with
      headF := (if s.headF - 1 < 0 then s.headF - 1 + alenI s s.head else s.headF - 1) }) := by
  set f2 := (if s.headF - 1 < 0 then s.headF - 1 + alenI s s.head else s.headF - 1) with hf2
  have hr : 0 ≤ f2 ∧ f2 < alenI s s.head := by
    have := h.hFlo
    have := h.hFhi
    have := h.headLen
    rw [hf2]; constructor <;> (split <;> omega)
  exact SInv_writeHead v _ (SInv_setHeadF s f2 hr.1 hr.2 h)

/-- `writeHeadAdvance` preserves the invariant (the head-write `Push`
branch). -/
theorem SInv_writeHeadAdvance (v : Val α) (s : Sq α) (h : SInv s) :
    SInv (writeHeadAdvance v s) := by
  obtain ⟨hh, hhs⟩ := Option.ne_none_iff_exists'.mp h.headSome
  have hv := h.headValid hh hhs
  unfold writeHeadAdvance
  rw [hhs]
  set sW := heapWrite s (some hh) (aset (deref s (some hh)) s.headL v) with hsW
  have h1 : SInv sW := SInv_heapWrite s hh _ hv (by rw [length_aset]) h
  have halen : alenI sW sW.head = alenI s s.head := by
    rw [hsW, head_heapWrite, hhs, alenI_heapWrite s hh _ (by rw [length_aset])]
  have hlenpos : 0 < ((deref s (some hh)).length : Int) := by
    have := h.headLen; unfold alenI at this; rw [hhs] at this; exact this
  have hLW : sW.headL = s.headL := by rw [hsW, headL_heapWrite]
  have hrange := Int.emod_range (sW.headL + 1) ((deref s (some hh)).length : Int) hlenpos
  refine SInv_setHeadL sW _ hrange.1 ?_ h1
  rw [halen]
  have : ((deref s (some hh)).length : Int) = alenI s s.head := by
    unfold alenI; rw [hhs]
  rw [← this]
  exact hrange.2

/-- `writeTailAdvance` preserves the invariant when a tail exists. -/
theorem SInv_writeTailAdvance (v : Val α) (s : Sq α) (t : Nat)
    (ht : s.tail = some t) (h : SInv s) : SInv (writeTailAdvance v s) := by
  have htne : s.tail ≠ none := by rw [ht]; intro hx; cases hx
  have hv := h.tailValid t ht
  unfold writeTailAdvance
  rw [ht]
  set sW := heapWrite s (some t) (aset (deref s (some t)) s.tailL v) with hsW
  have h1 : SInv sW := SInv_heapWrite s t _ hv (by rw [length_aset]) h
  have halen : alenI sW sW.tail = alenI s s.tail := by
    rw [hsW, tail_heapWrite, ht, alenI_heapWrite s t _ (by rw [length_aset])]
  have hlenpos : 0 < ((deref s (some t)).length : Int) := by
    have := h.tailLen htne; unfold alenI at this; rw [ht] at this; exact this
  have hrange := Int.emod_range (sW.tailL + 1) ((deref s (some t)).length : Int) hlenpos
  refine SInv_setTailL sW _ hrange.1 ?_ h1
  rw [halen]
  have : ((deref s (some t)).length : Int) = alenI s s.tail := by
    unfold alenI; rw [ht]
  rw [← this]
  exact hrange.2

end Squeue

namespace Squeue

variable {α : Type}

theorem emod_cancel_left (c a b n : Int)
    (hn : 0 < n) (ha0 : 0 ≤ a) (han : a < n)
    (hb0 : 0 ≤ b) (hbn : b < n) (h : (c + a) % n = (c + b) % n) : a = b := by
  have h0 : (c + a - (c + b)) % n = 0 := by
    rw [Int.sub_emod, h, sub_self, Int.zero_emod]
  have h1 : (a - b) % n = 0 := by
    rw [show c + a - (c + b) = a - b by ring] at h0
    exact h0
  rcases le_or_lt b a with hd | hd
  · rw [Int.emod_eq_of_lt (by omega) (by omega)] at h1
    omega
  · have h2 : (a - b + 1 * n) % n = (a - b) % n := Int.add_mul_emod_self
    rw [one_mul, h1] at h2
    rw [Int.emod_eq_of_lt (by omega) (by omega)] at h2
    omega

/-- `grow` on a full directory: existence, entry rotation at the `cacheGet`
level, and preservation of the structural invariant. -/
theorem SInv_grow (s : Sq α) (h : SInv s) (hfull : s.cacheF = s.cacheL) :
    ∃ s2 : Sq α, grow s = some s2 ∧ SInv s2 ∧
      s2.cacheF = 0 ∧ s2.cacheL = (s.cache.length : Int) ∧
      s2.cacheF ≠ s2.cacheL ∧
      s2.arrays = s.arrays ∧ s2.head = s.head ∧ s2.tail = s.tail ∧
      s2.headF = s.headF ∧ s2.headL = s.headL ∧ s2.tailF = s.tailF ∧
      s2.tailL = s.tailL ∧ s2.cacheSize = s.cacheSize ∧
      (∀ i : Int, 0 ≤ i → i < (s.cache.length : Int) →
        cacheGet s2 i = cacheGet s ((s.cacheF + i) % (s.cache.length : Int))) := by
  obtain ⟨s2, hg, hlen, hcF, hcL, hmap, hzero, harr, hhd, htl, hhF, hhL, htF, htL, hcS⟩ :=
    grow_spec s h.cFhi h.cFlo hfull
  have hn6 := h.cacheLen
  have hcFlo := h.cFlo
  have hcFhi := h.cFhi
  have hlen2 : (s.cache.length : Int) < (s2.cache.length : Int) := by
    rw [hlen]; split <;> omega
  have hmapI : ∀ i : Int, 0 ≤ i → i < (s.cache.length : Int) →
      cacheGet s2 i = cacheGet s ((s.cacheF + i) % (s.cache.length : Int)) := by
    intro i hi0 hi1
    have hidx : ((s.cacheF + i) % (s.cache.length : Int)) =
        (((s.cacheF.toNat + i.toNat) % s.cache.length : Nat) : Int) := by
      have h1 : s.cacheF + i = ((s.cacheF.toNat + i.toNat : Nat) : Int) := by omega
      rw [h1, ← Int.natCast_mod]
    unfold cacheGet
    rw [if_pos ⟨hi0, by omega⟩]
    rw [if_pos ⟨by rw [hidx]; exact Int.natCast_nonneg _,
      by rw [hidx]; exact_mod_cast Nat.mod_lt _ (by omega)⟩]
    rw [hmap i.toNat (by omega)]
    congr 1
    omega
  have hzeroI : ∀ i : Int, (s.cache.length : Int) ≤ i → cacheGet s2 i = none := by
    intro i hi
    unfold cacheGet
    split
    · rename_i hr
      exact hzero i.toNat (by omega) (by omega)
    · rfl
  have halen : ∀ p, alenI s2 p = alenI s p := fun p => alenI_congr s2 s p harr
  have htailne : s.tail ≠ none := by
    intro htn
    have h1 := h.tailNilA htn
    rw [← hfull] at h1
    rcases lt_or_eq_of_le (by omega : s.cacheF + 1 ≤ (s.cache.length : Int)) with hlt | heq
    · rw [Int.emod_eq_of_lt (by omega) hlt] at h1; omega
    · rw [heq] at h1
      simp only [Int.emod_self] at h1
      omega
  have hmod_id : ∀ a : Int, 0 ≤ a → a < (s.cache.length : Int) →
      a % (s.cache.length : Int) = a := fun a h0 h1 => Int.emod_eq_of_lt h0 h1
  have hSInv : SInv s2 := by
    constructor
    case cacheLen => omega
    case cFlo => rw [hcF]
    case cFhi => rw [hcF]; omega
    case cLlo => rw [hcL]; omega
    case cLhi => rw [hcL]; omega
    case headSome => rw [hhd]; exact h.headSome
    case headValid => intro hh hhh; rw [hhd] at hhh; rw [harr]; exact h.headValid hh hhh
    case headLen => rw [hhd, halen]; exact h.headLen
    case hFlo => rw [hhF]; exact h.hFlo
    case hFhi => rw [hhF, hhd, halen]; exact h.hFhi
    case hLlo => rw [hhL]; exact h.hLlo
    case hLhi => rw [hhL, hhd, halen]; exact h.hLhi
    case tailValid => intro t ht; rw [htl] at ht; rw [harr]; exact h.tailValid t ht
    case tailLen => intro ht; rw [htl] at ht; rw [htl, halen]; exact h.tailLen ht
    case tFlo => intro ht; rw [htl] at ht; rw [htF]; exact h.tFlo ht
    case tFhi => intro ht; rw [htl] at ht; rw [htF, htl, halen]; exact h.tFhi ht
    case tLlo => intro ht; rw [htl] at ht; rw [htL]; exact h.tLlo ht
    case tLhi => intro ht; rw [htl] at ht; rw [htL, htl, halen]; exact h.tLhi ht
    case entryValid =>
      intro i c hc
      rcases lt_or_ge i (s.cache.length : Int) with hi | hi
      · rcases le_or_lt 0 i with hi0 | hi0
        · rw [hmapI i hi0 hi] at hc
          have := h.entryValid _ _ hc
          rw [harr, halen]
          exact this
        · unfold cacheGet at hc
          rw [if_neg (by omega)] at hc
          cases hc
      · rw [hzeroI i hi] at hc
        cases hc
    case headEntry =>
      obtain ⟨c, hc, hh⟩ := h.headEntry
      refine ⟨c, ?_, by rw [hhd]; exact hh⟩
      rw [hcF, hmapI 0 (le_refl 0) (by omega)]
      rw [show s.cacheF + 0 = s.cacheF by omega, hmod_id s.cacheF hcFlo hcFhi]
      exact hc
    case tailEntry =>
      intro ht2
      rw [htl] at ht2
      obtain ⟨c, hc, hh⟩ := h.tailEntry ht2
      refine ⟨c, ?_, by rw [htl]; exact hh⟩
      have hps2 : prevSlot s2 s2.cacheL = (s.cache.length : Int) - 1 := by
        unfold prevSlot
        rw [hcL]
        split <;> omega
      rw [hps2, hmapI _ (by omega) (by omega)]
      have hps : prevSlot s s.cacheL = (s.cacheF + ((s.cache.length : Int) - 1)) %
          (s.cache.length : Int) := by
        unfold prevSlot
        rw [← hfull]
        rcases eq_or_ne s.cacheF 0 with h0 | h0
        · rw [if_pos (by omega)]
          rw [h0]
          rw [hmod_id _ (by omega) (by omega)]
          omega
        · rw [if_neg (by omega)]
          rw [show s.cacheF + ((s.cache.length : Int) - 1)
              = (s.cacheF - 1) + 1 * (s.cache.length : Int) by ring]
          rw [Int.add_mul_emod_self]
          rw [hmod_id _ (by omega) (by omega)]
      rw [← hps]
      exact hc
    case tailNilA => intro ht2; rw [htl] at ht2; exact absurd ht2 htailne
    case tailSomeA =>
      intro ht2
      rw [hcF, hcL]
      rw [show ((0:Int) + 1) % (s2.cache.length : Int) = 1 from
        Int.emod_eq_of_lt (by omega) (by omega)]
      omega
    case inj =>
      intro i j ci cj hci hcj hij
      rcases lt_or_ge i (s.cache.length : Int) with hi | hi
      · rcases le_or_lt 0 i with hi0 | hi0
        · rcases lt_or_ge j (s.cache.length : Int) with hj | hj
          · rcases le_or_lt 0 j with hj0 | hj0
            · rw [hmapI i hi0 hi] at hci
              rw [hmapI j hj0 hj] at hcj
              refine h.inj _ _ _ _ hci hcj ?_
              intro hcon
              apply hij
              exact emod_cancel_left s.cacheF i j (s.cache.length : Int) (by omega)
                hi0 hi hj0 hj hcon
            · unfold cacheGet at hcj; rw [if_neg (by omega)] at hcj; cases hcj
          · rw [hzeroI j hj] at hcj; cases hcj
        · unfold cacheGet at hci; rw [if_neg (by omega)] at hci; cases hci
      · rw [hzeroI i hi] at hci; cases hci
  exact ⟨s2, hg, hSInv, hcF, hcL, by omega, harr, hhd, htl, hhF, hhL, htF, htL, hcS, hmapI⟩

end Squeue

namespace Squeue

variable {α : Type}

theorem aget_aset_self (a : Arr α) (i : Int) (v : Val α)
    (h0 : 0 ≤ i) (h1 : i < (a.length : Int)) : aget (aset a i v) i = v := by
  unfold aset
  rw [if_pos ⟨h0, h1⟩]
  unfold aget
  rw [if_pos (by rw [List.length_set]; exact ⟨h0, h1⟩)]
  rw [List.getD_eq_getElem _ _ (by rw [List.length_set]; omega)]
  simp

theorem aget_aset_ne (a : Arr α) (i j : Int) (v : Val α) (hij : i ≠ j) :
    aget (aset a i v) j = aget a j := by
  unfold aset
  split
  · unfold aget
    rw [List.length_set]
    split
    · rw [List.getD_eq_getElem _ _ (by rw [List.length_set]; omega),
        List.getD_eq_getElem _ _ (by omega)]
      rw [List.getElem_set_ne (by omega)]
    · rfl
  · rfl

theorem cacheSet_out (s : Sq α) (i : Int) (c : Option Cached)
    (h : ¬(0 ≤ i ∧ i < (s.cache.length : Int))) : cacheSet s i c = s := by
  unfold cacheSet
  rw [if_neg h]

theorem getD_append_lt (l : List (Arr α)) (x : Arr α) (k : Nat) (h : k < l.length) :
    (l ++ [x]).getD k [] = l.getD k [] := by
  rw [List.getD_eq_getElem _ _ (by simp; omega), List.getD_eq_getElem _ _ h]
  rw [List.getElem_append_left h]

/-- Appending a fresh array leaves existing dereferences unchanged. -/
theorem deref_append (s s2 : Sq α) (x : Arr α) (p : Nat)
    (harr : s2.arrays = s.arrays ++ [x]) (hp : p < s.arrays.length) :
    deref s2 (some p) = deref s (some p) := by
  have h2 : deref s2 (some p) = s2.arrays.getD p [] := rfl
  have h3 : deref s (some p) = s.arrays.getD p [] := rfl
  rw [h2, h3, harr, getD_append_lt _ _ _ hp]

theorem alenI_append (s s2 : Sq α) (x : Arr α) (p : Nat)
    (harr : s2.arrays = s.arrays ++ [x]) (hp : p < s.arrays.length) :
    alenI s2 (some p) = alenI s (some p) := by
  unfold alenI
  rw [deref_append s s2 x p harr hp]

end Squeue

namespace Squeue

variable {α : Type}

theorem cacheGet_congr (s1 s2 : Sq α) (i : Int) (h : s1.cache = s2.cache) :
    cacheGet s1 i = cacheGet s2 i := by
  unfold cacheGet
  rw [h]

theorem prevSlot_congr (s1 s2 : Sq α) (i : Int) (h : s1.cache.length = s2.cache.length) :
    prevSlot s1 i = prevSlot s2 i := by
  unfold prevSlot
  rw [h]

theorem cacheGet_some_range (s : Sq α) (i : Int) (c : Cached)
    (h : cacheGet s i = some c) : 0 ≤ i ∧ i < (s.cache.length : Int) := by
  unfold cacheGet at h
  by_contra hc
  rw [if_neg hc] at h
  cases h

theorem prevSlot_range (s : Sq α) (i : Int) (h0 : 0 ≤ i)
    (h1 : i < (s.cache.length : Int)) (hn : 0 < s.cache.length) :
    0 ≤ prevSlot s i ∧ prevSlot s i < (s.cache.length : Int) := by
  unfold prevSlot
  constructor <;> (split <;> omega)

/-- Stepping forward then back lands on the same slot. -/
theorem prevSlot_succ (s : Sq α) (x : Int) (h0 : 0 ≤ x)
    (h1 : x < (s.cache.length : Int)) :
    prevSlot s ((x + 1) % (s.cache.length : Int)) = x := by
  unfold prevSlot
  rcases lt_or_eq_of_le (by omega : x + 1 ≤ (s.cache.length : Int)) with hlt | heq
  · rw [Int.emod_eq_of_lt (by omega) hlt]
    split <;> omega
  · rw [heq, Int.emod_self]
    split <;> omega

@[simp] theorem prevSlot_cacheSet (s : Sq α) (i : Int) (c : Option Cached) (j : Int) :
    prevSlot (cacheSet s i c) j = prevSlot s j := by
  unfold prevSlot
  rw [length_cache_cacheSet]

/-- Re-filing the entry at an occupied slot with a fresh in-range start index
preserves the structural invariant. -/
theorem SInv_setEntryIdx (s : Sq α) (i : Int) (c : Cached) (v : Int)
    (hc : cacheGet s i = some c) (h0 : 0 ≤ v) (h1 : v < alenI s (some c.ptr))
    (h : SInv s) : SInv (cacheSet s i (some { c with idx := v })) := by
  obtain ⟨hi0, hi1⟩ := cacheGet_some_range s i c hc
  constructor
  case cacheLen => rw [length_cache_cacheSet]; exact h.cacheLen
  case cFlo => rw [cacheF_cacheSet]; exact h.cFlo
  case cFhi => rw [cacheF_cacheSet, length_cache_cacheSet]; exact h.cFhi
  case cLlo => rw [cacheL_cacheSet]; exact h.cLlo
  case cLhi => rw [cacheL_cacheSet, length_cache_cacheSet]; exact h.cLhi
  case headSome => rw [head_cacheSet]; exact h.headSome
  case headValid =>
    intro hh hhh
    rw [head_cacheSet] at hhh
    rw [arrays_cacheSet]
    exact h.headValid hh hhh
  case headLen => rw [head_cacheSet, alenI_cacheSet]; exact h.headLen
  case hFlo => rw [headF_cacheSet]; exact h.hFlo
  case hFhi => rw [headF_cacheSet, head_cacheSet, alenI_cacheSet]; exact h.hFhi
  case hLlo => rw [headL_cacheSet]; exact h.hLlo
  case hLhi => rw [headL_cacheSet, head_cacheSet, alenI_cacheSet]; exact h.hLhi
  case tailValid =>
    intro t ht
    rw [tail_cacheSet] at ht
    rw [arrays_cacheSet]
    exact h.tailValid t ht
  case tailLen =>
    intro ht
    rw [tail_cacheSet] at ht
    rw [tail_cacheSet, alenI_cacheSet]
    exact h.tailLen ht
  case tFlo => intro ht; rw [tail_cacheSet] at ht; rw [tailF_cacheSet]; exact h.tFlo ht
  case tFhi =>
    intro ht; rw [tail_cacheSet] at ht
    rw [tailF_cacheSet, tail_cacheSet, alenI_cacheSet]; exact h.tFhi ht
  case tLlo => intro ht; rw [tail_cacheSet] at ht; rw [tailL_cacheSet]; exact h.tLlo ht
  case tLhi =>
    intro ht; rw [tail_cacheSet] at ht
    rw [tailL_cacheSet, tail_cacheSet, alenI_cacheSet]; exact h.tLhi ht
  case entryValid =>
    intro j cj hcj
    rw [arrays_cacheSet, alenI_cacheSet]
    rcases eq_or_ne i j with hij | hij
    · subst hij
      rw [cacheGet_cacheSet_self s i _ hi0 hi1] at hcj
      cases hcj
      have := h.entryValid i c hc
      exact ⟨this.1, this.2.1, h0, h1⟩
    · rw [cacheGet_cacheSet_ne s i j _ hij] at hcj
      exact h.entryValid j cj hcj
  case headEntry =>
    obtain ⟨c0, hc0, hh0⟩ := h.headEntry
    rw [cacheF_cacheSet, head_cacheSet]
    rcases eq_or_ne i s.cacheF with hif | hif
    · subst hif
      refine ⟨{ c with idx := v }, cacheGet_cacheSet_self s _ _ hi0 hi1, ?_⟩
      rw [hc] at hc0
      cases hc0
      exact hh0
    · exact ⟨c0, by rw [cacheGet_cacheSet_ne s i _ _ hif]; exact hc0, hh0⟩
  case tailEntry =>
    intro ht
    rw [tail_cacheSet] at ht
    obtain ⟨c0, hc0, hh0⟩ := h.tailEntry ht
    rw [cacheL_cacheSet, tail_cacheSet, prevSlot_cacheSet]
    rcases eq_or_ne i (prevSlot s s.cacheL) with hif | hif
    · subst hif
      refine ⟨{ c with idx := v }, cacheGet_cacheSet_self s _ _ hi0 hi1, ?_⟩
      rw [hc] at hc0
      cases hc0
      exact hh0
    · exact ⟨c0, by rw [cacheGet_cacheSet_ne s i _ _ hif]; exact hc0, hh0⟩
  case tailNilA =>
    intro ht
    rw [tail_cacheSet] at ht
    rw [cacheF_cacheSet, cacheL_cacheSet, length_cache_cacheSet]
    exact h.tailNilA ht
  case tailSomeA =>
    intro ht
    rw [tail_cacheSet] at ht
    rw [cacheF_cacheSet, cacheL_cacheSet, length_cache_cacheSet]
    exact h.tailSomeA ht
  case inj =>
    intro j k cj ck hcj hck hjk
    rcases eq_or_ne i j with hij | hij
    · subst hij
      rw [cacheGet_cacheSet_self s i _ hi0 hi1] at hcj
      rw [cacheGet_cacheSet_ne s i k _ hjk] at hck
      cases hcj
      exact h.inj i k c ck hc hck hjk
    · rw [cacheGet_cacheSet_ne s i j _ hij] at hcj
      rcases eq_or_ne i k with hik | hik
      · subst hik
        rw [cacheGet_cacheSet_self s i _ hi0 hi1] at hck
        cases hck
        exact h.inj j i cj c hcj hc hjk
      · rw [cacheGet_cacheSet_ne s i k _ hik] at hck
        exact h.inj j k cj ck hcj hck hjk

/-- Voiding a directory slot other than the head's and the tail's preserves
the structural invariant. -/
theorem SInv_cacheVoid (s : Sq α) (i : Int)
    (hnf : i ≠ s.cacheF) (hnt : s.tail ≠ none → i ≠ prevSlot s s.cacheL)
    (h : SInv s) : SInv (cacheSet s i none) := by
  rcases Classical.em (0 ≤ i ∧ i < (s.cache.length : Int)) with hir | hir
  case inr => rw [cacheSet_out s i none hir]; exact h
  constructor
  case cacheLen => rw [length_cache_cacheSet]; exact h.cacheLen
  case cFlo => rw [cacheF_cacheSet]; exact h.cFlo
  case cFhi => rw [cacheF_cacheSet, length_cache_cacheSet]; exact h.cFhi
  case cLlo => rw [cacheL_cacheSet]; exact h.cLlo
  case cLhi => rw [cacheL_cacheSet, length_cache_cacheSet]; exact h.cLhi
  case headSome => rw [head_cacheSet]; exact h.headSome
  case headValid =>
    intro hh hhh
    rw [head_cacheSet] at hhh
    rw [arrays_cacheSet]
    exact h.headValid hh hhh
  case headLen => rw [head_cacheSet, alenI_cacheSet]; exact h.headLen
  case hFlo => rw [headF_cacheSet]; exact h.hFlo
  case hFhi => rw [headF_cacheSet, head_cacheSet, alenI_cacheSet]; exact h.hFhi
  case hLlo => rw [headL_cacheSet]; exact h.hLlo
  case hLhi => rw [headL_cacheSet, head_cacheSet, alenI_cacheSet]; exact h.hLhi
  case tailValid =>
    intro t ht
    rw [tail_cacheSet] at ht
    rw [arrays_cacheSet]
    exact h.tailValid t ht
  case tailLen =>
    intro ht
    rw [tail_cacheSet] at ht
    rw [tail_cacheSet, alenI_cacheSet]
    exact h.tailLen ht
  case tFlo => intro ht; rw [tail_cacheSet] at ht; rw [tailF_cacheSet]; exact h.tFlo ht
  case tFhi =>
    intro ht; rw [tail_cacheSet] at ht
    rw [tailF_cacheSet, tail_cacheSet, alenI_cacheSet]; exact h.tFhi ht
  case tLlo => intro ht; rw [tail_cacheSet] at ht; rw [tailL_cacheSet]; exact h.tLlo ht
  case tLhi =>
    intro ht; rw [tail_cacheSet] at ht
    rw [tailL_cacheSet, tail_cacheSet, alenI_cacheSet]; exact h.tLhi ht
  case entryValid =>
    intro j cj hcj
    rw [arrays_cacheSet, alenI_cacheSet]
    rcases eq_or_ne i j with hij | hij
    · subst hij
      rw [cacheGet_cacheSet_self s i _ hir.1 hir.2] at hcj
      cases hcj
    · rw [cacheGet_cacheSet_ne s i j _ hij] at hcj
      exact h.entryValid j cj hcj
  case headEntry =>
    obtain ⟨c0, hc0, hh0⟩ := h.headEntry
    rw [cacheF_cacheSet, head_cacheSet]
    exact ⟨c0, by rw [cacheGet_cacheSet_ne s i _ _ hnf]; exact hc0, hh0⟩
  case tailEntry =>
    intro ht
    rw [tail_cacheSet] at ht
    obtain ⟨c0, hc0, hh0⟩ := h.tailEntry ht
    rw [cacheL_cacheSet, tail_cacheSet, prevSlot_cacheSet]
    exact ⟨c0, by rw [cacheGet_cacheSet_ne s i _ _ (hnt ht)]; exact hc0, hh0⟩
  case tailNilA =>
    intro ht
    rw [tail_cacheSet] at ht
    rw [cacheF_cacheSet, cacheL_cacheSet, length_cache_cacheSet]
    exact h.tailNilA ht
  case tailSomeA =>
    intro ht
    rw [tail_cacheSet] at ht
    rw [cacheF_cacheSet, cacheL_cacheSet, length_cache_cacheSet]
    exact h.tailSomeA ht
  case inj =>
    intro j k cj ck hcj hck hjk
    rcases eq_or_ne i j with hij | hij
    · subst hij
      rw [cacheGet_cacheSet_self s i _ hir.1 hir.2] at hcj
      cases hcj
    · rw [cacheGet_cacheSet_ne s i j _ hij] at hcj
      rcases eq_or_ne i k with hik | hik
      · subst hik
        rw [cacheGet_cacheSet_self s i _ hir.1 hir.2] at hck
        cases hck
      · rw [cacheGet_cacheSet_ne s i k _ hik] at hck
        exact h.inj j k cj ck hcj hck hjk

end Squeue

namespace Squeue

variable {α : Type}

/-- `pushNewTail` recycles or allocates a tail segment: the result keeps the
head and directory front intact, installs a nonempty-capacity tail at
`tailF = tailL = 0`, advances `cacheL`, and preserves the structural
invariant. -/
theorem SInv_pushNewTail (cap : Int) (s : Sq α) (h : SInv s)
    (hcap : 0 < cap) (hne : s.cacheF ≠ s.cacheL) :
    SInv (pushNewTail cap s) ∧
    (pushNewTail cap s).head = s.head ∧
    (pushNewTail cap s).headF = s.headF ∧
    (pushNewTail cap s).headL = s.headL ∧
    (pushNewTail cap s).cacheF = s.cacheF ∧
    (pushNewTail cap s).cacheSize = s.cacheSize ∧
    (pushNewTail cap s).tailF = 0 ∧
    (pushNewTail cap s).tailL = 0 ∧
    deref (pushNewTail cap s) s.head = deref s s.head ∧
    alenI (pushNewTail cap s) s.head = alenI s s.head ∧
    ∃ t : Nat, (pushNewTail cap s).tail = some t ∧ s.head ≠ some t ∧
      0 < alenI (pushNewTail cap s) (some t) := by
  obtain ⟨hh, hhs⟩ := Option.ne_none_iff_exists'.mp h.headSome
  have hhv := h.headValid hh hhs
  have hn6 := h.cacheLen
  have hrangeL := Int.emod_range (s.cacheL + 1) (s.cache.length : Int) (by omega)
  have hAne : (s.cacheF + 1) % (s.cache.length : Int) ≠
      (s.cacheL + 1) % (s.cache.length : Int) := by
    intro hx
    apply hne
    apply emod_cancel_left 1 s.cacheF s.cacheL (s.cache.length : Int) (by omega)
      h.cFlo h.cFhi h.cLlo h.cLhi
    rw [show (1 : Int) + s.cacheF = s.cacheF + 1 by ring,
      show (1 : Int) + s.cacheL = s.cacheL + 1 by ring]
    exact hx
  cases hget : cacheGet s s.cacheL with
  | some c =>
    have hev := h.entryValid _ _ hget
    have hres : pushNewTail cap s =
        { s with tail := some c.ptr, tailF := 0, tailL := 0,
                 cacheL := (s.cacheL + 1) % (s.cache.length : Int) } := by
      unfold pushNewTail
      rw [hget]
    rw [hres]
    set s' : Sq α :=
      { s with tail := some c.ptr, tailF := 0, tailL := 0,
               cacheL := (s.cacheL + 1) % (s.cache.length : Int) } with hs'
    have hcg : ∀ i, cacheGet s' i = cacheGet s i := fun i => cacheGet_congr s' s i rfl
    have hal : ∀ p, alenI s' p = alenI s p := fun p => alenI_congr s' s p rfl
    have hps : ∀ i, prevSlot s' i = prevSlot s i := fun i => prevSlot_congr s' s i rfl
    have hI : SInv s' := by
      constructor
      case cacheLen => exact h.cacheLen
      case cFlo => exact h.cFlo
      case cFhi => exact h.cFhi
      case cLlo => exact hrangeL.1
      case cLhi => exact hrangeL.2
      case headSome => exact h.headSome
      case headValid => exact h.headValid
      case headLen => rw [show s'.head = s.head from rfl, hal]; exact h.headLen
      case hFlo => exact h.hFlo
      case hFhi => rw [show s'.head = s.head from rfl, hal]; exact h.hFhi
      case hLlo => exact h.hLlo
      case hLhi => rw [show s'.head = s.head from rfl, hal]; exact h.hLhi
      case tailValid =>
        intro t ht
        cases ht
        exact hev.1
      case tailLen =>
        intro _
        rw [show s'.tail = some c.ptr from rfl, hal]
        exact hev.2.1
      case tFlo => intro _; exact le_refl 0
      case tFhi =>
        intro _
        rw [show s'.tail = some c.ptr from rfl, hal]
        exact hev.2.1
      case tLlo => intro _; exact le_refl 0
      case tLhi =>
        intro _
        rw [show s'.tail = some c.ptr from rfl, hal]
        exact hev.2.1
      case entryValid =>
        intro i ci hci
        rw [hcg] at hci
        exact h.entryValid i ci hci
      case headEntry =>
        obtain ⟨c0, hc0, hh0⟩ := h.headEntry
        exact ⟨c0, by rw [show s'.cacheF = s.cacheF from rfl, hcg]; exact hc0, hh0⟩
      case tailEntry =>
        intro _
        refine ⟨c, ?_, rfl⟩
        rw [hps, show s'.cacheL = (s.cacheL + 1) % (s.cache.length : Int) from rfl,
          prevSlot_succ s s.cacheL h.cLlo h.cLhi, hcg]
        exact hget
      case tailNilA => intro ht; cases ht
      case tailSomeA => intro _; exact hAne
      case inj =>
        intro i j ci cj hci hcj hij
        rw [hcg] at hci hcj
        exact h.inj i j ci cj hci hcj hij
    refine ⟨hI, rfl, rfl, rfl, rfl, rfl, rfl, rfl, rfl, hal s.head, c.ptr, rfl, ?_, ?_⟩
    · rw [hhs]
      intro hx
      injection hx with hx1
      obtain ⟨c0, hc0, hh0⟩ := h.headEntry
      rw [hhs] at hh0
      injection hh0 with hh1
      exact h.inj s.cacheF s.cacheL c0 c hc0 hget hne (hh1.symm.trans hx1)
    · rw [hal]
      exact hev.2.1
  | none =>
    have hres : pushNewTail cap s =
        { cacheSet { s with arrays := s.arrays ++ [List.replicate cap.toNat none] }
              s.cacheL (some ⟨s.arrays.length, 0⟩) with
            tail := some s.arrays.length, tailF := 0, tailL := 0,
            cacheL := (s.cacheL + 1) % (s.cache.length : Int) } := by
      unfold pushNewTail allocSeg
      rw [hget]
      simp only [cacheL_cacheSet, length_cache_cacheSet]
    rw [hres]
    set sA : Sq α := { s with arrays := s.arrays ++ [List.replicate cap.toNat none] }
      with hsA
    set s' : Sq α :=
      { cacheSet sA s.cacheL (some ⟨s.arrays.length, 0⟩) with
          tail := some s.arrays.length, tailF := 0, tailL := 0,
          cacheL := (s.cacheL + 1) % (s.cache.length : Int) } with hs'
    have hfHead : s'.head = s.head := by rw [hs']; simp
    have hfHeadF : s'.headF = s.headF := by rw [hs']; simp
    have hfHeadL : s'.headL = s.headL := by rw [hs']; simp
    have hfCacheF : s'.cacheF = s.cacheF := by rw [hs']; simp
    have hfSize : s'.cacheSize = s.cacheSize := by rw [hs']; simp
    have hfLen : s'.cache.length = s.cache.length := by rw [hs']; simp
    have hfTail : s'.tail = some s.arrays.length := rfl
    have hfCacheL : s'.cacheL = (s.cacheL + 1) % (s.cache.length : Int) := rfl
    have hcg : ∀ i, cacheGet s' i = cacheGet (cacheSet sA s.cacheL (some ⟨s.arrays.length, 0⟩)) i :=
      fun i => cacheGet_congr _ _ i rfl
    have hcgne : ∀ i, i ≠ s.cacheL → cacheGet s' i = cacheGet s i := by
      intro i hi
      rw [hcg, cacheGet_cacheSet_ne sA s.cacheL i _ (fun hx => hi hx.symm)]
      exact cacheGet_congr sA s i rfl
    have hcgself : cacheGet s' s.cacheL = some ⟨s.arrays.length, 0⟩ := by
      rw [hcg]
      exact cacheGet_cacheSet_self sA s.cacheL _ h.cLlo h.cLhi
    have harr : s'.arrays = s.arrays ++ [List.replicate cap.toNat none] := by
      rw [hs']
      show (cacheSet sA s.cacheL (some ⟨s.arrays.length, 0⟩)).arrays = _
      rw [arrays_cacheSet]
    have halold : ∀ p : Nat, p < s.arrays.length → alenI s' (some p) = alenI s (some p) :=
      fun p hp => alenI_append s s' _ p harr hp
    have halnew : alenI s' (some s.arrays.length) = cap := by
      unfold alenI
      have hd4 : deref s' (some s.arrays.length) = List.replicate cap.toNat none := by
        have h2 : deref s' (some s.arrays.length) = s'.arrays.getD s.arrays.length [] := rfl
        rw [h2, harr, getD_append_length]
      rw [hd4, List.length_replicate]
      omega
    have halhead : alenI s' s.head = alenI s s.head := by
      rw [hhs]
      exact halold hh hhv
    have hI : SInv s' := by
      constructor
      case cacheLen => rw [hfLen]; exact h.cacheLen
      case cFlo => rw [hfCacheF]; exact h.cFlo
      case cFhi => rw [hfCacheF, hfLen]; exact h.cFhi
      case cLlo => exact hrangeL.1
      case cLhi => rw [hfLen]; exact hrangeL.2
      case headSome => rw [hfHead]; exact h.headSome
      case headValid =>
        intro h2 hh2
        rw [hfHead] at hh2
        have := h.headValid h2 hh2
        rw [harr]
        simp only [List.length_append, List.length_singleton]
        omega
      case headLen => rw [hfHead, halhead]; exact h.headLen
      case hFlo => rw [hfHeadF]; exact h.hFlo
      case hFhi => rw [hfHeadF, hfHead, halhead]; exact h.hFhi
      case hLlo => rw [hfHeadL]; exact h.hLlo
      case hLhi => rw [hfHeadL, hfHead, halhead]; exact h.hLhi
      case tailValid =>
        intro t ht
        rw [hfTail] at ht
        injection ht with ht1
        subst ht1
        rw [harr]
        simp
      case tailLen =>
        intro _
        rw [hfTail, halnew]
        exact hcap
      case tFlo => intro _; exact le_refl 0
      case tFhi =>
        intro _
        rw [hfTail, halnew]
        exact hcap
      case tLlo => intro _; exact le_refl 0
      case tLhi =>
        intro _
        rw [hfTail, halnew]
        exact hcap
      case entryValid =>
        intro i ci hci
        rcases eq_or_ne i s.cacheL with hiL | hiL
        · subst hiL
          rw [hcgself] at hci
          cases hci
          refine ⟨by rw [harr]; simp, ?_, le_refl 0, ?_⟩
          · rw [halnew]; exact hcap
          · rw [halnew]; exact hcap
        · rw [hcgne i hiL] at hci
          have h5 := h.entryValid i ci hci
          refine ⟨?_, ?_, h5.2.2.1, ?_⟩
          · rw [harr]
            simp only [List.length_append, List.length_singleton]
            omega
          · rw [halold ci.ptr h5.1]
            exact h5.2.1
          · rw [halold ci.ptr h5.1]
            exact h5.2.2.2
      case headEntry =>
        obtain ⟨c0, hc0, hh0⟩ := h.headEntry
        refine ⟨c0, ?_, ?_⟩
        · rw [hfCacheF, hcgne s.cacheF hne]
          exact hc0
        · rw [hfHead]
          exact hh0
      case tailEntry =>
        intro _
        refine ⟨⟨s.arrays.length, 0⟩, ?_, rfl⟩
        rw [hfCacheL, prevSlot_congr s' s _ hfLen,
          prevSlot_succ s s.cacheL h.cLlo h.cLhi]
        exact hcgself
      case tailNilA =>
        intro ht
        rw [hfTail] at ht
        cases ht
      case tailSomeA =>
        intro _
        rw [hfCacheF, hfLen, hfCacheL]
        exact hAne
      case inj =>
        intro i j ci cj hci hcj hij
        rcases eq_or_ne i s.cacheL with hiL | hiL
        · subst hiL
          rw [hcgself] at hci
          cases hci
          rw [hcgne j hij.symm] at hcj
          have h5 := h.entryValid j cj hcj
          intro hx
          have hx2 : s.arrays.length = cj.ptr := hx
          omega
        · rw [hcgne i hiL] at hci
          rcases eq_or_ne j s.cacheL with hjL | hjL
          · subst hjL
            rw [hcgself] at hcj
            cases hcj
            have h5 := h.entryValid i ci hci
            intro hx
            have hx2 : ci.ptr = s.arrays.length := hx
            omega
          · rw [hcgne j hjL] at hcj
            exact h.inj i j ci cj hci hcj hij
    refine ⟨hI, hfHead, hfHeadF, hfHeadL, hfCacheF, hfSize, rfl, rfl, ?_, halhead,
      s.arrays.length, hfTail, ?_, ?_⟩
    · rw [hhs]
      exact deref_append s s' _ hh harr hhv
    · rw [hhs]
      intro hx
      injection hx with h6
      omega
    · rw [halnew]
      exact hcap

end Squeue

namespace Squeue

variable {α : Type}

/-- The structural invariant ignores the cached size counter. -/
theorem SInv_setCacheSize (s : Sq α) (v : Int) (h : SInv s) :
    SInv { s with cacheSize := v } :=
  { cacheLen := h.cacheLen, cFlo := h.cFlo, cFhi := h.cFhi, cLlo := h.cLlo,
    cLhi := h.cLhi, headSome := h.headSome, headValid := h.headValid,
    headLen := h.headLen, hFlo := h.hFlo, hFhi := h.hFhi, hLlo := h.hLlo,
    hLhi := h.hLhi, tailValid := h.tailValid, tailLen := h.tailLen,
    tFlo := h.tFlo, tFhi := h.tFhi, tLlo := h.tLlo, tLhi := h.tLhi,
    entryValid := h.entryValid, headEntry := h.headEntry,
    tailEntry := h.tailEntry, tailNilA := h.tailNilA,
    tailSomeA := h.tailSomeA, inj := h.inj }

/-- `pushFile` on a state with a tail never panics: it files the tail's
entry (growing a full directory first), accounts the tail's length, leaves
every other field intact, and preserves the structural invariant. -/
theorem SInv_pushFile (s : Sq α) (t : Nat) (ht : s.tail = some t) (h : SInv s) :
    ∃ s1 : Sq α, pushFile s = some s1 ∧ SInv s1 ∧
      s1.cacheF ≠ s1.cacheL ∧
      s1.arrays = s.arrays ∧ s1.head = s.head ∧ s1.headF = s.headF ∧
      s1.headL = s.headL ∧ s1.tail = s.tail ∧ s1.tailF = s.tailF ∧
      s1.tailL = s.tailL ∧
      s1.cacheSize = s.cacheSize + alenI s s.tail := by
  have htne : s.tail ≠ none := by rw [ht]; intro hx; cases hx
  have hn6 := h.cacheLen
  rcases eq_or_ne s.cacheL s.cacheF with hfull | hfull
  · -- full directory: grow first
    obtain ⟨s2, hg, hI2, hcF, hcL, hne2, harr, hhd, htl, hhF, hhL, htF, htL, hcS, hmapI⟩ :=
      SInv_grow s h hfull.symm
    have htne2 : s2.tail ≠ none := by rw [htl]; exact htne
    obtain ⟨c, hc, hcp⟩ := h.tailEntry htne
    have hal2 : ∀ p, alenI s2 p = alenI s p := fun p => alenI_congr s2 s p harr
    have hd1 : (if s2.cacheL - 1 < 0 then s2.cacheL - 1 + (s2.cache.length : Int)
        else s2.cacheL - 1) = (s.cache.length : Int) - 1 := by
      rw [hcL]
      rw [if_neg (by omega)]
    have hlen2 : (s.cache.length : Int) ≤ (s2.cache.length : Int) := by
      have := hI2.cLhi
      rw [hcL] at this
      omega
    have hps : prevSlot s s.cacheL = (s.cacheF + ((s.cache.length : Int) - 1)) %
        (s.cache.length : Int) := by
      have hcF0 := h.cFlo
      have hcFn := h.cFhi
      rw [hfull]
      unfold prevSlot
      rcases eq_or_ne s.cacheF 0 with h0 | h0
      · rw [h0]
        rw [if_pos (by omega)]
        rw [Int.emod_eq_of_lt (by omega) (by omega)]
        omega
      · rw [if_neg (by omega)]
        rw [show s.cacheF + ((s.cache.length : Int) - 1)
            = (s.cacheF - 1) + 1 * (s.cache.length : Int) by ring]
        rw [Int.add_mul_emod_self]
        rw [Int.emod_eq_of_lt (by omega) (by omega)]
    have hc2 : cacheGet s2 ((s.cache.length : Int) - 1) = some c := by
      rw [hmapI ((s.cache.length : Int) - 1) (by omega) (by omega), ← hps]
      exact hc
    have hcb2 : cacheGet s2 (if s2.cacheL - 1 < 0 then s2.cacheL - 1 + (s2.cache.length : Int)
        else s2.cacheL - 1) = some c := by
      rw [hd1]
      exact hc2
    have hresult : pushFile s = some
        { cacheSet s2 (if s2.cacheL - 1 < 0 then s2.cacheL - 1 + (s2.cache.length : Int)
            else s2.cacheL - 1) (some { c with idx := s2.tailF }) with
          cacheSize := s2.cacheSize + alenI s2 s2.tail } := by
      unfold pushFile
      rw [if_pos hfull, hg]
      simp only [hcb2]
      simp only [cacheSize_cacheSet, tail_cacheSet, alenI_cacheSet]
    have hidx0 : 0 ≤ s2.tailF := by rw [htF]; exact h.tFlo htne
    have hidx1 : s2.tailF < alenI s2 (some c.ptr) := by
      rw [htF, hal2, ← hcp]
      exact h.tFhi htne
    have hIset := SInv_setEntryIdx s2 _ c s2.tailF hcb2 hidx0 hidx1 hI2
    refine ⟨_, hresult, SInv_setCacheSize _ _ hIset, ?_, ?_, ?_, ?_, ?_, ?_, ?_, ?_, ?_⟩
    · simp only [cacheF_cacheSet, cacheL_cacheSet]
      rw [hcF, hcL]
      omega
    · simp only [arrays_cacheSet]; exact harr
    · simp only [head_cacheSet]; exact hhd
    · simp only [headF_cacheSet]; exact hhF
    · simp only [headL_cacheSet]; exact hhL
    · simp only [tail_cacheSet]; exact htl
    · simp only [tailF_cacheSet]; exact htF
    · simp only [tailL_cacheSet]; exact htL
    · simp only [cacheSize_cacheSet, tail_cacheSet]
      rw [hcS, hal2, htl]
  · -- directory not full
    obtain ⟨c, hc, hcp⟩ := h.tailEntry htne
    have hcb : cacheGet s (if s.cacheL - 1 < 0 then s.cacheL - 1 + (s.cache.length : Int)
        else s.cacheL - 1) = some c := hc
    have hresult := pushFile_no_grow s c hfull hcb
    have hidx0 : 0 ≤ s.tailF := h.tFlo htne
    have hidx1 : s.tailF < alenI s (some c.ptr) := by
      rw [← hcp]
      exact h.tFhi htne
    have hIset := SInv_setEntryIdx s _ c s.tailF hcb hidx0 hidx1 h
    refine ⟨_, hresult, SInv_setCacheSize _ _ hIset, ?_, ?_, ?_, ?_, ?_, ?_, ?_, ?_, ?_⟩
    · simp only [cacheF_cacheSet, cacheL_cacheSet]
      omega
    · simp only [arrays_cacheSet]
    · simp only [head_cacheSet]
    · simp only [headF_cacheSet]
    · simp only [headL_cacheSet]
    · simp only [tail_cacheSet]
    · simp only [tailF_cacheSet]
    · simp only [tailL_cacheSet]
    · simp only [cacheSize_cacheSet, tail_cacheSet, alenI_cacheSet]

end Squeue

namespace Squeue

variable {α : Type}

/-- With no tail, the directory cannot be full. -/
theorem tailNone_ne (s : Sq α) (h : SInv s) (ht : s.tail = none) :
    s.cacheF ≠ s.cacheL := by
  have h1 := h.tailNilA ht
  have hn6 := h.cacheLen
  have hlo := h.cFlo
  have hhi := h.cFhi
  intro hx
  rw [← hx] at h1
  rcases lt_or_eq_of_le (by omega : s.cacheF + 1 ≤ (s.cache.length : Int)) with hlt | heq
  · rw [Int.emod_eq_of_lt (by omega) hlt] at h1
    omega
  · rw [heq, Int.emod_self] at h1
    omega

theorem capA_pos (s : Sq α) (h : 0 < alenI s s.head) :
    0 < gmin (2 * alenI s s.head) 100000 := by
  unfold gmin
  split <;> omega

theorem capB_pos (s : Sq α) (h : 0 < alenI s s.head) :
    0 < gmin (2 * gmax (alenI s s.head) (alenI s s.tail)) 100000 := by
  have := alenI_nonneg s s.tail
  unfold gmin gmax
  repeat' split
  all_goals omega

/-- `Push` never panics from a structurally sound state and preserves the
invariant. -/
theorem SInv_pushOp (v : Val α) (s : Sq α) (h : SInv s) :
    ∃ s1 : Sq α, pushOp v s = some s1 ∧ SInv s1 := by
  cases ht : s.tail with
  | none =>
    by_cases hguard : s.headL = s.headF ∧ (aget (deref s s.head) s.headL).isSome = true
    · have hne := tailNone_ne s h ht
      have hcap := capA_pos s h.headLen
      obtain ⟨hI, -, -, -, -, -, -, -, -, -, t, htl, -, -⟩ :=
        SInv_pushNewTail (gmin (2 * alenI s s.head) 100000) s h hcap hne
      refine ⟨_, ?_, SInv_writeTailAdvance v _ t htl hI⟩
      unfold pushOp
      rw [ht, if_neg (not_not_intro hguard)]
    · refine ⟨_, ?_, SInv_writeHeadAdvance v s h⟩
      unfold pushOp
      rw [ht, if_pos hguard]
  | some t =>
    by_cases hguard : s.tailL = s.tailF ∧ (aget (deref s s.tail) s.tailL).isSome = true
    · obtain ⟨s1, hpf, hI1, hne1, harr, hhd, -, -, htl1, -, -⟩ := SInv_pushFile s t ht h
      have hal1 : alenI s1 s1.head = alenI s s.head := by
        rw [hhd]
        exact alenI_congr s1 s s.head harr
      have hcap := capB_pos s1 (by rw [hal1]; exact h.headLen)
      obtain ⟨hI, -, -, -, -, -, -, -, -, -, t2, htl2, -, -⟩ :=
        SInv_pushNewTail (gmin (2 * gmax (alenI s1 s1.head) (alenI s1 s1.tail)) 100000)
          s1 hI1 hcap hne1
      rw [ht] at hguard
      refine ⟨_, ?_, SInv_writeTailAdvance v _ t2 htl2 hI⟩
      unfold pushOp
      simp only [ht]
      rw [if_pos hguard, hpf]
      rfl
    · rw [ht] at hguard
      refine ⟨_, ?_, SInv_writeTailAdvance v s t ht h⟩
      unfold pushOp
      simp only [ht]
      rw [if_neg hguard]

end Squeue

namespace Squeue

variable {α : Type}

/-- Stepping back then forward lands on the same slot. -/
theorem succ_prevSlot (s : Sq α) (x : Int) (h0 : 0 ≤ x)
    (h1 : x < (s.cache.length : Int)) (hn : 0 < s.cache.length) :
    (prevSlot s x + 1) % (s.cache.length : Int) = x := by
  unfold prevSlot
  rcases eq_or_ne x 0 with hx | hx
  · rw [hx]
    rw [if_pos (by omega)]
    rw [show (0 : Int) - 1 + (s.cache.length : Int) + 1 = 0 + 1 * (s.cache.length : Int)
      by ring]
    rw [Int.add_mul_emod_self]
    rw [Int.emod_eq_of_lt (by omega) (by omega)]
  · rw [if_neg (by omega)]
    rw [show x - 1 + 1 = x by ring]
    rw [Int.emod_eq_of_lt (by omega) (by omega)]

/-- All structural clauses except the head's directory entry: the state
mid-`Shift`, after `cacheF` has been stepped back onto a yet-unfilled
slot. -/
structure SInvX (s : Sq α) : Prop where
  cacheLen : 6 ≤ s.cache.length
  cFlo : 0 ≤ s.cacheF
  cFhi : s.cacheF < (s.cache.length : Int)
  cLlo : 0 ≤ s.cacheL
  cLhi : s.cacheL < (s.cache.length : Int)
  headSome : s.head ≠ none
  headValid : ∀ h, s.head = some h → h < s.arrays.length
  headLen : 0 < alenI s s.head
  tailValid : ∀ t, s.tail = some t → t < s.arrays.length
  tailLen : s.tail ≠ none → 0 < alenI s s.tail
  tFlo : s.tail ≠ none → 0 ≤ s.tailF
  tFhi : s.tail ≠ none → s.tailF < alenI s s.tail
  tLlo : s.tail ≠ none → 0 ≤ s.tailL
  tLhi : s.tail ≠ none → s.tailL < alenI s s.tail
  entryValid : ∀ i c, cacheGet s i = some c →
    c.ptr < s.arrays.length ∧ 0 < alenI s (some c.ptr) ∧
    0 ≤ c.idx ∧ c.idx < alenI s (some c.ptr)
  tailEntry : s.tail ≠ none →
    ∃ c, cacheGet s (prevSlot s s.cacheL) = some c ∧ s.tail = some c.ptr
  tailSomeA : s.tail ≠ none → (s.cacheF + 1) % (s.cache.length : Int) ≠ s.cacheL
  inj : ∀ i j ci cj, cacheGet s i = some ci → cacheGet s j = some cj →
    i ≠ j → ci.ptr ≠ cj.ptr

theorem capI_ge2 (s : Sq α) (h : 0 < alenI s s.head) :
    2 ≤ gmin (2 * gmax (alenI s s.head) (alenI s s.tail)) 100000 := by
  have := alenI_nonneg s s.tail
  unfold gmin gmax
  repeat' split
  all_goals omega

/-- Installing a new head over an unfilled slot (`shiftInstall`) restores the
full structural invariant, whether the slot offers a recycled segment or a
fresh one is allocated. -/
theorem SInv_shiftInstall (elem : Val α) (s : Sq α) (hx : SInvX s)
    (htne : s.tail ≠ none) : SInv (shiftInstall elem s) := by
  have hn6 := hx.cacheLen
  cases hget : cacheGet s s.cacheF with
  | some c =>
    have hev := hx.entryValid _ _ hget
    have hres : shiftInstall elem s =
        writeHead elem { s with head := some c.ptr, headF := 0, headL := 0 } := by
      unfold shiftInstall
      rw [hget]
    rw [hres]
    apply SInv_writeHead
    constructor
    case cacheLen => exact hx.cacheLen
    case cFlo => exact hx.cFlo
    case cFhi => exact hx.cFhi
    case cLlo => exact hx.cLlo
    case cLhi => exact hx.cLhi
    case headSome => intro hz; cases hz
    case headValid =>
      intro h2 hh2
      injection hh2 with hh3
      rw [← hh3]
      exact hev.1
    case headLen => exact hev.2.1
    case hFlo => exact le_refl 0
    case hFhi => exact hev.2.1
    case hLlo => exact le_refl 0
    case hLhi => exact hev.2.1
    case tailValid => exact hx.tailValid
    case tailLen => exact hx.tailLen
    case tFlo => exact hx.tFlo
    case tFhi => exact hx.tFhi
    case tLlo => exact hx.tLlo
    case tLhi => exact hx.tLhi
    case entryValid => exact hx.entryValid
    case headEntry => exact ⟨c, hget, rfl⟩
    case tailEntry => exact hx.tailEntry
    case tailNilA => intro ht; exact absurd ht htne
    case tailSomeA => intro _; exact hx.tailSomeA htne
    case inj => exact hx.inj
  | none =>
    obtain ⟨hh, hhs⟩ := Option.ne_none_iff_exists'.mp hx.headSome
    have hhv := hx.headValid hh hhs
    have hcap := capI_ge2 s hx.headLen
    set capI : Int := gmin (2 * gmax (alenI s s.head) (alenI s s.tail)) 100000 with hcapI
    have hres : shiftInstall elem s =
        writeHead elem
          { cacheSet { s with arrays := s.arrays ++ [List.replicate capI.toNat none] }
                s.cacheF (some ⟨s.arrays.length, 0⟩) with
              head := some s.arrays.length, headF := 0, headL := 1 } := by
      unfold shiftInstall allocSeg
      rw [hget]
    rw [hres]
    apply SInv_writeHead
    set sA : Sq α := { s with arrays := s.arrays ++ [List.replicate capI.toNat none] }
      with hsA
    set sR : Sq α :=
      { cacheSet sA s.cacheF (some ⟨s.arrays.length, 0⟩) with
          head := some s.arrays.length, headF := 0, headL := 1 } with hsR
    have hfTail : sR.tail = s.tail := by rw [hsR]; simp
    have hfTailF : sR.tailF = s.tailF := by rw [hsR]; simp
    have hfTailL : sR.tailL = s.tailL := by rw [hsR]; simp
    have hfCacheF : sR.cacheF = s.cacheF := by rw [hsR]; simp
    have hfCacheL : sR.cacheL = s.cacheL := by rw [hsR]; simp
    have hfLen : sR.cache.length = s.cache.length := by rw [hsR]; simp
    have hfHead : sR.head = some s.arrays.length := rfl
    have hcg : ∀ i, cacheGet sR i = cacheGet (cacheSet sA s.cacheF (some ⟨s.arrays.length, 0⟩)) i :=
      fun i => cacheGet_congr _ _ i rfl
    have hcgne : ∀ i, i ≠ s.cacheF → cacheGet sR i = cacheGet s i := by
      intro i hi
      rw [hcg, cacheGet_cacheSet_ne sA s.cacheF i _ (fun hz => hi hz.symm)]
      exact cacheGet_congr sA s i rfl
    have hcgself : cacheGet sR s.cacheF = some ⟨s.arrays.length, 0⟩ := by
      rw [hcg]
      exact cacheGet_cacheSet_self sA s.cacheF _ hx.cFlo hx.cFhi
    have harr : sR.arrays = s.arrays ++ [List.replicate capI.toNat none] := by
      rw [hsR]
      show (cacheSet sA s.cacheF (some ⟨s.arrays.length, 0⟩)).arrays = _
      rw [arrays_cacheSet]
    have halold : ∀ p : Nat, p < s.arrays.length → alenI sR (some p) = alenI s (some p) :=
      fun p hp => alenI_append s sR _ p harr hp
    have halnew : alenI sR (some s.arrays.length) = capI := by
      unfold alenI
      have hd4 : deref sR (some s.arrays.length) = List.replicate capI.toNat none := by
        have h2 : deref sR (some s.arrays.length) = sR.arrays.getD s.arrays.length [] := rfl
        rw [h2, harr, getD_append_length]
      rw [hd4, List.length_replicate]
      omega
    have haltail : alenI sR sR.tail = alenI s s.tail := by
      rw [hfTail]
      obtain ⟨t0, ht0⟩ := Option.ne_none_iff_exists'.mp htne
      rw [ht0]
      exact halold t0 (hx.tailValid t0 ht0)
    constructor
    case cacheLen => rw [hfLen]; exact hx.cacheLen
    case cFlo => rw [hfCacheF]; exact hx.cFlo
    case cFhi => rw [hfCacheF, hfLen]; exact hx.cFhi
    case cLlo => rw [hfCacheL]; exact hx.cLlo
    case cLhi => rw [hfCacheL, hfLen]; exact hx.cLhi
    case headSome => rw [hfHead]; intro hz; cases hz
    case headValid =>
      intro h2 hh2
      rw [hfHead] at hh2
      injection hh2 with hh3
      rw [← hh3, harr]
      simp
    case headLen =>
      rw [hfHead, halnew]
      omega
    case hFlo => exact le_refl 0
    case hFhi =>
      rw [hfHead, halnew]
      have : sR.headF = 0 := rfl
      omega
    case hLlo => exact (by omega : (0 : Int) ≤ 1)
    case hLhi =>
      rw [hfHead, halnew]
      have : sR.headL = 1 := rfl
      omega
    case tailValid =>
      intro t2 ht2
      rw [hfTail] at ht2
      have := hx.tailValid t2 ht2
      rw [harr]
      simp only [List.length_append, List.length_singleton]
      omega
    case tailLen =>
      intro ht2
      rw [hfTail] at ht2
      rw [haltail]
      exact hx.tailLen ht2
    case tFlo => intro ht2; rw [hfTail] at ht2; rw [hfTailF]; exact hx.tFlo ht2
    case tFhi =>
      intro ht2
      rw [hfTail] at ht2
      rw [hfTailF, haltail]
      exact hx.tFhi ht2
    case tLlo => intro ht2; rw [hfTail] at ht2; rw [hfTailL]; exact hx.tLlo ht2
    case tLhi =>
      intro ht2
      rw [hfTail] at ht2
      rw [hfTailL, haltail]
      exact hx.tLhi ht2
    case entryValid =>
      intro i ci hci
      rcases eq_or_ne i s.cacheF with hiF | hiF
      · subst hiF
        rw [hcgself] at hci
        cases hci
        refine ⟨by rw [harr]; simp, ?_, le_refl 0, ?_⟩
        · rw [halnew]; omega
        · rw [halnew]; exact (by omega : (0 : Int) < capI)
      · rw [hcgne i hiF] at hci
        have h5 := hx.entryValid i ci hci
        refine ⟨?_, ?_, h5.2.2.1, ?_⟩
        · rw [harr]
          simp only [List.length_append, List.length_singleton]
          omega
        · rw [halold ci.ptr h5.1]
          exact h5.2.1
        · rw [halold ci.ptr h5.1]
          exact h5.2.2.2
    case headEntry =>
      refine ⟨⟨s.arrays.length, 0⟩, ?_, rfl⟩
      rw [hfCacheF]
      exact hcgself
    case tailEntry =>
      intro ht2
      rw [hfTail] at ht2
      obtain ⟨c0, hc0, hh0⟩ := hx.tailEntry ht2
      refine ⟨c0, ?_, by rw [hfTail]; exact hh0⟩
      have hpsne : prevSlot s s.cacheL ≠ s.cacheF := by
        intro hz
        apply hx.tailSomeA ht2
        rw [← hz]
        exact succ_prevSlot s s.cacheL hx.cLlo hx.cLhi (by omega)
      rw [hfCacheL, prevSlot_congr sR s _ hfLen, hcgne _ hpsne]
      exact hc0
    case tailNilA =>
      intro ht2
      rw [hfTail] at ht2
      exact absurd ht2 htne
    case tailSomeA =>
      intro _
      rw [hfCacheF, hfLen, hfCacheL]
      exact hx.tailSomeA htne
    case inj =>
      intro i j ci cj hci hcj hij
      rcases eq_or_ne i s.cacheF with hiF | hiF
      · subst hiF
        rw [hcgself] at hci
        cases hci
        rw [hcgne j hij.symm] at hcj
        have h5 := hx.entryValid j cj hcj
        intro hz
        have hz2 : s.arrays.length = cj.ptr := hz
        omega
      · rw [hcgne i hiF] at hci
        rcases eq_or_ne j s.cacheF with hjF | hjF
        · subst hjF
          rw [hcgself] at hcj
          cases hcj
          have h5 := hx.entryValid i ci hci
          intro hz
          have hz2 : ci.ptr = s.arrays.length := hz
          omega
        · rw [hcgne j hjF] at hcj
          exact hx.inj i j ci cj hci hcj hij

end Squeue

namespace Squeue

variable {α : Type}

/-- The filing prefix of `Shift` when a tail exists: the head's entry is
re-filed with the current front offset (growing a full directory first), the
head's length is accounted, and the invariant is preserved. -/
theorem SInv_shiftFile_some (s : Sq α) (t : Nat) (ht : s.tail = some t) (h : SInv s) :
    ∃ s1 : Sq α, shiftFile s = some s1 ∧ SInv s1 ∧
      s1.cacheF ≠ s1.cacheL ∧ s1.tail = s.tail := by
  have hn6 := h.cacheLen
  obtain ⟨c, hc, hcp⟩ := h.headEntry
  rcases eq_or_ne s.cacheF s.cacheL with hfull | hfull
  · obtain ⟨s2, hg, hI2, hcF, hcL, hne2, harr, hhd, htl, hhF, hhL, htF, htL, hcS, hmapI⟩ :=
      SInv_grow s h hfull
    have hal2 : ∀ p, alenI s2 p = alenI s p := fun p => alenI_congr s2 s p harr
    have hc2 : cacheGet s2 s2.cacheF = some c := by
      rw [hcF, hmapI 0 (le_refl 0) (by omega)]
      rw [show s.cacheF + 0 = s.cacheF by omega,
        Int.emod_eq_of_lt h.cFlo h.cFhi]
      exact hc
    have hresult : shiftFile s = some
        { cacheSet s2 s2.cacheF (some { c with idx := s2.headF }) with
          cacheSize := s2.cacheSize + alenI s2 s2.head } := by
      unfold shiftFile
      simp only [ht]
      rw [if_pos hfull, hg]
      simp only [hc2]
    have hidx0 : 0 ≤ s2.headF := by rw [hhF]; exact h.hFlo
    have hidx1 : s2.headF < alenI s2 (some c.ptr) := by
      rw [hhF, hal2, ← hcp]
      exact h.hFhi
    have hIset := SInv_setEntryIdx s2 _ c s2.headF hc2 hidx0 hidx1 hI2
    refine ⟨_, hresult, SInv_setCacheSize _ _ hIset, ?_, ?_⟩
    · simp only [cacheF_cacheSet, cacheL_cacheSet]
      exact hne2
    · simp only [tail_cacheSet]
      exact htl
  · have hidx1 : s.headF < alenI s (some c.ptr) := by
      rw [← hcp]
      exact h.hFhi
    have hresult : shiftFile s = some
        { cacheSet s s.cacheF (some { c with idx := s.headF }) with
          cacheSize := s.cacheSize + alenI s s.head } := by
      unfold shiftFile
      simp only [ht]
      rw [if_neg hfull]
      simp only [hc]
    have hIset := SInv_setEntryIdx s _ c s.headF hc h.hFlo hidx1 h
    refine ⟨_, hresult, SInv_setCacheSize _ _ hIset, ?_, ?_⟩
    · simp only [cacheF_cacheSet, cacheL_cacheSet]
      exact hfull
    · simp only [tail_cacheSet]

/-- `Shift` never panics from a structurally sound state and preserves the
invariant. -/
theorem SInv_shiftOp (elem : Val α) (s : Sq α) (h : SInv s) :
    ∃ s1 : Sq α, shiftOp elem s = some s1 ∧ SInv s1 := by
  have hn6 := h.cacheLen
  by_cases hg : s.headL = s.headF ∧ (aget (deref s s.head) s.headL).isSome = true
  case neg =>
    refine ⟨_, ?_, SInv_shift_write elem s h⟩
    unfold shiftOp
    rw [if_pos hg]
  case pos =>
    cases ht : s.tail with
    | none =>
      set sIn : Sq α :=
        { s with tail := s.head, tailF := s.headF, tailL := s.headL,
                 cacheF := prevSlot s s.cacheF } with hsIn
      have hpr := prevSlot_range s s.cacheF h.cFlo h.cFhi (by omega)
      have htne' : sIn.tail ≠ none := h.headSome
      have hx : SInvX sIn := by
        constructor
        case cacheLen => exact h.cacheLen
        case cFlo => exact hpr.1
        case cFhi => exact hpr.2
        case cLlo => exact h.cLlo
        case cLhi => exact h.cLhi
        case headSome => exact h.headSome
        case headValid => exact h.headValid
        case headLen => exact h.headLen
        case tailValid => exact h.headValid
        case tailLen => intro _; exact h.headLen
        case tFlo => intro _; exact h.hFlo
        case tFhi => intro _; exact h.hFhi
        case tLlo => intro _; exact h.hLlo
        case tLhi => intro _; exact h.hLhi
        case entryValid => exact h.entryValid
        case tailEntry =>
          intro _
          show ∃ c, cacheGet s (prevSlot s s.cacheL) = some c ∧ s.head = some c.ptr
          have hnil := h.tailNilA ht
          obtain ⟨c0, hc0, hh0⟩ := h.headEntry
          rw [← hnil, prevSlot_succ s s.cacheF h.cFlo h.cFhi]
          exact ⟨c0, hc0, hh0⟩
        case tailSomeA =>
          intro _
          show (prevSlot s s.cacheF + 1) % (s.cache.length : Int) ≠ s.cacheL
          rw [succ_prevSlot s s.cacheF h.cFlo h.cFhi (by omega)]
          exact tailNone_ne s h ht
        case inj => exact h.inj
      refine ⟨shiftInstall elem sIn, ?_, SInv_shiftInstall elem sIn hx htne'⟩
      unfold shiftOp
      rw [if_neg (not_not_intro hg)]
      unfold shiftFile
      simp only [ht]
      rfl
    | some t =>
      obtain ⟨s1, hsf, hI1, hne1, htl1⟩ := SInv_shiftFile_some s t ht h
      set sIn : Sq α := { s1 with cacheF := prevSlot s1 s1.cacheF } with hsIn
      have hpr := prevSlot_range s1 s1.cacheF hI1.cFlo hI1.cFhi (by
        have := hI1.cacheLen
        omega)
      have htne' : sIn.tail ≠ none := by
        show s1.tail ≠ none
        rw [htl1, ht]
        intro hz
        cases hz
      have hx : SInvX sIn := by
        constructor
        case cacheLen => exact hI1.cacheLen
        case cFlo => exact hpr.1
        case cFhi => exact hpr.2
        case cLlo => exact hI1.cLlo
        case cLhi => exact hI1.cLhi
        case headSome => exact hI1.headSome
        case headValid => exact hI1.headValid
        case headLen => exact hI1.headLen
        case tailValid => exact hI1.tailValid
        case tailLen => exact hI1.tailLen
        case tFlo => exact hI1.tFlo
        case tFhi => exact hI1.tFhi
        case tLlo => exact hI1.tLlo
        case tLhi => exact hI1.tLhi
        case entryValid => exact hI1.entryValid
        case tailEntry => exact hI1.tailEntry
        case tailSomeA =>
          intro _
          show (prevSlot s1 s1.cacheF + 1) % (s1.cache.length : Int) ≠ s1.cacheL
          rw [succ_prevSlot s1 s1.cacheF hI1.cFlo hI1.cFhi (by
            have := hI1.cacheLen
            omega)]
          exact hne1
        case inj => exact hI1.inj
      refine ⟨shiftInstall elem sIn, ?_, SInv_shiftInstall elem sIn hx htne'⟩
      unfold shiftOp
      rw [if_neg (not_not_intro hg), hsf]
      rfl

end Squeue

namespace Squeue

variable {α : Type}

theorem prevSlot_ne_self (s : Sq α) (x : Int) (h0 : 0 ≤ x)
    (h1 : x < (s.cache.length : Int)) (hn : 2 ≤ s.cache.length) :
    prevSlot s x ≠ x := by
  unfold prevSlot
  split <;> omega

theorem prevSlot_inj (s : Sq α) (a b : Int) (ha0 : 0 ≤ a) (ha1 : a < (s.cache.length : Int))
    (hb0 : 0 ≤ b) (hb1 : b < (s.cache.length : Int)) (hn : 0 < s.cache.length)
    (h : prevSlot s a = prevSlot s b) : a = b := by
  have h2 := succ_prevSlot s a ha0 ha1 hn
  have h3 := succ_prevSlot s b hb0 hb1 hn
  rw [← h2, ← h3, h]

/-- `PeekFront`'s promotion step when the next slot is the tail's: the tail
becomes the head and the invariant is preserved. -/
theorem SInv_pf_promoteTail (w : Sq α) (hw : SInv w) (t : Nat) (htl : w.tail = some t)
    (hA : ((w.cacheF + 1) % (w.cache.length : Int) + 1) % (w.cache.length : Int)
      = w.cacheL) :
    SInv { w with cacheF := (w.cacheF + 1) % (w.cache.length : Int),
                  head := w.tail, headF := w.tailF, headL := w.tailL, tail := none } := by
  have hn6 := hw.cacheLen
  have htne : w.tail ≠ none := by rw [htl]; intro hz; cases hz
  have hrange := Int.emod_range (w.cacheF + 1) (w.cache.length : Int) (by omega)
  constructor
  case cacheLen => exact hw.cacheLen
  case cFlo => exact hrange.1
  case cFhi => exact hrange.2
  case cLlo => exact hw.cLlo
  case cLhi => exact hw.cLhi
  case headSome => exact htne
  case headValid => exact hw.tailValid
  case headLen => exact hw.tailLen htne
  case hFlo => exact hw.tFlo htne
  case hFhi => exact hw.tFhi htne
  case hLlo => exact hw.tLlo htne
  case hLhi => exact hw.tLhi htne
  case tailValid => intro t2 ht2; cases ht2
  case tailLen => intro ht2; exact absurd rfl ht2
  case tFlo => intro ht2; exact absurd rfl ht2
  case tFhi => intro ht2; exact absurd rfl ht2
  case tLlo => intro ht2; exact absurd rfl ht2
  case tLhi => intro ht2; exact absurd rfl ht2
  case entryValid => exact hw.entryValid
  case headEntry =>
    obtain ⟨c, hc, hcp⟩ := hw.tailEntry htne
    refine ⟨c, ?_, hcp⟩
    have hps : prevSlot w w.cacheL = (w.cacheF + 1) % (w.cache.length : Int) := by
      rw [← hA]
      exact prevSlot_succ w _ hrange.1 hrange.2
    rw [← hps]
    exact hc
  case tailEntry => intro ht2; exact absurd rfl ht2
  case tailNilA => intro _; exact hA
  case tailSomeA => intro ht2; exact absurd rfl ht2
  case inj => exact hw.inj

/-- `PeekFront`'s promotion step when the next slot holds a filed segment:
that segment becomes the head and the invariant is preserved. -/
theorem SInv_pf_promoteMid (w : Sq α) (hw : SInv w) (c : Cached)
    (htne : w.tail ≠ none)
    (hc : cacheGet w ((w.cacheF + 1) % (w.cache.length : Int)) = some c)
    (hB : ((w.cacheF + 1) % (w.cache.length : Int) + 1) % (w.cache.length : Int)
      ≠ w.cacheL) :
    SInv { w with cacheF := (w.cacheF + 1) % (w.cache.length : Int),
                  head := some c.ptr,
                  cacheSize := w.cacheSize - alenI w (some c.ptr),
                  headF := c.idx, headL := c.idx } := by
  have hn6 := hw.cacheLen
  have hev := hw.entryValid _ _ hc
  have hrange := Int.emod_range (w.cacheF + 1) (w.cache.length : Int) (by omega)
  constructor
  case cacheLen => exact hw.cacheLen
  case cFlo => exact hrange.1
  case cFhi => exact hrange.2
  case cLlo => exact hw.cLlo
  case cLhi => exact hw.cLhi
  case headSome => intro hz; cases hz
  case headValid =>
    intro h2 hh2
    injection hh2 with hh3
    rw [← hh3]
    exact hev.1
  case headLen => exact hev.2.1
  case hFlo => exact hev.2.2.1
  case hFhi => exact hev.2.2.2
  case hLlo => exact hev.2.2.1
  case hLhi => exact hev.2.2.2
  case tailValid => exact hw.tailValid
  case tailLen => exact hw.tailLen
  case tFlo => exact hw.tFlo
  case tFhi => exact hw.tFhi
  case tLlo => exact hw.tLlo
  case tLhi => exact hw.tLhi
  case entryValid => exact hw.entryValid
  case headEntry => exact ⟨c, hc, rfl⟩
  case tailEntry => exact hw.tailEntry
  case tailNilA => intro ht2; exact absurd ht2 htne
  case tailSomeA => intro _; exact hB
  case inj => exact hw.inj

end Squeue

namespace Squeue

variable {α : Type}

/-- Any successful `pfStep` from a sound state with more segments ahead
preserves the structural invariant. -/
theorem SInv_pfStep (s : Sq α) (h : SInv s)
    (hgne : (s.cacheF + 1) % (s.cache.length : Int) ≠ s.cacheL) :
    ∀ s2, pfStep s = some s2 → SInv s2 := by
  intro s2 hstep
  have hn6 := h.cacheLen
  have htne : s.tail ≠ none := fun hnil => hgne (h.tailNilA hnil)
  obtain ⟨t, htl⟩ := Option.ne_none_iff_exists'.mp htne
  unfold pfStep at hstep
  simp only [] at hstep
  rw [show (if s.cacheF - 1 < 0 then s.cacheF - 1 + (s.cache.length : Int)
      else s.cacheF - 1) = prevSlot s s.cacheF from rfl] at hstep
  split at hstep
  case isTrue hvc =>
    set w : Sq α := cacheSet s (prevSlot s s.cacheF) none with hw
    have hIw : SInv w :=
      SInv_cacheVoid s _
        (prevSlot_ne_self s s.cacheF h.cFlo h.cFhi (by omega))
        (fun _ hz => hvc.1
          (prevSlot_inj s s.cacheF s.cacheL h.cFlo h.cFhi h.cLlo h.cLhi (by omega) hz))
        h
    have hwtl : w.tail = some t := by rw [hw, tail_cacheSet]; exact htl
    have hlen : (s.cache.length : Int) = (w.cache.length : Int) := by
      rw [hw, length_cache_cacheSet]
    rw [hlen] at hstep
    split at hstep
    case isTrue hA =>
      injection hstep with h7
      subst h7
      exact SInv_pf_promoteTail w hIw t hwtl hA
    case isFalse hB =>
      split at hstep
      case h_1 => cases hstep
      case h_2 c heq =>
        injection hstep with h7
        subst h7
        have hwtne : w.tail ≠ none := by rw [hwtl]; intro hz; cases hz
        have hc' : cacheGet w ((w.cacheF + 1) % (w.cache.length : Int)) = some c := heq
        exact SInv_pf_promoteMid w hIw c hwtne hc' hB
  case isFalse hvc =>
    split at hstep
    case isTrue hA =>
      injection hstep with h7
      subst h7
      exact SInv_pf_promoteTail s h t htl hA
    case isFalse hB =>
      split at hstep
      case h_1 => cases hstep
      case h_2 c heq =>
        injection hstep with h7
        subst h7
        have hc' : cacheGet s ((s.cacheF + 1) % (s.cache.length : Int)) = some c := heq
        exact SInv_pf_promoteMid s h c htne hc' hB

end Squeue

namespace Squeue

variable {α : Type}

/-- `PeekBack`'s demotion step when only the head remains: the tail pointer
is dropped and the invariant is preserved. -/
theorem SInv_pb_dropTail (w : Sq α) (hw : SInv w)
    (hA : prevSlot w w.cacheL = (w.cacheF + 1) % (w.cache.length : Int)) :
    SInv { w with cacheL := prevSlot w w.cacheL, tail := none } := by
  have hn6 := hw.cacheLen
  have hpr := prevSlot_range w w.cacheL hw.cLlo hw.cLhi (by omega)
  constructor
  case cacheLen => exact hw.cacheLen
  case cFlo => exact hw.cFlo
  case cFhi => exact hw.cFhi
  case cLlo => exact hpr.1
  case cLhi => exact hpr.2
  case headSome => exact hw.headSome
  case headValid => exact hw.headValid
  case headLen => exact hw.headLen
  case hFlo => exact hw.hFlo
  case hFhi => exact hw.hFhi
  case hLlo => exact hw.hLlo
  case hLhi => exact hw.hLhi
  case tailValid => intro t2 ht2; cases ht2
  case tailLen => intro ht2; exact absurd rfl ht2
  case tFlo => intro ht2; exact absurd rfl ht2
  case tFhi => intro ht2; exact absurd rfl ht2
  case tLlo => intro ht2; exact absurd rfl ht2
  case tLhi => intro ht2; exact absurd rfl ht2
  case entryValid => exact hw.entryValid
  case headEntry => exact hw.headEntry
  case tailEntry => intro ht2; exact absurd rfl ht2
  case tailNilA => intro _; exact hA.symm
  case tailSomeA => intro ht2; exact absurd rfl ht2
  case inj => exact hw.inj

/-- `PeekBack`'s demotion step when a filed segment remains: it becomes the
new tail and the invariant is preserved. -/
theorem SInv_pb_newTail (w : Sq α) (hw : SInv w) (c : Cached)
    (hc : cacheGet w (prevSlot w (prevSlot w w.cacheL)) = some c)
    (hB : prevSlot w w.cacheL ≠ (w.cacheF + 1) % (w.cache.length : Int)) :
    SInv { w with cacheL := prevSlot w w.cacheL, tail := some c.ptr,
                  tailF := c.idx, tailL := c.idx,
                  cacheSize := w.cacheSize - alenI w (some c.ptr) } := by
  have hn6 := hw.cacheLen
  have hev := hw.entryValid _ _ hc
  have hpr := prevSlot_range w w.cacheL hw.cLlo hw.cLhi (by omega)
  constructor
  case cacheLen => exact hw.cacheLen
  case cFlo => exact hw.cFlo
  case cFhi => exact hw.cFhi
  case cLlo => exact hpr.1
  case cLhi => exact hpr.2
  case headSome => exact hw.headSome
  case headValid => exact hw.headValid
  case headLen => exact hw.headLen
  case hFlo => exact hw.hFlo
  case hFhi => exact hw.hFhi
  case hLlo => exact hw.hLlo
  case hLhi => exact hw.hLhi
  case tailValid =>
    intro t2 ht2
    injection ht2 with ht3
    rw [← ht3]
    exact hev.1
  case tailLen => intro _; exact hev.2.1
  case tFlo => intro _; exact hev.2.2.1
  case tFhi => intro _; exact hev.2.2.2
  case tLlo => intro _; exact hev.2.2.1
  case tLhi => intro _; exact hev.2.2.2
  case entryValid => exact hw.entryValid
  case headEntry => exact hw.headEntry
  case tailEntry => intro _; exact ⟨c, hc, rfl⟩
  case tailNilA => intro ht2; cases ht2
  case tailSomeA => intro _; exact hB.symm
  case inj => exact hw.inj

/-- Any successful `pbStep` from a sound state preserves the structural
invariant. -/
theorem SInv_pbStep (s : Sq α) (h : SInv s) :
    ∀ s2, pbStep s = some s2 → SInv s2 := by
  intro s2 hstep
  have hn6 := h.cacheLen
  have hcLlo := h.cLlo
  have hcLhi := h.cLhi
  unfold pbStep at hstep
  simp only [] at hstep
  rw [show (if s.cacheF - 1 < 0 then s.cacheF - 1 + (s.cache.length : Int)
      else s.cacheF - 1) = prevSlot s s.cacheF from rfl] at hstep
  rw [show (if s.cacheL - 1 < 0 then s.cacheL - 1 + (s.cache.length : Int)
      else s.cacheL - 1) = prevSlot s s.cacheL from rfl] at hstep
  rw [show (if s.cacheL - 2 < 0 then s.cacheL - 2 + (s.cache.length : Int)
      else s.cacheL - 2) = prevSlot s (prevSlot s s.cacheL) from by
    unfold prevSlot
    split
    · split <;> split <;> omega
    · split <;> split <;> omega] at hstep
  split at hstep
  case isTrue hvc =>
    set w : Sq α := cacheSet s s.cacheL none with hw
    have hIw : SInv w :=
      SInv_cacheVoid s s.cacheL hvc.1
        (fun _ => (prevSlot_ne_self s s.cacheL hcLlo hcLhi (by omega)).symm)
        h
    have hlen : (s.cache.length : Int) = (w.cache.length : Int) := by
      rw [hw, length_cache_cacheSet]
    have hcLeq : s.cacheL = w.cacheL := by rw [hw, cacheL_cacheSet]
    have hpw : prevSlot s s.cacheL = prevSlot w w.cacheL := by
      rw [prevSlot_congr s w s.cacheL (by rw [hw, length_cache_cacheSet])]
      rw [hcLeq]
    have hpw2 : prevSlot s (prevSlot s s.cacheL) = prevSlot w (prevSlot w w.cacheL) := by
      rw [hpw]
      exact prevSlot_congr s w _ (by rw [hw, length_cache_cacheSet])
    rw [hpw2, hpw, hlen] at hstep
    split at hstep
    case isTrue hA =>
      injection hstep with h7
      subst h7
      exact SInv_pb_dropTail w hIw hA
    case isFalse hB =>
      split at hstep
      case h_1 => cases hstep
      case h_2 c heq =>
        injection hstep with h7
        subst h7
        have hc' : cacheGet w (prevSlot w (prevSlot w w.cacheL)) = some c := heq
        exact SInv_pb_newTail w hIw c hc' hB
  case isFalse hvc =>
    split at hstep
    case isTrue hA =>
      injection hstep with h7
      subst h7
      exact SInv_pb_dropTail s h hA
    case isFalse hB =>
      split at hstep
      case h_1 => cases hstep
      case h_2 c heq =>
        injection hstep with h7
        subst h7
        have hc' : cacheGet s (prevSlot s (prevSlot s s.cacheL)) = some c := heq
        exact SInv_pb_newTail s h c hc' hB

end Squeue

namespace Squeue

variable {α : Type}

/-- Whatever state `PeekFront` returns — element found or `EmptyQueue` —
satisfies the structural invariant. -/
theorem SInv_peekFrontF (fuel : Nat) (s : Sq α) (h : SInv s) :
    match peekFrontF fuel s with
    | .ok _ s1 => SInv s1
    | .err s1 => SInv s1
    | .bad => True := by
  induction fuel generalizing s with
  | zero => exact trivial
  | succ fuel ih =>
    unfold peekFrontF
    simp only []
    by_cases h1 : (aget (deref s s.head) s.headF).isSome = true
    · rw [if_pos h1]
      exact h
    · rw [if_neg h1]
      by_cases h2 : (s.cacheF + 1) % (s.cache.length : Int) = s.cacheL
      · rw [if_pos h2]
        exact h
      · rw [if_neg h2]
        cases heq : pfStep s with
        | none => exact trivial
        | some s2 => exact ih s2 (SInv_pfStep s h h2 s2 heq)

/-- Whatever state `PeekBack` returns satisfies the structural invariant. -/
theorem SInv_peekBackF (fuel : Nat) (s : Sq α) (h : SInv s) :
    match peekBackF fuel s with
    | .ok _ s1 => SInv s1
    | .err s1 => SInv s1
    | .bad => True := by
  induction fuel generalizing s with
  | zero => exact trivial
  | succ fuel ih =>
    unfold peekBackF
    simp only []
    cases ht : s.tail with
    | none =>
      by_cases h1 : (backRead (deref s s.head) s.headL).isSome = true
      · rw [if_pos h1]
        exact h
      · rw [if_neg h1]
        exact h
    | some t =>
      by_cases h1 : (backRead (deref s (some t)) s.tailL).isSome = true
      · rw [if_pos h1]
        exact h
      · rw [if_neg h1]
        cases heq : pbStep s with
        | none => exact trivial
        | some s2 => exact ih s2 (SInv_pbStep s h s2 heq)

/-- Whatever state `Unshift` returns satisfies the structural invariant. -/
theorem SInv_unshiftOp (s : Sq α) (h : SInv s) :
    match unshiftOp s with
    | .ok _ s1 => SInv s1
    | .err s1 => SInv s1
    | .bad => True := by
  have hpk := SInv_peekFrontF (s.cache.length + 2) s h
  unfold unshiftOp peekFront
  cases hpf : peekFrontF (s.cache.length + 2) s with
  | ok v s1 =>
    rw [hpf] at hpk
    have hI1 : SInv s1 := hpk
    obtain ⟨hh, hhs⟩ := Option.ne_none_iff_exists'.mp hI1.headSome
    have hhv := hI1.headValid hh hhs
    have hW : SInv (heapWrite s1 s1.head (aset (deref s1 s1.head) s1.headF none)) := by
      rw [hhs]
      exact SInv_heapWrite s1 hh _ hhv (by rw [length_aset]) hI1
    set sW : Sq α := heapWrite s1 s1.head (aset (deref s1 s1.head) s1.headF none) with hsW
    have halW : alenI sW sW.head = alenI s1 s1.head := by
      rw [hsW, head_heapWrite, hhs, alenI_heapWrite s1 hh _ (by rw [length_aset])]
    have hpos : 0 < alenI sW sW.head := by rw [halW]; exact hI1.headLen
    have hrange := Int.emod_range (sW.headF + 1) (alenI sW sW.head) hpos
    exact SInv_setHeadF sW _ hrange.1 hrange.2 hW
  | err s1 =>
    rw [hpf] at hpk
    exact hpk
  | bad => exact trivial

/-- Whatever state `Pop` returns satisfies the structural invariant. -/
theorem SInv_popOp (s : Sq α) (h : SInv s) :
    match popOp s with
    | .ok _ s1 => SInv s1
    | .err s1 => SInv s1
    | .bad => True := by
  have hpk := SInv_peekBackF (s.cache.length + 2) s h
  unfold popOp peekBack
  cases hpb : peekBackF (s.cache.length + 2) s with
  | ok v s1 =>
    rw [hpb] at hpk
    have hI1 : SInv s1 := hpk
    simp only []
    cases ht : s1.tail with
    | none =>
      simp only []
      rw [← ht]
      have hpos := hI1.headLen
      have hl0 := hI1.hLlo
      have hl1 := hI1.hLhi
      have hr2 : 0 ≤ (if s1.headL - 1 < 0 then s1.headL - 1 + alenI s1 s1.head
          else s1.headL - 1) ∧
          (if s1.headL - 1 < 0 then s1.headL - 1 + alenI s1 s1.head
          else s1.headL - 1) < alenI s1 s1.head := by
        constructor <;> (split <;> omega)
      have hI2 := SInv_setHeadL s1 _ hr2.1 hr2.2 hI1
      set s2 : Sq α :=
        { s1 with headL := (if s1.headL - 1 < 0 then s1.headL - 1 + alenI s1 s1.head
            else s1.headL - 1) } with hs2
      obtain ⟨hh, hhs⟩ := Option.ne_none_iff_exists'.mp hI2.headSome
      have hhv := hI2.headValid hh hhs
      have hfin : SInv (heapWrite s2 s2.head (aset (deref s2 s2.head) s2.headL none)) := by
        rw [hhs]
        exact SInv_heapWrite s2 hh _ hhv (by rw [length_aset]) hI2
      exact hfin
    | some t =>
      simp only []
      rw [← ht]
      have htne : s1.tail ≠ none := by rw [ht]; intro hz; cases hz
      have hpos := hI1.tailLen htne
      have hl0 := hI1.tLlo htne
      have hl1 := hI1.tLhi htne
      have hr2 : 0 ≤ (if s1.tailL - 1 < 0 then s1.tailL - 1 + alenI s1 s1.tail
          else s1.tailL - 1) ∧
          (if s1.tailL - 1 < 0 then s1.tailL - 1 + alenI s1 s1.tail
          else s1.tailL - 1) < alenI s1 s1.tail := by
        constructor <;> (split <;> omega)
      have hI2 := SInv_setTailL s1 _ hr2.1 hr2.2 hI1
      set s2 : Sq α :=
        { s1 with tailL := (if s1.tailL - 1 < 0 then s1.tailL - 1 + alenI s1 s1.tail
            else s1.tailL - 1) } with hs2
      have hs2t : s2.tail = some t := ht
      have htv := hI2.tailValid t hs2t
      have hfin : SInv (heapWrite s2 s2.tail (aset (deref s2 s2.tail) s2.tailL none)) := by
        rw [hs2t]
        exact SInv_heapWrite s2 t _ htv (by rw [length_aset]) hI2
      exact hfin
  | err s1 =>
    rw [hpb] at hpk
    exact hpk
  | bad => exact trivial

/-- One successful `stepOp` preserves the structural invariant. -/
theorem SInv_stepOp (s : Sq α) (o : Op α) (s2 : Sq α)
    (hstep : stepOp s o = some s2) (h : SInv s) : SInv s2 := by
  cases o with
  | push v =>
    obtain ⟨s1, hp, hI⟩ := SInv_pushOp v s h
    have hstep2 : pushOp v s = some s2 := hstep
    rw [hp] at hstep2
    injection hstep2 with h7
    rw [← h7]
    exact hI
  | shift v =>
    obtain ⟨s1, hp, hI⟩ := SInv_shiftOp v s h
    have hstep2 : shiftOp v s = some s2 := hstep
    rw [hp] at hstep2
    injection hstep2 with h7
    rw [← h7]
    exact hI
  | unshift =>
    have hpk := SInv_unshiftOp s h
    have hstep2 : (match unshiftOp s with
        | .ok _ s1 => some s1
        | .err s1 => some s1
        | .bad => none) = some s2 := hstep
    cases hu : unshiftOp s with
    | ok v s1 =>
      rw [hu] at hpk hstep2
      injection hstep2 with h7
      rw [← h7]
      exact hpk
    | err s1 =>
      rw [hu] at hpk hstep2
      injection hstep2 with h7
      rw [← h7]
      exact hpk
    | bad =>
      rw [hu] at hstep2
      cases hstep2
  | pop =>
    have hpk := SInv_popOp s h
    have hstep2 : (match popOp s with
        | .ok _ s1 => some s1
        | .err s1 => some s1
        | .bad => none) = some s2 := hstep
    cases hu : popOp s with
    | ok v s1 =>
      rw [hu] at hpk hstep2
      injection hstep2 with h7
      rw [← h7]
      exact hpk
    | err s1 =>
      rw [hu] at hpk hstep2
      injection hstep2 with h7
      rw [← h7]
      exact hpk
    | bad =>
      rw [hu] at hstep2
      cases hstep2
  | peekF =>
    have hpk : (match peekFront s with
        | Pk.ok _ s1 => SInv s1
        | Pk.err s1 => SInv s1
        | Pk.bad => True) := SInv_peekFrontF (s.cache.length + 2) s h
    have hstep2 : (match peekFront s with
        | .ok _ s1 => some s1
        | .err s1 => some s1
        | .bad => none) = some s2 := hstep
    cases hu : peekFront s with
    | ok v s1 =>
      rw [hu] at hpk hstep2
      injection hstep2 with h7
      rw [← h7]
      exact hpk
    | err s1 =>
      rw [hu] at hpk hstep2
      injection hstep2 with h7
      rw [← h7]
      exact hpk
    | bad =>
      rw [hu] at hstep2
      cases hstep2
  | peekB =>
    have hpk : (match peekBack s with
        | Pk.ok _ s1 => SInv s1
        | Pk.err s1 => SInv s1
        | Pk.bad => True) := SInv_peekBackF (s.cache.length + 2) s h
    have hstep2 : (match peekBack s with
        | .ok _ s1 => some s1
        | .err s1 => some s1
        | .bad => none) = some s2 := hstep
    cases hu : peekBack s with
    | ok v s1 =>
      rw [hu] at hpk hstep2
      injection hstep2 with h7
      rw [← h7]
      exact hpk
    | err s1 =>
      rw [hu] at hpk hstep2
      injection hstep2 with h7
      rw [← h7]
      exact hpk
    | bad =>
      rw [hu] at hstep2
      cases hstep2

/-- The states reachable from a freshly constructed deque by successful
operations. -/
inductive Reachable : Sq α → Prop where
  | base (init : List (Val α)) : Reachable (mkNew init)
  | step (s s2 : Sq α) (o : Op α) (hr : Reachable s) (hstep : stepOp s o = some s2) :
      Reachable s2

/-- Every reachable state satisfies the structural invariant. -/
theorem Reachable_SInv (s : Sq α) (hr : Reachable s) : SInv s := by
  induction hr with
  | base init => exact SInv_mkNew init
  | step s s2 o hr hstep ih => exact SInv_stepOp s o s2 hstep ih

end Squeue

namespace Squeue

variable {α : Type}

/-- Reading circularly one slot before the advanced cursor recovers the value
just written at the old cursor. -/
theorem backRead_write (A : Arr α) (l : Int) (v : Val α)
    (h0 : 0 ≤ l) (h1 : l < (A.length : Int)) :
    backRead (aset A l v) ((l + 1) % (A.length : Int)) = v := by
  unfold backRead
  by_cases hc : (l + 1) % (A.length : Int) = 0
  · rw [if_pos hc]
    have hl : l = (A.length : Int) - 1 := by
      rcases lt_or_eq_of_le (by omega : l + 1 ≤ (A.length : Int)) with hlt | heq
      · rw [Int.emod_eq_of_lt (by omega) hlt] at hc
        omega
      · omega
    rw [length_aset, ← hl]
    exact aget_aset_self A l v h0 h1
  · rw [if_neg hc]
    have h2 : (l + 1) % (A.length : Int) = l + 1 := by
      rcases lt_or_eq_of_le (by omega : l + 1 ≤ (A.length : Int)) with hlt | heq
      · exact Int.emod_eq_of_lt (by omega) hlt
      · rw [heq, Int.emod_self] at hc
        exact absurd rfl hc
    rw [h2, show l + 1 - 1 = l by ring]
    exact aget_aset_self A l v h0 h1

/-- Stepping the cursor back after advancing it circularly returns to the
original slot. -/
theorem stepBack_of_stepFwd (l n : Int) (h0 : 0 ≤ l) (h1 : l < n) :
    (if (l + 1) % n - 1 < 0 then (l + 1) % n - 1 + n else (l + 1) % n - 1) = l := by
  rcases lt_or_eq_of_le (by omega : l + 1 ≤ n) with hlt | heq
  · rw [Int.emod_eq_of_lt (by omega) hlt]
    split <;> omega
  · rw [heq, Int.emod_self]
    split <;> omega

/-- `PeekBack` returns immediately when the back slot of the tail is
occupied. -/
theorem peekBackF_hit (k : Nat) (s : Sq α) (t : Nat) (ht : s.tail = some t)
    (hsome : (backRead (deref s s.tail) s.tailL).isSome = true) :
    peekBackF (k + 1) s = .ok (backRead (deref s s.tail) s.tailL) s := by
  unfold peekBackF
  simp only [ht]
  rw [← ht]
  rw [if_pos hsome]

/-- `PeekBack` returns immediately from the head when there is no tail and
the slot before `headL` is occupied. -/
theorem peekBackF_hit_head (k : Nat) (s : Sq α) (ht : s.tail = none)
    (hsome : (backRead (deref s s.head) s.headL).isSome = true) :
    peekBackF (k + 1) s = .ok (backRead (deref s s.head) s.headL) s := by
  unfold peekBackF
  simp only [ht]
  rw [if_pos hsome]

/-- `headSize` only depends on the head slice and its cursors. -/
theorem headSize_congr (s1 s2 : Sq α) (hh : s1.head = s2.head)
    (hf : s1.headF = s2.headF) (hl : s1.headL = s2.headL)
    (hd : deref s1 s1.head = deref s2 s2.head) : headSize s1 = headSize s2 := by
  rw [hh] at hd
  have halen : alenI s1 s2.head = alenI s2 s2.head := by
    unfold alenI
    rw [hd]
  unfold headSize
  rw [hh, hf, hl, hd, halen]

theorem tailSize_none (s : Sq α) (ht : s.tail = none) : tailSize s = 0 := by
  unfold tailSize
  rw [ht]

theorem tailSize_eval (s : Sq α) (t : Nat) (ht : s.tail = some t) :
    tailSize s = if s.tailF < s.tailL then s.tailL - s.tailF
      else if s.tailF > s.tailL then alenI s s.tail - s.tailF + s.tailL
      else if (aget (deref s s.tail) s.tailF).isSome then alenI s s.tail else 0 := by
  unfold tailSize
  rw [ht]

theorem headSize_eval (s : Sq α) (hh : Nat) (hhs : s.head = some hh) :
    headSize s = if s.headF < s.headL then s.headL - s.headF
      else if s.headF > s.headL then alenI s s.head - s.headF + s.headL
      else if (aget (deref s s.head) s.headF).isSome then alenI s s.head else 0 := by
  unfold headSize
  rw [hhs]

end Squeue

namespace Squeue

variable {α : Type}

/-- When `PeekBack` succeeds returning the state unchanged, `Pop` clears the
slot just read and retreats the relevant cursor. -/
theorem popOp_hit (u : Sq α) (v : Val α) (hpk : peekBack u = .ok v u) :
    popOp u = (match u.tail with
      | none =>
          .ok v (heapWrite
            { u with headL := (if u.headL - 1 < 0 then u.headL - 1 + alenI u u.head
                else u.headL - 1) }
            u.head
            (aset (deref u u.head)
              (if u.headL - 1 < 0 then u.headL - 1 + alenI u u.head else u.headL - 1) none))
      | some _ =>
          .ok v (heapWrite
            { u with tailL := (if u.tailL - 1 < 0 then u.tailL - 1 + alenI u u.tail
                else u.tailL - 1) }
            u.tail
            (aset (deref u u.tail)
              (if u.tailL - 1 < 0 then u.tailL - 1 + alenI u u.tail else u.tailL - 1)
              none))) := by
  unfold popOp
  rw [hpk]
  rfl

/-- The head and tail segments of a sound state are distinct arrays. -/
theorem head_ne_tail (s : Sq α) (h : SInv s) (t : Nat) (ht : s.tail = some t)
    (hh : Nat) (hhs : s.head = some hh) : hh ≠ t := by
  have htne : s.tail ≠ none := by rw [ht]; intro hz; cases hz
  obtain ⟨cH, hcH, hpH⟩ := h.headEntry
  obtain ⟨cT, hcT, hpT⟩ := h.tailEntry htne
  have hslot : s.cacheF ≠ prevSlot s s.cacheL := by
    intro hz
    apply h.tailSomeA htne
    rw [hz]
    exact succ_prevSlot s s.cacheL h.cLlo h.cLhi (by have := h.cacheLen; omega)
  have hptr := h.inj _ _ _ _ hcH hcT hslot
  rw [hhs] at hpH
  injection hpH with h1
  rw [ht] at hpT
  injection hpT with h2
  rw [h1, h2]
  exact hptr

/-- Writing an element at the back of the tail and popping it immediately:
the element comes back, the head and directory accounting are untouched, and
the tail's live count is restored (or zero when the write landed on the
front slot). -/
theorem popAfterTailWrite (e : α) (u : Sq α) (t : Nat) (h : SInv u)
    (ht : u.tail = some t) :
    ∃ s2 : Sq α, popOp (writeTailAdvance (some e) u) = .ok (some e) s2 ∧
      headSize s2 = headSize u ∧
      s2.cacheSize = u.cacheSize ∧
      (u.tailF = u.tailL → tailSize s2 = 0) ∧
      (u.tailF ≠ u.tailL → tailSize s2 = tailSize u) := by
  have htne : u.tail ≠ none := by rw [ht]; intro hz; cases hz
  have htv := h.tailValid t ht
  obtain ⟨hh, hhs⟩ := Option.ne_none_iff_exists'.mp h.headSome
  have hhv := h.headValid hh hhs
  have hhne := head_ne_tail u h t ht hh hhs
  have htL0 := h.tLlo htne
  have htL1 := h.tLhi htne
  have halT : alenI u u.tail = ((deref u (some t)).length : Int) := by
    unfold alenI
    rw [ht]
  have hW : writeTailAdvance (some e) u =
      { heapWrite u (some t) (aset (deref u (some t)) u.tailL (some e)) with
          tailL := (u.tailL + 1) % (((deref u (some t)).length : Nat) : Int) } := by
    unfold writeTailAdvance
    rw [ht]
    rfl
  set s1 : Sq α :=
    { heapWrite u (some t) (aset (deref u (some t)) u.tailL (some e)) with
        tailL := (u.tailL + 1) % (((deref u (some t)).length : Nat) : Int) } with hs1
  have hs1t : s1.tail = some t := ht
  have hs1arr : deref s1 (some t) = aset (deref u (some t)) u.tailL (some e) :=
    deref_heapWrite_self u t _ htv
  have hs1hd : s1.head = u.head := rfl
  have hs1hdarr : deref s1 (some hh) = deref u (some hh) :=
    deref_heapWrite_ne u t hh _ (fun hz => hhne hz.symm)
  have hs1tL : s1.tailL = (u.tailL + 1) % (((deref u (some t)).length : Nat) : Int) := rfl
  have hbr : backRead (deref s1 s1.tail) s1.tailL = some e := by
    rw [hs1t, hs1arr, hs1tL]
    exact backRead_write (deref u (some t)) u.tailL (some e) htL0 (by rw [← halT]; exact htL1)
  have hpkB : peekBack s1 = .ok (some e) s1 := by
    have h0 := peekBackF_hit (s1.cache.length + 1) s1 t hs1t (by rw [hbr]; rfl)
    rw [hbr] at h0
    exact h0
  have hal1 : alenI s1 (some t) = ((deref u (some t)).length : Int) := by
    unfold alenI
    rw [hs1arr, length_aset]
  have hl2 : (if s1.tailL - 1 < 0 then s1.tailL - 1 + alenI s1 (some t) else s1.tailL - 1)
      = u.tailL := by
    rw [hs1tL, hal1]
    exact stepBack_of_stepFwd u.tailL _ htL0 (by rw [← halT]; exact htL1)
  have hpop : popOp s1 = .ok (some e)
      (heapWrite { s1 with tail := some t, tailL := u.tailL } (some t)
        (aset (deref s1 (some t)) u.tailL none)) := by
    have hx := popOp_hit s1 (some e) hpkB
    rw [hs1t] at hx
    have hx2 : popOp s1 = .ok (some e)
        (heapWrite { s1 with tail := some t, tailL := (if s1.tailL - 1 < 0
            then s1.tailL - 1 + alenI s1 (some t) else s1.tailL - 1) } (some t)
          (aset (deref s1 (some t))
            (if s1.tailL - 1 < 0 then s1.tailL - 1 + alenI s1 (some t) else s1.tailL - 1)
            none)) := hx
    rw [hl2] at hx2
    exact hx2
  rw [hW]
  set s2 : Sq α := heapWrite { s1 with tail := some t, tailL := u.tailL } (some t)
    (aset (deref s1 (some t)) u.tailL none) with hs2
  refine ⟨s2, hpop, ?_, rfl, ?_, ?_⟩
  · -- head size untouched
    have harr1eq : s1.arrays = u.arrays.set t (aset (deref u (some t)) u.tailL (some e)) :=
      rfl
    have htv1 : t < s1.arrays.length := by
      rw [harr1eq, List.length_set]
      exact htv
    have hs2hdarr : deref s2 (some hh) = deref u (some hh) := by
      have h9 : deref s2 (some hh) = deref s1 (some hh) :=
        deref_heapWrite_ne { s1 with tail := some t, tailL := u.tailL } t hh _
          (fun hz => hhne hz.symm)
      rw [h9, hs1hdarr]
    apply headSize_congr
    · exact hhs.symm ▸ rfl
    · rfl
    · rfl
    · rw [show s2.head = u.head from rfl, hhs]
      exact hs2hdarr
  · -- front-slot case: the cleared slot empties the tail count
    intro hc
    have harr1eq : s1.arrays = u.arrays.set t (aset (deref u (some t)) u.tailL (some e)) :=
      rfl
    have htv1 : t < s1.arrays.length := by
      rw [harr1eq, List.length_set]
      exact htv
    have hs2t : s2.tail = some t := rfl
    have hs2arr : deref s2 (some t) = aset (deref s1 (some t)) u.tailL none :=
      deref_heapWrite_self { s1 with tail := some t, tailL := u.tailL } t _ htv1
    rw [tailSize_eval s2 t hs2t]
    rw [show s2.tailF = u.tailF from rfl, show s2.tailL = u.tailL from rfl]
    rw [if_neg (show ¬(u.tailF < u.tailL) from by omega),
      if_neg (show ¬(u.tailF > u.tailL) from by omega)]
    rw [hs2t, hs2arr, hs1arr, hc]
    rw [aget_aset_self _ u.tailL none htL0 (by
      rw [length_aset, ← halT]
      exact htL1)]
    rfl
  · -- other slots: the tail count is unchanged
    intro hc
    have harr1eq : s1.arrays = u.arrays.set t (aset (deref u (some t)) u.tailL (some e)) :=
      rfl
    have htv1 : t < s1.arrays.length := by
      rw [harr1eq, List.length_set]
      exact htv
    have hs2t : s2.tail = some t := rfl
    have hs2arr : deref s2 (some t) = aset (deref s1 (some t)) u.tailL none :=
      deref_heapWrite_self { s1 with tail := some t, tailL := u.tailL } t _ htv1
    have hal2 : alenI s2 s2.tail = alenI u u.tail := by
      rw [hs2t, halT]
      unfold alenI
      rw [hs2arr, hs1arr, length_aset, length_aset]
    rw [tailSize_eval s2 t hs2t, tailSize_eval u t ht]
    rw [show s2.tailF = u.tailF from rfl, show s2.tailL = u.tailL from rfl, hal2]
    rcases lt_or_gt_of_ne hc with hlt | hgt
    · rw [if_pos hlt, if_pos hlt]
    · rw [if_neg (show ¬(u.tailF < u.tailL) from by omega),
        if_pos (show u.tailF > u.tailL from hgt),
        if_neg (show ¬(u.tailF < u.tailL) from by omega),
        if_pos (show u.tailF > u.tailL from hgt)]

/-- `Push` then `Pop`, tail present and not full: the element comes back and
the size is restored. -/
theorem C7_case_tail_nofull (e : α) (s : Sq α) (t : Nat) (h : SInv s)
    (ht : s.tail = some t)
    (hguard : ¬(s.tailL = s.tailF ∧ (aget (deref s s.tail) s.tailL).isSome = true)) :
    ∃ s2 : Sq α, pushOp (some e) s = some (writeTailAdvance (some e) s) ∧
      popOp (writeTailAdvance (some e) s) = .ok (some e) s2 ∧
      sizeOf s2 = sizeOf s := by
  have htne : s.tail ≠ none := by rw [ht]; intro hz; cases hz
  obtain ⟨s2, hpop, hhd, hcs, heq0, hneq⟩ := popAfterTailWrite e s t h ht
  refine ⟨s2, ?_, hpop, ?_⟩
  · unfold pushOp
    simp only [ht]
    rw [← ht]
    rw [if_neg hguard]
  · unfold sizeOf
    rw [hhd, hcs]
    rcases eq_or_ne s.tailF s.tailL with hc | hc
    · rw [heq0 hc]
      have hts : tailSize s = 0 := by
        rw [tailSize_eval s t ht]
        rw [if_neg (show ¬(s.tailF < s.tailL) from by omega),
          if_neg (show ¬(s.tailF > s.tailL) from by omega)]
        rcases Bool.eq_false_or_eq_true (aget (deref s s.tail) s.tailL).isSome with hb | hb
        · exact absurd ⟨hc.symm, hb⟩ hguard
        · rw [hc, hb]
          rfl
      rw [hts]
    · rw [hneq hc]

end Squeue

namespace Squeue

variable {α : Type}

/-- Writing an element at the back of the head slice (no tail) and popping it
immediately: the element comes back and the head's live count is restored
(or zero when the write landed on the front slot). -/
theorem popAfterHeadWrite (e : α) (u : Sq α) (h : SInv u) (ht : u.tail = none) :
    ∃ s2 : Sq α, popOp (writeHeadAdvance (some e) u) = .ok (some e) s2 ∧
      s2.cacheSize = u.cacheSize ∧ tailSize s2 = 0 ∧
      (u.headF = u.headL → headSize s2 = 0) ∧
      (u.headF ≠ u.headL → headSize s2 = headSize u) := by
  obtain ⟨hh, hhs⟩ := Option.ne_none_iff_exists'.mp h.headSome
  have hhv := h.headValid hh hhs
  have hL0 := h.hLlo
  have hL1 := h.hLhi
  have halH : alenI u u.head = ((deref u (some hh)).length : Int) := by
    unfold alenI
    rw [hhs]
  have hW : writeHeadAdvance (some e) u =
      { heapWrite u (some hh) (aset (deref u (some hh)) u.headL (some e)) with
          headL := (u.headL + 1) % (((deref u (some hh)).length : Nat) : Int) } := by
    unfold writeHeadAdvance
    rw [hhs]
    rfl
  set s1 : Sq α :=
    { heapWrite u (some hh) (aset (deref u (some hh)) u.headL (some e)) with
        headL := (u.headL + 1) % (((deref u (some hh)).length : Nat) : Int) } with hs1
  have hs1t : s1.tail = none := ht
  have hs1hd : s1.head = some hh := hhs
  have hs1arr : deref s1 (some hh) = aset (deref u (some hh)) u.headL (some e) :=
    deref_heapWrite_self u hh _ hhv
  have hs1hL : s1.headL = (u.headL + 1) % (((deref u (some hh)).length : Nat) : Int) := rfl
  have hbr : backRead (deref s1 s1.head) s1.headL = some e := by
    rw [hs1hd, hs1arr, hs1hL]
    exact backRead_write (deref u (some hh)) u.headL (some e) hL0 (by rw [← halH]; exact hL1)
  have hpkB : peekBack s1 = .ok (some e) s1 := by
    have h0 := peekBackF_hit_head (s1.cache.length + 1) s1 hs1t (by rw [hbr]; rfl)
    rw [hbr] at h0
    exact h0
  have hal1 : alenI s1 (some hh) = ((deref u (some hh)).length : Int) := by
    unfold alenI
    rw [hs1arr, length_aset]
  have hl2 : (if s1.headL - 1 < 0 then s1.headL - 1 + alenI s1 (some hh) else s1.headL - 1)
      = u.headL := by
    rw [hs1hL, hal1]
    exact stepBack_of_stepFwd u.headL _ hL0 (by rw [← halH]; exact hL1)
  have hpop : popOp s1 = .ok (some e)
      (heapWrite { s1 with head := some hh, tail := none, headL := u.headL } (some hh)
        (aset (deref s1 (some hh)) u.headL none)) := by
    have hx := popOp_hit s1 (some e) hpkB
    rw [hs1t, hs1hd] at hx
    have hx2 : popOp s1 = .ok (some e)
        (heapWrite { s1 with head := some hh, tail := none, headL := (if s1.headL - 1 < 0
            then s1.headL - 1 + alenI s1 (some hh) else s1.headL - 1) } (some hh)
          (aset (deref s1 (some hh))
            (if s1.headL - 1 < 0 then s1.headL - 1 + alenI s1 (some hh) else s1.headL - 1)
            none)) := hx
    rw [hl2] at hx2
    exact hx2
  rw [hW]
  set s2 : Sq α := heapWrite { s1 with head := some hh, tail := none, headL := u.headL }
    (some hh) (aset (deref s1 (some hh)) u.headL none) with hs2
  have harr1eq : s1.arrays = u.arrays.set hh (aset (deref u (some hh)) u.headL (some e)) :=
    rfl
  have hhv1 : hh < s1.arrays.length := by
    rw [harr1eq, List.length_set]
    exact hhv
  have hs2hd : s2.head = some hh := rfl
  have hs2arr : deref s2 (some hh) = aset (deref s1 (some hh)) u.headL none :=
    deref_heapWrite_self { s1 with head := some hh, tail := none, headL := u.headL } hh _ hhv1
  have hal2 : alenI s2 s2.head = alenI u u.head := by
    rw [hs2hd, halH]
    unfold alenI
    rw [hs2arr, hs1arr, length_aset, length_aset]
  refine ⟨s2, hpop, rfl, tailSize_none s2 rfl, ?_, ?_⟩
  · intro hc
    rw [headSize_eval s2 hh hs2hd]
    rw [show s2.headF = u.headF from rfl, show s2.headL = u.headL from rfl]
    rw [if_neg (show ¬(u.headF < u.headL) from by omega),
      if_neg (show ¬(u.headF > u.headL) from by omega)]
    rw [hs2hd, hs2arr, hs1arr, hc]
    rw [aget_aset_self _ u.headL none hL0 (by
      rw [length_aset, ← halH]
      exact hL1)]
    rfl
  · intro hc
    rw [headSize_eval s2 hh hs2hd, headSize_eval u hh hhs]
    rw [show s2.headF = u.headF from rfl, show s2.headL = u.headL from rfl, hal2]
    rcases lt_or_gt_of_ne hc with hlt | hgt
    · rw [if_pos hlt, if_pos hlt]
    · rw [if_neg (show ¬(u.headF < u.headL) from by omega),
        if_pos (show u.headF > u.headL from hgt),
        if_neg (show ¬(u.headF < u.headL) from by omega),
        if_pos (show u.headF > u.headL from hgt)]

/-- `Push` then `Pop`, no tail and room in the head slice. -/
theorem C7_case_head_nofull (e : α) (s : Sq α) (h : SInv s)
    (ht : s.tail = none)
    (hguard : ¬(s.headL = s.headF ∧ (aget (deref s s.head) s.headL).isSome = true)) :
    ∃ s2 : Sq α, pushOp (some e) s = some (writeHeadAdvance (some e) s) ∧
      popOp (writeHeadAdvance (some e) s) = .ok (some e) s2 ∧
      sizeOf s2 = sizeOf s := by
  obtain ⟨hh, hhs⟩ := Option.ne_none_iff_exists'.mp h.headSome
  obtain ⟨s2, hpop, hcs, hts, heq0, hneq⟩ := popAfterHeadWrite e s h ht
  refine ⟨s2, ?_, hpop, ?_⟩
  · unfold pushOp
    simp only [ht]
    rw [if_pos hguard]
  · unfold sizeOf
    rw [hcs, hts, tailSize_none s ht]
    rcases eq_or_ne s.headF s.headL with hc | hc
    · rw [heq0 hc]
      have hhsz : headSize s = 0 := by
        rw [headSize_eval s hh hhs]
        rw [if_neg (show ¬(s.headF < s.headL) from by omega),
          if_neg (show ¬(s.headF > s.headL) from by omega)]
        rcases Bool.eq_false_or_eq_true (aget (deref s s.head) s.headL).isSome with hb | hb
        · exact absurd ⟨hc.symm, hb⟩ hguard
        · rw [hc, hb]
          rfl
      rw [hhsz]
    · rw [hneq hc]

end Squeue

namespace Squeue

variable {α : Type}

/-- `Push` then `Pop` when the head is full and there is no tail yet: a new
tail is created, the element lands there and is popped right back, and the
size is restored. -/
theorem C7_case_newtail (e : α) (s : Sq α) (h : SInv s)
    (ht : s.tail = none)
    (hguard : s.headL = s.headF ∧ (aget (deref s s.head) s.headL).isSome = true) :
    ∃ s2 : Sq α,
      pushOp (some e) s = some (writeTailAdvance (some e)
        (pushNewTail (gmin (2 * alenI s s.head) 100000) s)) ∧
      popOp (writeTailAdvance (some e)
        (pushNewTail (gmin (2 * alenI s s.head) 100000) s)) = .ok (some e) s2 ∧
      sizeOf s2 = sizeOf s := by
  have hne := tailNone_ne s h ht
  have hcap := capA_pos s h.headLen
  obtain ⟨hIP, hPhd, hPhF, hPhL, hPcF, hPcs, hPtF, hPtL, hPdh, hPal, t2, hPt, hPhne, hPalt⟩ :=
    SInv_pushNewTail (gmin (2 * alenI s s.head) 100000) s h hcap hne
  obtain ⟨s2, hpop, hhd2, hcs2, heq0, hneq⟩ :=
    popAfterTailWrite e (pushNewTail (gmin (2 * alenI s s.head) 100000) s) t2 hIP hPt
  refine ⟨s2, ?_, hpop, ?_⟩
  · unfold pushOp
    simp only [ht]
    rw [if_neg (not_not_intro hguard)]
  · have hhP : headSize (pushNewTail (gmin (2 * alenI s s.head) 100000) s) = headSize s := by
      apply headSize_congr
      · exact hPhd
      · exact hPhF
      · exact hPhL
      · rw [hPhd]
        exact hPdh
    unfold sizeOf
    rw [hhd2, hhP, hcs2, hPcs, heq0 (hPtF.trans hPtL.symm), tailSize_none s ht]

/-- `Push` then `Pop` when the tail is full: the tail is filed, a new tail is
created, the element lands there and is popped right back, and the size is
restored. -/
theorem C7_case_filetail (e : α) (s : Sq α) (t : Nat) (h : SInv s)
    (ht : s.tail = some t)
    (hguard : s.tailL = s.tailF ∧ (aget (deref s s.tail) s.tailL).isSome = true) :
    ∃ s1F s2 : Sq α, pushFile s = some s1F ∧
      pushOp (some e) s = some (writeTailAdvance (some e)
        (pushNewTail (gmin (2 * gmax (alenI s1F s1F.head) (alenI s1F s1F.tail)) 100000) s1F)) ∧
      popOp (writeTailAdvance (some e)
        (pushNewTail (gmin (2 * gmax (alenI s1F s1F.head) (alenI s1F s1F.tail)) 100000) s1F))
        = .ok (some e) s2 ∧
      sizeOf s2 = sizeOf s := by
  have htne : s.tail ≠ none := by rw [ht]; intro hz; cases hz
  obtain ⟨s1F, hpf, hI1, hne1, harr1, hhd1, hhF1, hhL1, htl1, htF1, htL1, hcs1⟩ :=
    SInv_pushFile s t ht h
  have hal1h : alenI s1F s1F.head = alenI s s.head := by
    rw [hhd1]
    exact alenI_congr s1F s s.head harr1
  have hcap := capB_pos s1F (by rw [hal1h]; exact h.headLen)
  obtain ⟨hIP, hPhd, hPhF, hPhL, hPcF, hPcs, hPtF, hPtL, hPdh, hPal, t2, hPt, hPhne, hPalt⟩ :=
    SInv_pushNewTail (gmin (2 * gmax (alenI s1F s1F.head) (alenI s1F s1F.tail)) 100000)
      s1F hI1 hcap hne1
  obtain ⟨s2, hpop, hhd2, hcs2, heq0, hneq⟩ :=
    popAfterTailWrite e
      (pushNewTail (gmin (2 * gmax (alenI s1F s1F.head) (alenI s1F s1F.tail)) 100000) s1F)
      t2 hIP hPt
  rw [ht] at hguard
  refine ⟨s1F, s2, hpf, ?_, hpop, ?_⟩
  · unfold pushOp
    simp only [ht]
    rw [if_pos hguard, hpf]
    rfl
  · have hh1 : headSize s1F = headSize s := by
      apply headSize_congr
      · exact hhd1
      · exact hhF1
      · exact hhL1
      · rw [hhd1]
        exact deref_congr_arrays s1F s s.head harr1
    have hhP : headSize (pushNewTail
        (gmin (2 * gmax (alenI s1F s1F.head) (alenI s1F s1F.tail)) 100000) s1F)
        = headSize s1F := by
      apply headSize_congr
      · exact hPhd
      · exact hPhF
      · exact hPhL
      · rw [hPhd]
        exact hPdh
    have htsz : tailSize s = alenI s s.tail := by
      rw [tailSize_eval s t ht]
      rw [if_neg (show ¬(s.tailF < s.tailL) from by omega),
        if_neg (show ¬(s.tailF > s.tailL) from by omega)]
      rw [← hguard.1, ht]
      rw [if_pos hguard.2]
    unfold sizeOf
    rw [hhd2, hhP, hh1, hcs2, hPcs, hcs1, heq0 (hPtF.trans hPtL.symm), htsz]
    ring

end Squeue

namespace Squeue

/-- C7: from every reachable deque state, pushing a non-nil element and
immediately popping succeeds, returns that element, and leaves `Size()`
unchanged. -/
theorem C7_push_pop_restores_size (α : Type) (s : Sq α) (hr : Reachable s) (e : α) :
    ∃ s1 s2 : Sq α, pushOp (some e) s = some s1 ∧
      popOp s1 = .ok (some e) s2 ∧ sizeOf s2 = sizeOf s := by
  have h := Reachable_SInv s hr
  cases ht : s.tail with
  | none =>
    by_cases hguard : s.headL = s.headF ∧ (aget (deref s s.head) s.headL).isSome = true
    · obtain ⟨s2, hpush, hpop, hsz⟩ := C7_case_newtail e s h ht hguard
      exact ⟨_, s2, hpush, hpop, hsz⟩
    · obtain ⟨s2, hpush, hpop, hsz⟩ := C7_case_head_nofull e s h ht hguard
      exact ⟨_, s2, hpush, hpop, hsz⟩
  | some t =>
    by_cases hguard : s.tailL = s.tailF ∧ (aget (deref s s.tail) s.tailL).isSome = true
    · obtain ⟨s1F, s2, hpf, hpush, hpop, hsz⟩ := C7_case_filetail e s t h ht hguard
      exact ⟨_, s2, hpush, hpop, hsz⟩
    · obtain ⟨s2, hpush, hpop, hsz⟩ := C7_case_tail_nofull e s t h ht hguard
      exact ⟨_, s2, hpush, hpop, hsz⟩

/-- Witness: the push-pop inverse law at a freshly constructed deque and the
element 5. -/
theorem C7_push_pop_witness :
    ∃ s1 s2 : Sq Int, pushOp (some 5) (new0 Int) = some s1 ∧
      popOp s1 = .ok (some 5) s2 ∧ sizeOf s2 = sizeOf (new0 Int) :=
  C7_push_pop_restores_size Int (new0 Int) (Reachable.base []) 5

end Squeue

namespace Squeue

variable {α : Type}

/-! ### Content-level refinement for the FIFO law (push-then-unshift) -/

/-- Circular read at offset `k` from cursor `f`. -/
def circGet (A : Arr α) (f : Int) (k : Nat) : Val α :=
  aget A ((f + (k : Int)) % (A.length : Int))

/-- The slots from cursor `f` hold exactly the elements of `seg`, in order. -/
def RunAt (A : Arr α) (f : Int) (seg : List α) : Prop :=
  ∀ k : Nat, k < seg.length → circGet A f k = seg.get? k

/-- The slots from circular offset `c` onwards are all vacant. -/
def DeadFrom (A : Arr α) (f : Int) (c : Nat) : Prop :=
  ∀ k : Nat, c ≤ k → k < A.length → circGet A f k = none

/-- The state `s` cleanly represents the queue
`hseg ++ msegs.flatten ++ tseg`: the head slice holds `hseg` from `headF`,
each directory middle holds one full `mseg`, and the tail slice holds `tseg`
from `tailF` with vacant slots beyond each run. -/
structure CRep (s : Sq α) (hseg : List α) (msegs : List (List α)) (tseg : List α) :
    Prop where
  sinv : SInv s
  hcnt : hseg.length ≤ (deref s s.head).length
  hrun : RunAt (deref s s.head) s.headF hseg
  hdead : DeadFrom (deref s s.head) s.headF hseg.length
  hLeq : s.headL = (s.headF + (hseg.length : Int)) % alenI s s.head
  tnil : s.tail = none → msegs = [] ∧ tseg = []
  tcnt : s.tail ≠ none → tseg.length ≤ (deref s s.tail).length
  tne : s.tail ≠ none → tseg ≠ []
  trun : s.tail ≠ none → RunAt (deref s s.tail) s.tailF tseg
  tdead : s.tail ≠ none → DeadFrom (deref s s.tail) s.tailF tseg.length
  tLeq : s.tail ≠ none → s.tailL = (s.tailF + (tseg.length : Int)) % alenI s s.tail
  dcnt : s.tail ≠ none → msegs.length + 2 ≤ s.cache.length
  cLeq : s.tail ≠ none →
    s.cacheL = (s.cacheF + ((msegs.length : Int) + 2)) % (s.cache.length : Int)
  mids : ∀ j : Nat, j < msegs.length → ∃ c : Cached,
    cacheGet s ((s.cacheF + 1 + (j : Int)) % (s.cache.length : Int)) = some c ∧
    (msegs.getD j []).length = (deref s (some c.ptr)).length ∧
    RunAt (deref s (some c.ptr)) c.idx (msegs.getD j [])

end Squeue

namespace Squeue

variable {α : Type}

theorem emod_lift (a b n : Int) : (a % n + b) % n = (a + b) % n := by
  rw [show a % n = a - n * (a / n) from Int.emod_def a n]
  rw [show a - n * (a / n) + b = a + b + n * (-(a / n)) by ring]
  rw [Int.add_mul_emod_self_left]

theorem circGet_congr (A B : Arr α) (f : Int) (k : Nat) (h : A = B) :
    circGet A f k = circGet B f k := by
  rw [h]

/-- Writing at circular offset `j` changes exactly that offset. -/
theorem circGet_aset (A : Arr α) (f : Int) (j k : Nat) (v : Val α)
    (hf0 : 0 ≤ f) (hj : j < A.length) (hk : k < A.length) :
    circGet (aset A ((f + (j : Int)) % (A.length : Int)) v) f k =
      if j = k then v else circGet A f k := by
  unfold circGet
  rw [length_aset]
  rcases eq_or_ne j k with hjk | hjk
  · subst hjk
    rw [if_pos rfl]
    have hr := Int.emod_range (f + (j : Int)) (A.length : Int) (by omega)
    exact aget_aset_self A _ v hr.1 hr.2
  · rw [if_neg hjk]
    apply aget_aset_ne
    intro hz
    apply hjk
    have := emod_cancel_left f (j : Int) (k : Int) (A.length : Int) (by omega)
      (by omega) (by omega) (by omega) (by omega) hz
    omega

theorem RunAt_nil (A : Arr α) (f : Int) : RunAt A f [] := by
  intro k hk
  cases hk

theorem DeadFrom_mono (A : Arr α) (f : Int) (c c2 : Nat) (h : DeadFrom A f c)
    (hc : c ≤ c2) : DeadFrom A f c2 :=
  fun k hk hk2 => h k (by omega) hk2

end Squeue

namespace Squeue

variable {α : Type}

/-- `PeekFront` returns immediately when the front slot is occupied. -/
theorem peekFrontF_hit (k : Nat) (s : Sq α)
    (hsome : (aget (deref s s.head) s.headF).isSome = true) :
    peekFrontF (k + 1) s = .ok (aget (deref s s.head) s.headF) s := by
  unfold peekFrontF
  simp only []
  rw [if_pos hsome]

theorem aget_replicate (n : Nat) (i : Int) :
    aget (List.replicate n (none : Val α)) i = none := by
  unfold aget
  split
  · rcases lt_or_ge i.toNat n with hlt | hge
    · rw [List.getD_eq_getElem _ _ (by simpa using hlt), List.getElem_replicate]
    · exact List.getD_eq_default _ _ (by simpa using hge)
  · rfl

/-- Directory middles survive any step that keeps the directory reads, the
front cursor and the middle segments' arrays intact. -/
theorem mids_pres (s s' : Sq α) (msegs : List (List α))
    (hcF : s'.cacheF = s.cacheF) (hclen : s'.cache.length = s.cache.length)
    (hcg : ∀ i, cacheGet s' i = cacheGet s i)
    (hdm : ∀ j : Nat, j < msegs.length → ∀ c : Cached,
      cacheGet s ((s.cacheF + 1 + (j : Int)) % (s.cache.length : Int)) = some c →
      deref s' (some c.ptr) = deref s (some c.ptr))
    (hm : ∀ j : Nat, j < msegs.length → ∃ c : Cached,
      cacheGet s ((s.cacheF + 1 + (j : Int)) % (s.cache.length : Int)) = some c ∧
      (msegs.getD j []).length = (deref s (some c.ptr)).length ∧
      RunAt (deref s (some c.ptr)) c.idx (msegs.getD j [])) :
    ∀ j : Nat, j < msegs.length → ∃ c : Cached,
      cacheGet s' ((s'.cacheF + 1 + (j : Int)) % (s'.cache.length : Int)) = some c ∧
      (msegs.getD j []).length = (deref s' (some c.ptr)).length ∧
      RunAt (deref s' (some c.ptr)) c.idx (msegs.getD j []) := by
  intro j hj
  obtain ⟨c, hc, hlen, hrun⟩ := hm j hj
  refine ⟨c, ?_, ?_, ?_⟩
  · rw [hcF, hclen, hcg]
    exact hc
  · rw [hdm j hj c hc]
    exact hlen
  · intro k hk
    rw [show circGet (deref s' (some c.ptr)) c.idx k
        = circGet (deref s (some c.ptr)) c.idx k from by rw [hdm j hj c hc]]
    exact hrun k hk

end Squeue

namespace Squeue

variable {α : Type}

/-- A middle directory offset never collides with the head's slot. -/
theorem mid_slot_ne_cF (s : Sq α) (h : SInv s) (j : Nat)
    (hj : (j : Int) + 2 ≤ (s.cache.length : Int)) :
    (s.cacheF + 1 + (j : Int)) % (s.cache.length : Int) ≠ s.cacheF := by
  intro hz
  have hn := h.cacheLen
  have h1 : (s.cacheF + ((j : Int) + 1)) % (s.cache.length : Int)
      = (s.cacheF + 0) % (s.cache.length : Int) := by
    rw [show s.cacheF + ((j : Int) + 1) = s.cacheF + 1 + (j : Int) from by ring, hz,
      add_zero, Int.emod_eq_of_lt h.cFlo h.cFhi]
  have h2 := emod_cancel_left s.cacheF ((j : Int) + 1) 0 (s.cache.length : Int)
    (by omega) (by omega) (by omega) (by omega) (by omega) h1
  omega

/-- Rotating the cursor forward shifts the circular offsets by one. -/
theorem circGet_rot (A : Arr α) (f : Int) (k : Nat) (m : Int)
    (hm : m = (A.length : Int)) :
    circGet A ((f + 1) % m) k = circGet A f (k + 1) := by
  subst hm
  unfold circGet
  rw [emod_lift]
  congr 1
  push_cast
  ring

/-- `circGet_aset` with the write index supplied as an equation. -/
theorem circGet_aset2 (A : Arr α) (f i : Int) (j k : Nat) (v : Val α)
    (hf0 : 0 ≤ f) (hj : j < A.length) (hk : k < A.length)
    (hi : i = (f + (j : Int)) % (A.length : Int)) :
    circGet (aset A i v) f k = if j = k then v else circGet A f k := by
  subst hi
  exact circGet_aset A f j k v hf0 hj hk

end Squeue

namespace Squeue

variable {α : Type}

/-- A non-empty head run means `PeekFront` hits its front slot at once. -/
theorem CRep_hitF (s : Sq α) (x : α) (rest : List α)
    (msegs : List (List α)) (tseg : List α)
    (h : CRep s (x :: rest) msegs tseg) (k : Nat) :
    peekFrontF (k + 1) s = .ok (some x) s := by
  have hI := h.sinv
  obtain ⟨hh, hhs⟩ := Option.ne_none_iff_exists'.mp hI.headSome
  have hF0 := hI.hFlo
  have hF1 : s.headF < (((deref s (some hh)).length) : Int) := by
    have hx := hI.hFhi
    rw [hhs] at hx
    exact hx
  have hrun : RunAt (deref s (some hh)) s.headF (x :: rest) := by
    have hx := h.hrun
    rw [hhs] at hx
    exact hx
  have hFid : (s.headF + ((0 : Nat) : Int)) % (((deref s (some hh)).length) : Int)
      = s.headF := by
    push_cast
    rw [add_zero]
    exact Int.emod_eq_of_lt hF0 hF1
  have hhit : aget (deref s s.head) s.headF = some x := by
    rw [hhs]
    have hx := hrun 0 (by simp)
    unfold circGet at hx
    rw [hFid] at hx
    exact hx
  have hsome : (aget (deref s s.head) s.headF).isSome = true := by rw [hhit]; rfl
  rw [← hhit]
  exact peekFrontF_hit k s hsome

/-- The write-back half of `Unshift`: once `PeekFront` has returned the front
element from a state with a non-empty head run, the front slot is voided and
the cursor advanced, leaving a representation of the rest. -/
theorem CRep_writeback (s0 s : Sq α) (x : α) (rest : List α)
    (msegs : List (List α)) (tseg : List α)
    (h : CRep s (x :: rest) msegs tseg)
    (hpk : peekFront s0 = .ok (some x) s) :
    ∃ s2, unshiftOp s0 = .ok (some x) s2 ∧ CRep s2 rest msegs tseg := by
  have hI := h.sinv
  obtain ⟨hh, hhs⟩ := Option.ne_none_iff_exists'.mp hI.headSome
  have hhv := hI.headValid hh hhs
  have hF0 := hI.hFlo
  have hF1 : s.headF < (((deref s (some hh)).length) : Int) := by
    have hx := hI.hFhi
    rw [hhs] at hx
    exact hx
  have hcnt : (x :: rest).length ≤ (deref s (some hh)).length := by
    have hx := h.hcnt
    rw [hhs] at hx
    exact hx
  have hrun : RunAt (deref s (some hh)) s.headF (x :: rest) := by
    have hx := h.hrun
    rw [hhs] at hx
    exact hx
  have hdead : DeadFrom (deref s (some hh)) s.headF (x :: rest).length := by
    have hx := h.hdead
    rw [hhs] at hx
    exact hx
  have hFid : (s.headF + ((0 : Nat) : Int)) % (((deref s (some hh)).length) : Int)
      = s.headF := by
    push_cast
    rw [add_zero]
    exact Int.emod_eq_of_lt hF0 hF1
  have hun : unshiftOp s0 = .ok (some x)
      { heapWrite s s.head (aset (deref s s.head) s.headF none) with
          headF := ((heapWrite s s.head (aset (deref s s.head) s.headF none)).headF + 1) %
            alenI (heapWrite s s.head (aset (deref s s.head) s.headF none))
              (heapWrite s s.head (aset (deref s s.head) s.headF none)).head } := by
    unfold unshiftOp
    rw [hpk]
  refine ⟨_, hun, ?_⟩
  set sW := heapWrite s s.head (aset (deref s s.head) s.headF none) with hsW
  have hsW2 : sW = heapWrite s (some hh) (aset (deref s (some hh)) s.headF none) := by
    rw [hsW, hhs]
  have hWI : SInv sW := by
    rw [hsW2]
    exact SInv_heapWrite s hh _ hhv (by rw [length_aset]) hI
  have hWd : deref sW (some hh) = aset (deref s (some hh)) s.headF none := by
    rw [hsW2]
    exact deref_heapWrite_self s hh _ hhv
  have hWd_ne : ∀ p, p ≠ hh → deref sW (some p) = deref s (some p) := by
    intro p hp
    rw [hsW2]
    exact deref_heapWrite_ne s hh p _ (fun hz => hp hz.symm)
  have hWlen : ∀ q, alenI sW q = alenI s q := by
    intro q
    rw [hsW2]
    exact alenI_heapWrite s hh _ (by rw [length_aset]) q
  have hWcg : ∀ i, cacheGet sW i = cacheGet s i := by
    intro i
    rw [hsW]
    exact cacheGet_heapWrite s s.head _ i
  have hWhd : sW.head = s.head := by rw [hsW]; exact head_heapWrite s s.head _
  have hWhF : sW.headF = s.headF := by rw [hsW]; exact headF_heapWrite s s.head _
  have hWhL : sW.headL = s.headL := by rw [hsW]; exact headL_heapWrite s s.head _
  have hWtl : sW.tail = s.tail := by rw [hsW]; exact tail_heapWrite s s.head _
  have hWtF : sW.tailF = s.tailF := by rw [hsW]; exact tailF_heapWrite s s.head _
  have hWtL : sW.tailL = s.tailL := by rw [hsW]; exact tailL_heapWrite s s.head _
  have hWcF : sW.cacheF = s.cacheF := by rw [hsW]; exact cacheF_heapWrite s s.head _
  have hWcL : sW.cacheL = s.cacheL := by rw [hsW]; exact cacheL_heapWrite s s.head _
  have hWcn : sW.cache.length = s.cache.length := by
    rw [hsW, cache_heapWrite]
  have halenW : alenI sW sW.head = (((deref s (some hh)).length) : Int) := by
    rw [hWhd, hhs, hWlen]
    rfl
  set s2 : Sq α := { sW with headF := (sW.headF + 1) % alenI sW sW.head } with hs2
  have h2hd : s2.head = some hh := by
    rw [show s2.head = sW.head from rfl, hWhd]
    exact hhs
  have h2d : ∀ q, deref s2 q = deref sW q := fun _ => rfl
  have h2len : ∀ q, alenI s2 q = alenI s q := fun q => hWlen q
  have h2cg : ∀ i, cacheGet s2 i = cacheGet s i := fun i => hWcg i
  have h2F : s2.headF = (s.headF + 1) % (((deref s (some hh)).length) : Int) := by
    show (sW.headF + 1) % alenI sW sW.head = _
    rw [hWhF, halenW]
  have h2D : deref s2 s2.head = aset (deref s (some hh)) s.headF none := by
    rw [h2hd]
    exact hWd
  have h2tl : s2.tail = s.tail := hWtl
  have hL0 : 0 < (deref s (some hh)).length := by
    have hx := hI.headLen
    rw [hhs] at hx
    have hx2 : (0 : Int) < (((deref s (some hh)).length) : Int) := hx
    exact_mod_cast hx2
  constructor
  case sinv =>
    have hb := Int.emod_range (sW.headF + 1) (alenI sW sW.head)
      (by rw [halenW]; exact_mod_cast hL0)
    exact SInv_setHeadF sW _ hb.1 hb.2 hWI
  case hcnt =>
    rw [h2D, length_aset]
    have := hcnt
    simp only [List.length_cons] at this
    omega
  case hrun =>
    rw [h2D, h2F]
    intro k hk
    rw [circGet_rot _ s.headF k _ (by rw [length_aset])]
    rw [circGet_aset2 (deref s (some hh)) s.headF s.headF 0 (k + 1) none hF0 hL0
      (by simp only [List.length_cons] at hcnt; omega) hFid.symm]
    rw [if_neg (by omega)]
    exact hrun (k + 1) (by simp only [List.length_cons]; omega)
  case hdead =>
    rw [h2D, h2F]
    intro k hk hk2
    rw [length_aset] at hk2
    rw [circGet_rot _ s.headF k _ (by rw [length_aset])]
    rcases eq_or_lt_of_le (by omega : k + 1 ≤ (deref s (some hh)).length) with heq | hlt
    · unfold circGet
      rw [length_aset]
      have hidx : (s.headF + ((k + 1 : Nat) : Int)) % (((deref s (some hh)).length) : Int)
          = s.headF := by
        rw [show s.headF + ((k + 1 : Nat) : Int)
            = s.headF + (((deref s (some hh)).length) : Int) * 1 from by push_cast; omega]
        rw [Int.add_mul_emod_self_left]
        exact Int.emod_eq_of_lt hF0 hF1
      rw [hidx]
      exact aget_aset_self (deref s (some hh)) s.headF none hF0 hF1
    · rw [circGet_aset2 (deref s (some hh)) s.headF s.headF 0 (k + 1) none hF0 hL0
        hlt hFid.symm]
      rw [if_neg (by omega)]
      exact hdead (k + 1) (by simp only [List.length_cons]; omega) hlt
  case hLeq =>
    rw [show s2.headL = s.headL from by rw [show s2.headL = sW.headL from rfl, hWhL]]
    rw [h2F, show alenI s2 s2.head = (((deref s (some hh)).length) : Int) from by
      rw [show alenI s2 s2.head = alenI sW sW.head from rfl, halenW]]
    rw [emod_lift]
    rw [show s.headF + 1 + (rest.length : Int) = s.headF + (((x :: rest).length : Int))
      from by rw [List.length_cons]; push_cast; ring]
    have hold := h.hLeq
    rw [hhs] at hold
    exact hold
  case tnil =>
    intro ht2
    rw [h2tl] at ht2
    exact h.tnil ht2
  case tcnt =>
    intro ht2
    rw [h2tl] at ht2
    obtain ⟨t, hts⟩ := Option.ne_none_iff_exists'.mp ht2
    have hht := head_ne_tail s hI t hts hh hhs
    have hdt : deref s2 s.tail = deref s s.tail := by
      rw [hts]
      exact hWd_ne t (Ne.symm hht)
    rw [h2tl, hdt]
    exact h.tcnt ht2
  case tne =>
    intro ht2
    rw [h2tl] at ht2
    exact h.tne ht2
  case trun =>
    intro ht2
    rw [h2tl] at ht2
    obtain ⟨t, hts⟩ := Option.ne_none_iff_exists'.mp ht2
    have hht := head_ne_tail s hI t hts hh hhs
    have hdt : deref s2 s.tail = deref s s.tail := by
      rw [hts]
      exact hWd_ne t (Ne.symm hht)
    rw [h2tl, hdt, show s2.tailF = s.tailF from hWtF]
    exact h.trun ht2
  case tdead =>
    intro ht2
    rw [h2tl] at ht2
    obtain ⟨t, hts⟩ := Option.ne_none_iff_exists'.mp ht2
    have hht := head_ne_tail s hI t hts hh hhs
    have hdt : deref s2 s.tail = deref s s.tail := by
      rw [hts]
      exact hWd_ne t (Ne.symm hht)
    rw [h2tl, hdt, show s2.tailF = s.tailF from hWtF]
    exact h.tdead ht2
  case tLeq =>
    intro ht2
    rw [h2tl] at ht2
    rw [show s2.tailL = s.tailL from hWtL, show s2.tailF = s.tailF from hWtF,
      h2tl, h2len]
    exact h.tLeq ht2
  case dcnt =>
    intro ht2
    rw [h2tl] at ht2
    rw [show s2.cache.length = s.cache.length from hWcn]
    exact h.dcnt ht2
  case cLeq =>
    intro ht2
    rw [h2tl] at ht2
    rw [show s2.cacheL = s.cacheL from hWcL, show s2.cacheF = s.cacheF from hWcF,
      show s2.cache.length = s.cache.length from hWcn]
    exact h.cLeq ht2
  case mids =>
    refine mids_pres s s2 msegs hWcF hWcn h2cg ?_ h.mids
    intro j hj c hc
    have htne : s.tail ≠ none := by
      intro hz
      rw [(h.tnil hz).1] at hj
      exact absurd hj (by simp)
    have hm2 := h.dcnt htne
    obtain ⟨cH, hcH, hpH⟩ := hI.headEntry
    have hslot := mid_slot_ne_cF s hI j (by omega)
    have hptr := hI.inj _ _ _ _ hc hcH hslot
    have hhh : hh = cH.ptr := by
      have hx := hhs.symm.trans hpH
      injection hx
    exact hWd_ne c.ptr (fun hz => hptr (hz.trans hhh))

/-- `Unshift` on a representation with a non-empty head run returns the front
element and leaves a representation of the rest. -/
theorem CRep_unshift_cons (s : Sq α) (x : α) (rest : List α)
    (msegs : List (List α)) (tseg : List α)
    (h : CRep s (x :: rest) msegs tseg) :
    ∃ s2, unshiftOp s = .ok (some x) s2 ∧ CRep s2 rest msegs tseg :=
  CRep_writeback s s x rest msegs tseg h
    (CRep_hitF s x rest msegs tseg h (s.cache.length + 1))

end Squeue

namespace Squeue

variable {α : Type}

/-- A live directory offset (`1 ≤ o`, `o + 1 ≤ n`) never lands on the slot
just before `cacheF`. -/
theorem live_ne_prevF (s : Sq α) (h : SInv s) (o : Nat) (ho : 0 < o)
    (ho2 : (o : Int) + 1 < (s.cache.length : Int)) :
    (s.cacheF + (o : Int)) % (s.cache.length : Int) ≠ prevSlot s s.cacheF := by
  intro hz
  have hn := h.cacheLen
  have h1 : ((s.cacheF + (o : Int)) % (s.cache.length : Int) + 1)
      % (s.cache.length : Int) = s.cacheF := by
    rw [hz]
    exact succ_prevSlot s s.cacheF h.cFlo h.cFhi (by omega)
  rw [emod_lift] at h1
  have h2 : (s.cacheF + ((o : Int) + 1)) % (s.cache.length : Int)
      = (s.cacheF + 0) % (s.cache.length : Int) := by
    rw [show s.cacheF + ((o : Int) + 1) = s.cacheF + (o : Int) + 1 from by ring, h1,
      add_zero, Int.emod_eq_of_lt h.cFlo h.cFhi]
  have h3 := emod_cancel_left s.cacheF ((o : Int) + 1) 0 (s.cache.length : Int)
    (by omega) (by omega) (by omega) (by omega) (by omega) h2
  omega

/-- Voiding the stale slot behind `cacheF` (the guard `PeekFront` performs
before a promotion) keeps the representation intact. -/
theorem CRep_void (s : Sq α) (hseg : List α) (msegs : List (List α)) (tseg : List α)
    (h : CRep s hseg msegs tseg) (htne : s.tail ≠ none)
    (hvc : s.cacheF ≠ s.cacheL ∧ prevSlot s s.cacheF ≠ s.cacheL) :
    CRep (cacheSet s (prevSlot s s.cacheF) none) hseg msegs tseg := by
  have hI := h.sinv
  have hn6 := hI.cacheLen
  set w : Sq α := cacheSet s (prevSlot s s.cacheF) none with hw
  have hwar : w.arrays = s.arrays := by rw [hw]; exact arrays_cacheSet s _ none
  have hwd : ∀ p, deref w p = deref s p := fun p => deref_congr_arrays w s p hwar
  have hwl : ∀ p, alenI w p = alenI s p := fun p => alenI_congr w s p hwar
  have hwhd : w.head = s.head := by rw [hw]; exact head_cacheSet s _ none
  have hwtl : w.tail = s.tail := by rw [hw]; exact tail_cacheSet s _ none
  have hwhF : w.headF = s.headF := by rw [hw]; exact headF_cacheSet s _ none
  have hwhL : w.headL = s.headL := by rw [hw]; exact headL_cacheSet s _ none
  have hwtF : w.tailF = s.tailF := by rw [hw]; exact tailF_cacheSet s _ none
  have hwtL : w.tailL = s.tailL := by rw [hw]; exact tailL_cacheSet s _ none
  have hwcF : w.cacheF = s.cacheF := by rw [hw]; exact cacheF_cacheSet s _ none
  have hwcL : w.cacheL = s.cacheL := by rw [hw]; exact cacheL_cacheSet s _ none
  have hwcn : w.cache.length = s.cache.length := by
    rw [hw]; exact length_cache_cacheSet s _ none
  have hm2 := h.dcnt htne
  constructor
  case sinv =>
    exact SInv_cacheVoid s _
      (prevSlot_ne_self s s.cacheF hI.cFlo hI.cFhi (by omega))
      (fun _ hz => hvc.1
        (prevSlot_inj s s.cacheF s.cacheL hI.cFlo hI.cFhi hI.cLlo hI.cLhi
          (by omega) hz))
      h.sinv
  case hcnt => rw [hwhd, hwd]; exact h.hcnt
  case hrun => rw [hwhd, hwd, hwhF]; exact h.hrun
  case hdead => rw [hwhd, hwd, hwhF]; exact h.hdead
  case hLeq => rw [hwhL, hwhF, hwhd, hwl]; exact h.hLeq
  case tnil => intro hz; rw [hwtl] at hz; exact h.tnil hz
  case tcnt => intro hz; rw [hwtl] at hz; rw [hwtl, hwd]; exact h.tcnt hz
  case tne => intro hz; rw [hwtl] at hz; exact h.tne hz
  case trun => intro hz; rw [hwtl] at hz; rw [hwtl, hwd, hwtF]; exact h.trun hz
  case tdead => intro hz; rw [hwtl] at hz; rw [hwtl, hwd, hwtF]; exact h.tdead hz
  case tLeq =>
    intro hz; rw [hwtl] at hz
    rw [hwtL, hwtF, hwtl, hwl]; exact h.tLeq hz
  case dcnt => intro hz; rw [hwtl] at hz; rw [hwcn]; exact h.dcnt hz
  case cLeq =>
    intro hz; rw [hwtl] at hz
    rw [hwcL, hwcF, hwcn]; exact h.cLeq hz
  case mids =>
    intro j hj
    obtain ⟨c, hc, hl, hr⟩ := h.mids j hj
    refine ⟨c, ?_, by rw [hwd]; exact hl, ?_⟩
    · rw [hwcF, hwcn, hw]
      rw [cacheGet_cacheSet_ne s _ _ none ?_]
      · exact hc
      · intro hz
        exact live_ne_prevF s hI (1 + j) (by omega) (by push_cast; omega) (by
          rw [show ((1 + j : Nat) : Int) = 1 + (j : Int) from by push_cast; ring,
            show s.cacheF + (1 + (j : Int)) = s.cacheF + 1 + (j : Int) from by ring]
          exact hz.symm)
    · intro k hk
      rw [show circGet (deref w (some c.ptr)) c.idx k
          = circGet (deref s (some c.ptr)) c.idx k from by rw [hwd]]
      exact hr k hk

end Squeue

namespace Squeue

variable {α : Type}

/-- `PeekFront`'s promotion when only the tail is left: the tail segment
becomes the head run. -/
theorem CRep_promote_tail (w : Sq α) (tseg : List α)
    (h : CRep w [] [] tseg) (t : Nat) (htl : w.tail = some t)
    (hA : ((w.cacheF + 1) % (w.cache.length : Int) + 1) % (w.cache.length : Int)
      = w.cacheL) :
    CRep { w with cacheF := (w.cacheF + 1) % (w.cache.length : Int),
                  head := w.tail, headF := w.tailF, headL := w.tailL,
                  tail := none } tseg [] [] := by
  have htne : w.tail ≠ none := by rw [htl]; intro hz; cases hz
  constructor
  case sinv => exact SInv_pf_promoteTail w h.sinv t htl hA
  case hcnt => exact h.tcnt htne
  case hrun => exact h.trun htne
  case hdead => exact h.tdead htne
  case hLeq => exact h.tLeq htne
  case tnil => exact fun _ => ⟨rfl, rfl⟩
  case tcnt => intro hz; exact absurd rfl hz
  case tne => intro hz; exact absurd rfl hz
  case trun => intro hz; exact absurd rfl hz
  case tdead => intro hz; exact absurd rfl hz
  case tLeq => intro hz; exact absurd rfl hz
  case dcnt => intro hz; exact absurd rfl hz
  case cLeq => intro hz; exact absurd rfl hz
  case mids => intro j hj; exact absurd hj (by simp)

/-- `PeekFront`'s promotion onto the first filed middle segment: that full
segment becomes the head run. -/
theorem CRep_promote_mid (w : Sq α) (m0 : List α) (ms : List (List α))
    (tseg : List α) (h : CRep w [] (m0 :: ms) tseg) (htne : w.tail ≠ none)
    (c : Cached)
    (hc : cacheGet w ((w.cacheF + 1) % (w.cache.length : Int)) = some c)
    (hB : ((w.cacheF + 1) % (w.cache.length : Int) + 1) % (w.cache.length : Int)
      ≠ w.cacheL) :
    CRep { w with cacheF := (w.cacheF + 1) % (w.cache.length : Int),
                  head := some c.ptr,
                  cacheSize := w.cacheSize - alenI w (some c.ptr),
                  headF := c.idx, headL := c.idx } m0 ms tseg ∧ m0 ≠ [] := by
  have hI := h.sinv
  have hn6 := hI.cacheLen
  have hev := hI.entryValid _ _ hc
  have hm2 := h.dcnt htne
  obtain ⟨c0, hc0, hl0, hr0⟩ := h.mids 0 (by simp)
  rw [show w.cacheF + 1 + ((0 : Nat) : Int) = w.cacheF + 1 from by push_cast; ring]
    at hc0
  have hcc : c0 = c := by
    have hx := hc0.symm.trans hc
    injection hx
  subst hcc
  have hl : m0.length = (deref w (some c0.ptr)).length := hl0
  have hr : RunAt (deref w (some c0.ptr)) c0.idx m0 := hr0
  have hlI : (m0.length : Int) = alenI w (some c0.ptr) := by rw [hl]; rfl
  refine ⟨?_, ?_⟩
  case refine_2 =>
    have hpos : 0 < m0.length := by
      have hx : (0 : Int) < (m0.length : Int) := by rw [hlI]; exact hev.2.1
      exact_mod_cast hx
    exact List.length_pos.mp hpos
  constructor
  case sinv => exact SInv_pf_promoteMid w hI c0 htne hc hB
  case hcnt => exact le_of_eq hl
  case hrun => exact hr
  case hdead =>
    intro k hk hk2
    have hk3 : k < (deref w (some c0.ptr)).length := hk2
    rw [← hl] at hk3
    exact absurd hk3 (by omega)
  case hLeq =>
    show c0.idx = (c0.idx + (m0.length : Int)) % alenI w (some c0.ptr)
    rw [hlI, show c0.idx + alenI w (some c0.ptr)
        = c0.idx + alenI w (some c0.ptr) * 1 from by ring,
      Int.add_mul_emod_self_left,
      Int.emod_eq_of_lt hev.2.2.1 hev.2.2.2]
  case tnil => intro hz; exact absurd hz htne
  case tcnt => intro _; exact h.tcnt htne
  case tne => intro _; exact h.tne htne
  case trun => intro _; exact h.trun htne
  case tdead => intro _; exact h.tdead htne
  case tLeq => intro _; exact h.tLeq htne
  case dcnt =>
    intro _
    show ms.length + 2 ≤ w.cache.length
    have hx := h.dcnt htne
    simp only [List.length_cons] at hx
    omega
  case cLeq =>
    intro _
    show w.cacheL = ((w.cacheF + 1) % (w.cache.length : Int) + ((ms.length : Int) + 2))
      % (w.cache.length : Int)
    rw [emod_lift]
    rw [show w.cacheF + 1 + ((ms.length : Int) + 2)
        = w.cacheF + ((((m0 :: ms).length : Int)) + 2) from by
      rw [List.length_cons]; push_cast; ring]
    exact h.cLeq htne
  case mids =>
    intro j hj
    obtain ⟨cj, hcj, hlj, hrj⟩ := h.mids (j + 1) (by simp only [List.length_cons]; omega)
    refine ⟨cj, ?_, hlj, hrj⟩
    show cacheGet w (((w.cacheF + 1) % (w.cache.length : Int) + 1 + (j : Int))
      % (w.cache.length : Int)) = some cj
    rw [show (w.cacheF + 1) % (w.cache.length : Int) + 1 + (j : Int)
        = (w.cacheF + 1) % (w.cache.length : Int) + (1 + (j : Int)) from by ring,
      emod_lift,
      show w.cacheF + 1 + (1 + (j : Int)) = w.cacheF + 1 + (((j + 1 : Nat)) : Int)
        from by push_cast; ring]
    exact hcj

end Squeue

namespace Squeue

variable {α : Type}

theorem emod_shift_cancel (c a b n : Int) (hn : 0 < n)
    (h : (c + a) % n = (c + b) % n) : a % n = b % n := by
  have e1 : ∀ x : Int, (c + x) % n = (c + x % n) % n := by
    intro x
    conv_lhs => rw [show c + x = c + x % n + n * (x / n) from by rw [Int.emod_def]; ring]
    rw [Int.add_mul_emod_self_left]
  rw [e1 a, e1 b] at h
  have hra := Int.emod_range a n hn
  have hrb := Int.emod_range b n hn
  exact emod_cancel_left c (a % n) (b % n) n hn hra.1 hra.2 hrb.1 hrb.2 h

/-- `PeekFront`'s single promotion step on a representation whose head run is
exhausted: it succeeds and promotes the next segment, preserving the queue's
remaining contents. -/
theorem CRep_pf_all (s : Sq α) (msegs : List (List α)) (tseg : List α)
    (h : CRep s [] msegs tseg) (t : Nat) (ht : s.tail = some t) :
    ∀ r, pfStep s = r → ∃ s' hseg' msegs' tseg', r = some s' ∧
      CRep s' hseg' msegs' tseg' ∧ hseg' ≠ [] ∧
      hseg' ++ msegs'.flatten ++ tseg' = msegs.flatten ++ tseg ∧
      s'.cache.length = s.cache.length := by
  intro r hstep
  have hI := h.sinv
  have hn6 := hI.cacheLen
  have htne : s.tail ≠ none := by rw [ht]; intro hz; cases hz
  have hm2 := h.dcnt htne
  have hcLeq := h.cLeq htne
  unfold pfStep at hstep
  simp only [] at hstep
  rw [show (if s.cacheF - 1 < 0 then s.cacheF - 1 + (s.cache.length : Int)
      else s.cacheF - 1) = prevSlot s s.cacheF from rfl] at hstep
  split at hstep
  case isTrue hvc =>
    set w : Sq α := cacheSet s (prevSlot s s.cacheF) none with hw
    have hCw : CRep w [] msegs tseg := CRep_void s [] msegs tseg h htne hvc
    have hwtl : w.tail = some t := by rw [hw, tail_cacheSet]; exact ht
    have hwtne : w.tail ≠ none := by rw [hwtl]; intro hz; cases hz
    have hlen : (s.cache.length : Int) = (w.cache.length : Int) := by
      rw [hw, length_cache_cacheSet]
    have hlenN : w.cache.length = s.cache.length := by
      rw [hw]; exact length_cache_cacheSet s _ none
    rw [hlen] at hstep
    rcases msegs with _ | ⟨m0, ms⟩
    · split at hstep
      case isTrue hA =>
        refine ⟨_, tseg, [], [], hstep.symm, ?_, h.tne htne, by simp, ?_⟩
        · exact CRep_promote_tail w tseg hCw t hwtl hA
        · show w.cache.length = s.cache.length
          exact hlenN
      case isFalse hB =>
        exfalso
        apply hB
        rw [emod_lift]
        have hx := hCw.cLeq hwtne
        simp only [List.length_nil] at hx
        rw [show w.cacheF + 1 + 1 = w.cacheF + ((0 : Int) + 2) from by ring]
        exact hx.symm
    · split at hstep
      case isTrue hA =>
        exfalso
        have hx := hCw.cLeq hwtne
        rw [emod_lift] at hA
        rw [hx] at hA
        rw [show w.cacheF + 1 + 1 = w.cacheF + 2 from by ring] at hA
        have hy := emod_shift_cancel w.cacheF 2 (((m0 :: ms).length : Int) + 2)
          (w.cache.length : Int) (by omega) hA
        rw [Int.emod_eq_of_lt (by omega) (by omega)] at hy
        have hm2w : (m0 :: ms).length + 2 ≤ w.cache.length := hCw.dcnt hwtne
        simp only [List.length_cons] at hm2w
        rcases lt_trichotomy (((m0 :: ms).length : Int) + 2) (w.cache.length : Int)
          with hlt | heq | hgt
        · rw [Int.emod_eq_of_lt (by omega) hlt] at hy
          simp only [List.length_cons] at hy
          omega
        · rw [heq, Int.emod_self] at hy
          omega
        · simp only [List.length_cons] at hgt
          omega
      case isFalse hB =>
        split at hstep
        case h_1 heq =>
          exfalso
          obtain ⟨c0, hc0, _, _⟩ := hCw.mids 0 (by simp)
          rw [show w.cacheF + 1 + ((0 : Nat) : Int) = w.cacheF + 1 from by
            push_cast; ring] at hc0
          have heq2 : cacheGet w ((w.cacheF + 1) % (w.cache.length : Int)) = none := heq
          rw [heq2] at hc0
          cases hc0
        case h_2 c heq =>
          have heq2 : cacheGet w ((w.cacheF + 1) % (w.cache.length : Int)) = some c := heq
          obtain ⟨hC2, hm0ne⟩ := CRep_promote_mid w m0 ms tseg hCw hwtne c heq2 hB
          refine ⟨_, m0, ms, tseg, hstep.symm, hC2, hm0ne, by
            simp [List.flatten_cons, List.append_assoc], ?_⟩
          show w.cache.length = s.cache.length
          exact hlenN
  case isFalse hvc =>
    rcases msegs with _ | ⟨m0, ms⟩
    · split at hstep
      case isTrue hA =>
        refine ⟨_, tseg, [], [], hstep.symm, ?_, h.tne htne, by simp, rfl⟩
        exact CRep_promote_tail s tseg h t ht hA
      case isFalse hB =>
        exfalso
        apply hB
        rw [emod_lift]
        have hx := hcLeq
        simp only [List.length_nil] at hx
        rw [show s.cacheF + 1 + 1 = s.cacheF + ((0 : Int) + 2) from by ring]
        exact hx.symm
    · split at hstep
      case isTrue hA =>
        exfalso
        rw [emod_lift] at hA
        rw [hcLeq] at hA
        rw [show s.cacheF + 1 + 1 = s.cacheF + 2 from by ring] at hA
        have hy := emod_shift_cancel s.cacheF 2 (((m0 :: ms).length : Int) + 2)
          (s.cache.length : Int) (by omega) hA
        rw [Int.emod_eq_of_lt (by omega) (by omega)] at hy
        simp only [List.length_cons] at hm2
        rcases lt_trichotomy (((m0 :: ms).length : Int) + 2) (s.cache.length : Int)
          with hlt | heq | hgt
        · rw [Int.emod_eq_of_lt (by omega) hlt] at hy
          simp only [List.length_cons] at hy
          omega
        · rw [heq, Int.emod_self] at hy
          omega
        · simp only [List.length_cons] at hgt
          omega
      case isFalse hB =>
        split at hstep
        case h_1 heq =>
          exfalso
          obtain ⟨c0, hc0, _, _⟩ := h.mids 0 (by simp)
          rw [show s.cacheF + 1 + ((0 : Nat) : Int) = s.cacheF + 1 from by
            push_cast; ring] at hc0
          have heq2 : cacheGet s ((s.cacheF + 1) % (s.cache.length : Int)) = none := heq
          rw [heq2] at hc0
          cases hc0
        case h_2 c heq =>
          have heq2 : cacheGet s ((s.cacheF + 1) % (s.cache.length : Int)) = some c := heq
          obtain ⟨hC2, hm0ne⟩ := CRep_promote_mid s m0 ms tseg h htne c heq2 hB
          exact ⟨_, m0, ms, tseg, hstep.symm, hC2, hm0ne, by
            simp [List.flatten_cons, List.append_assoc], rfl⟩

/-- Packaged form of the promotion step. -/
theorem CRep_pf (s : Sq α) (msegs : List (List α)) (tseg : List α)
    (h : CRep s [] msegs tseg) (t : Nat) (ht : s.tail = some t) :
    ∃ s' hseg' msegs' tseg', pfStep s = some s' ∧
      CRep s' hseg' msegs' tseg' ∧ hseg' ≠ [] ∧
      hseg' ++ msegs'.flatten ++ tseg' = msegs.flatten ++ tseg ∧
      s'.cache.length = s.cache.length := by
  obtain ⟨s', a, b, cc, hr, hrest⟩ := CRep_pf_all s msegs tseg h t ht (pfStep s) rfl
  exact ⟨s', a, b, cc, hr, hrest⟩

end Squeue

namespace Squeue

variable {α : Type}

/-- One recursion step of `PeekFront`: vacant front slot, queue not reduced
to the head alone, promotion succeeds. -/
theorem peekFrontF_step (k : Nat) (s s' : Sq α)
    (hvac : (aget (deref s s.head) s.headF).isSome = false)
    (hne : (s.cacheF + 1) % (s.cache.length : Int) ≠ s.cacheL)
    (hpf : pfStep s = some s') :
    peekFrontF (k + 1) s = peekFrontF k s' := by
  conv_lhs => unfold peekFrontF
  simp only []
  rw [if_neg (by rw [hvac]; exact Bool.false_ne_true), if_neg hne, hpf]

/-- `Unshift` on a representation whose head run is exhausted but whose tail
is still present: one promotion occurs inside `PeekFront`, the new front
element is returned, and the rest is still represented. -/
theorem CRep_unshift_empty (s : Sq α) (msegs : List (List α)) (tseg : List α)
    (h : CRep s [] msegs tseg) (t : Nat) (ht : s.tail = some t) :
    ∃ y rest msegs' tseg' s2, unshiftOp s = .ok (some y) s2 ∧
      CRep s2 rest msegs' tseg' ∧
      (y :: rest) ++ msegs'.flatten ++ tseg' = msegs.flatten ++ tseg := by
  have hI := h.sinv
  have htne : s.tail ≠ none := by rw [ht]; intro hz; cases hz
  have hne := hI.tailSomeA htne
  obtain ⟨hh, hhs⟩ := Option.ne_none_iff_exists'.mp hI.headSome
  have hF0 := hI.hFlo
  have hF1 : s.headF < (((deref s (some hh)).length) : Int) := by
    have hx := hI.hFhi
    rw [hhs] at hx
    exact hx
  have hL0 : 0 < (deref s (some hh)).length := by
    have hx := hI.headLen
    rw [hhs] at hx
    have hx2 : (0 : Int) < (((deref s (some hh)).length) : Int) := hx
    exact_mod_cast hx2
  have hFid : (s.headF + ((0 : Nat) : Int)) % (((deref s (some hh)).length) : Int)
      = s.headF := by
    push_cast
    rw [add_zero]
    exact Int.emod_eq_of_lt hF0 hF1
  have hvac : aget (deref s s.head) s.headF = none := by
    rw [hhs]
    have hx : DeadFrom (deref s (some hh)) s.headF 0 := by
      have hy := h.hdead
      rw [hhs] at hy
      exact hy
    have hz := hx 0 (by omega) hL0
    unfold circGet at hz
    rw [hFid] at hz
    exact hz
  obtain ⟨s', hseg', msegs', tseg', hpf, hC', hne', hcat, hlen'⟩ :=
    CRep_pf s msegs tseg h t ht
  rcases hxseg : hseg' with _ | ⟨y, rest⟩
  · exact absurd hxseg hne'
  rw [hxseg] at hC' hcat
  have hpk : peekFront s = .ok (some y) s' := by
    show peekFrontF (s.cache.length + 1 + 1) s = .ok (some y) s'
    rw [peekFrontF_step (s.cache.length + 1) s s' (by rw [hvac]; rfl) hne hpf]
    have hx := CRep_hitF s' y rest msegs' tseg' hC' s'.cache.length
    rw [hlen'] at hx
    exact hx
  obtain ⟨s2, hop, hC2⟩ := CRep_writeback s s' y rest msegs' tseg' hC' hpk
  exact ⟨y, rest, msegs', tseg', s2, hop, hC2, hcat⟩

/-- Draining a represented queue with `Unshift` returns exactly its contents,
in order, each wrapped in `some`. -/
theorem CRep_drain (L : List α) : ∀ (s : Sq α) (hseg : List α)
    (msegs : List (List α)) (tseg : List α), CRep s hseg msegs tseg →
    hseg ++ msegs.flatten ++ tseg = L →
    ∃ s2, unshiftN L.length s = some (L.map some, s2) := by
  induction L with
  | nil =>
    intro s hseg msegs tseg _ _
    exact ⟨s, rfl⟩
  | cons y L2 ih =>
    intro s hseg msegs tseg hC heq
    rcases hseg with _ | ⟨x, rest⟩
    · simp only [List.nil_append] at heq
      cases htl : s.tail with
      | none =>
        obtain ⟨hm, ht⟩ := hC.tnil htl
        rw [hm, ht] at heq
        cases heq
      | some t =>
        obtain ⟨y2, rest2, msegs2, tseg2, s2, hop, hC2, hcat⟩ :=
          CRep_unshift_empty s msegs tseg hC t htl
        rw [heq] at hcat
        rw [List.cons_append] at hcat
        injection hcat with h1 h2
        subst h1
        obtain ⟨s3, hN⟩ := ih s2 rest2 msegs2 tseg2 hC2 h2
        refine ⟨s3, ?_⟩
        show unshiftN (L2.length + 1) s = _
        unfold unshiftN
        rw [hop]
        simp only []
        rw [hN]
        rfl
    · rw [List.cons_append] at heq
      injection heq with h1 h2
      subst h1
      obtain ⟨s2, hop, hC2⟩ := CRep_unshift_cons s x rest msegs tseg hC
      obtain ⟨s3, hN⟩ := ih s2 rest msegs tseg hC2 h2
      refine ⟨s3, ?_⟩
      show unshiftN (L2.length + 1) s = _
      unfold unshiftN
      rw [hop]
      simp only []
      rw [hN]
      rfl

end Squeue

namespace Squeue

variable {α : Type}

/-- Number of directory slots the representation occupies. -/
def dUsed (s : Sq α) (msegs : List (List α)) : Nat :=
  match s.tail with
  | none => 1
  | some _ => msegs.length + 2

/-- Push-phase cleanliness: every directory slot beyond the occupied window
is vacant (no promotion has ever left a stale entry behind). -/
def Vacant (s : Sq α) (msegs : List (List α)) : Prop :=
  ∀ j : Nat, dUsed s msegs ≤ j → j < s.cache.length →
    cacheGet s ((s.cacheF + (j : Int)) % (s.cache.length : Int)) = none

/-- The freshly constructed deque represents the empty queue. -/
theorem CRep_new0 : CRep (new0 α) [] [] [] ∧ Vacant (new0 α) [] := by
  constructor
  · constructor
    case sinv => exact SInv_mkNew []
    case hcnt => exact Nat.zero_le _
    case hrun => exact RunAt_nil _ _
    case hdead =>
      have hD : deref (new0 α) (new0 α).head = List.replicate 20 (none : Val α) := rfl
      intro k _ _
      rw [hD]
      unfold circGet
      exact aget_replicate 20 _
    case hLeq => rfl
    case tnil => exact fun _ => ⟨rfl, rfl⟩
    case tcnt => intro hz; exact absurd rfl hz
    case tne => intro hz; exact absurd rfl hz
    case trun => intro hz; exact absurd rfl hz
    case tdead => intro hz; exact absurd rfl hz
    case tLeq => intro hz; exact absurd rfl hz
    case dcnt => intro hz; exact absurd rfl hz
    case cLeq => intro hz; exact absurd rfl hz
    case mids => intro j hj; exact absurd hj (by simp)
  · intro j hj hj2
    have hj1 : 1 ≤ j := hj
    have hj6 : j < 6 := hj2
    show cacheGet (mkNew ([] : List (Val α))) ((0 + (j : Int)) % 6) = none
    rw [cacheGet_mkNew]
    rw [if_neg (by omega)]

/-- `pushNewTail` when the landing slot is vacant: a fresh all-vacant segment
is allocated, registered at `cacheL`, made the tail, and `cacheL` advances. -/
theorem pushNewTail_facts (cap : Int) (s : Sq α)
    (hmiss : cacheGet s s.cacheL = none) :
    (pushNewTail cap s).arrays = s.arrays ++ [List.replicate cap.toNat none] ∧
    (pushNewTail cap s).head = s.head ∧
    (pushNewTail cap s).tail = some s.arrays.length ∧
    (pushNewTail cap s).headF = s.headF ∧
    (pushNewTail cap s).headL = s.headL ∧
    (pushNewTail cap s).tailF = 0 ∧
    (pushNewTail cap s).tailL = 0 ∧
    (pushNewTail cap s).cacheF = s.cacheF ∧
    (pushNewTail cap s).cacheL = (s.cacheL + 1) % (s.cache.length : Int) ∧
    (pushNewTail cap s).cache.length = s.cache.length ∧
    (0 ≤ s.cacheL → s.cacheL < (s.cache.length : Int) →
      cacheGet (pushNewTail cap s) s.cacheL = some ⟨s.arrays.length, 0⟩) ∧
    (∀ i, i ≠ s.cacheL → cacheGet (pushNewTail cap s) i = cacheGet s i) := by
  unfold pushNewTail allocSeg
  rw [hmiss]
  simp only []
  refine ⟨?_, ?_, ?_, ?_, ?_, ?_, ?_, ?_, ?_, ?_, ?_, ?_⟩
  · simp
  · simp
  · simp
  · simp
  · simp
  · simp
  · simp
  · simp
  · simp
  · simp
  · intro h0 h1
    have hx : cacheGet (cacheSet { s with
        arrays := s.arrays ++ [List.replicate cap.toNat none] }
        s.cacheL (some ⟨s.arrays.length, 0⟩)) s.cacheL = some ⟨s.arrays.length, 0⟩ :=
      cacheGet_cacheSet_self _ s.cacheL _ h0 h1
    exact hx
  · intro i hi
    have hx : cacheGet (cacheSet { s with
        arrays := s.arrays ++ [List.replicate cap.toNat none] }
        s.cacheL (some ⟨s.arrays.length, 0⟩)) i = cacheGet s i := by
      rw [cacheGet_cacheSet_ne _ _ _ _ (fun hz => hi hz.symm)]
      exact cacheGet_congr _ s i rfl
    exact hx

end Squeue

namespace Squeue

variable {α : Type}

/-- `Push` when there is no tail and the head still has room: the element is
appended to the head run in place. -/
theorem CRep_push_headroom (s : Sq α) (e : α) (hseg : List α)
    (h : CRep s hseg [] []) (hv : Vacant s []) (htl : s.tail = none)
    (hroom : hseg.length < (deref s s.head).length) :
    pushOp (some e) s = some (writeHeadAdvance (some e) s) ∧
    CRep (writeHeadAdvance (some e) s) (hseg ++ [e]) [] [] ∧
    Vacant (writeHeadAdvance (some e) s) [] := by
  have hI := h.sinv
  obtain ⟨hh, hhs⟩ := Option.ne_none_iff_exists'.mp hI.headSome
  have hhv := hI.headValid hh hhs
  have hF0 := hI.hFlo
  have hF1 : s.headF < (((deref s (some hh)).length) : Int) := by
    have hx := hI.hFhi
    rw [hhs] at hx
    exact hx
  have hvacL : aget (deref s s.head) s.headL = none := by
    rw [h.hLeq]
    show circGet (deref s s.head) s.headF hseg.length = none
    exact h.hdead hseg.length (le_refl _) hroom
  have hguard : ¬(s.headL = s.headF ∧ (aget (deref s s.head) s.headL).isSome = true) := by
    rintro ⟨-, h2⟩
    rw [hvacL] at h2
    cases h2
  have hpush : pushOp (some e) s = some (writeHeadAdvance (some e) s) := by
    unfold pushOp
    rw [htl]
    simp only []
    rw [if_pos hguard]
  refine ⟨hpush, ?_, ?_⟩
  · have heqW : writeHeadAdvance (some e) s =
        { heapWrite s s.head (aset (deref s s.head) s.headL (some e)) with
          headL := ((heapWrite s s.head (aset (deref s s.head) s.headL (some e))).headL
            + 1) % (((deref s s.head).length : Int)) } := rfl
    rw [heqW]
    set sW := heapWrite s s.head (aset (deref s s.head) s.headL (some e)) with hsW
    have hsW2 : sW = heapWrite s (some hh) (aset (deref s (some hh)) s.headL (some e)) := by
      rw [hsW, hhs]
    have hWd : deref sW (some hh) = aset (deref s (some hh)) s.headL (some e) := by
      rw [hsW2]
      exact deref_heapWrite_self s hh _ hhv
    have hWlen : ∀ q, alenI sW q = alenI s q := by
      intro q
      rw [hsW2]
      exact alenI_heapWrite s hh _ (by rw [length_aset]) q
    have hWcg : ∀ i, cacheGet sW i = cacheGet s i := by
      intro i
      rw [hsW]
      exact cacheGet_heapWrite s s.head _ i
    have hWhd : sW.head = s.head := by rw [hsW]; exact head_heapWrite s s.head _
    have hWhF : sW.headF = s.headF := by rw [hsW]; exact headF_heapWrite s s.head _
    have hWhL : sW.headL = s.headL := by rw [hsW]; exact headL_heapWrite s s.head _
    have hWtl : sW.tail = s.tail := by rw [hsW]; exact tail_heapWrite s s.head _
    have hWcn : sW.cache.length = s.cache.length := by rw [hsW, cache_heapWrite]
    set s2 : Sq α := { sW with
      headL := (sW.headL + 1) % (((deref s s.head).length : Int)) } with hs2
    have h2hd : s2.head = some hh := by
      rw [show s2.head = sW.head from rfl, hWhd]
      exact hhs
    have h2tl : s2.tail = none := by
      rw [show s2.tail = sW.tail from rfl, hWtl]
      exact htl
    have h2len : ∀ q, alenI s2 q = alenI s q := fun q => hWlen q
    have h2D : deref s2 s2.head = aset (deref s (some hh)) s.headL (some e) := by
      rw [h2hd]
      exact hWd
    have hLid : s.headL = (s.headF + (hseg.length : Int))
        % (((deref s (some hh)).length) : Int) := by
      have hx := h.hLeq
      rw [hhs] at hx
      exact hx
    have hcnt' : hseg.length < (deref s (some hh)).length := by
      rw [← hhs]
      exact hroom
    have hrun' : RunAt (deref s (some hh)) s.headF hseg := by
      have hx := h.hrun
      rw [hhs] at hx
      exact hx
    have hdead' : DeadFrom (deref s (some hh)) s.headF hseg.length := by
      have hx := h.hdead
      rw [hhs] at hx
      exact hx
    have h2hL : s2.headL = (s.headL + 1) % (((deref s (some hh)).length) : Int) := by
      show (sW.headL + 1) % (((deref s s.head).length : Int)) = _
      rw [hWhL, hhs]
    constructor
    case sinv =>
      have hx := SInv_writeHeadAdvance (some e) s hI
      exact hx
    case hcnt =>
      rw [h2D, length_aset]
      simp only [List.length_append, List.length_cons, List.length_nil]
      omega
    case hrun =>
      rw [h2D, show s2.headF = s.headF from by
        rw [show s2.headF = sW.headF from rfl, hWhF]]
      intro k hk
      simp only [List.length_append, List.length_cons, List.length_nil] at hk
      rw [circGet_aset2 (deref s (some hh)) s.headF s.headL hseg.length k (some e)
        hF0 hcnt' (by omega) hLid]
      rcases eq_or_ne hseg.length k with hjk | hjk
      · rw [if_pos hjk, ← hjk]
        exact (List.get?_concat_length hseg e).symm
      · rw [if_neg hjk]
        have hk2 : k < hseg.length := by omega
        rw [hrun' k hk2]
        exact (List.get?_append hk2).symm
    case hdead =>
      rw [h2D, show s2.headF = s.headF from by
        rw [show s2.headF = sW.headF from rfl, hWhF]]
      intro k hk hk2
      rw [length_aset] at hk2
      simp only [List.length_append, List.length_cons, List.length_nil] at hk
      rw [circGet_aset2 (deref s (some hh)) s.headF s.headL hseg.length k (some e)
        hF0 hcnt' hk2 hLid]
      rw [if_neg (by omega)]
      exact hdead' k (by omega) hk2
    case hLeq =>
      rw [h2hL, show s2.headF = s.headF from by
        rw [show s2.headF = sW.headF from rfl, hWhF],
        show alenI s2 s2.head = (((deref s (some hh)).length) : Int) from by
          rw [h2hd, h2len]; rfl]
      rw [hLid, emod_lift]
      congr 1
      simp only [List.length_append, List.length_cons, List.length_nil]
      push_cast
      ring
    case tnil => exact fun _ => ⟨rfl, rfl⟩
    case tcnt => intro hz; exact absurd h2tl hz
    case tne => intro hz; exact absurd h2tl hz
    case trun => intro hz; exact absurd h2tl hz
    case tdead => intro hz; exact absurd h2tl hz
    case tLeq => intro hz; exact absurd h2tl hz
    case dcnt => intro hz; exact absurd h2tl hz
    case cLeq => intro hz; exact absurd h2tl hz
    case mids => intro j hj; exact absurd hj (by simp)
  · intro j hj hj2
    have hja : dUsed s [] ≤ j := by
      have hx : dUsed (writeHeadAdvance (some e) s) [] = dUsed s [] := by
        unfold dUsed writeHeadAdvance
        simp only [tail_heapWrite]
      rw [← hx]
      exact hj
    have hjb : j < s.cache.length := by
      have hx : (writeHeadAdvance (some e) s).cache.length = s.cache.length := by
        unfold writeHeadAdvance
        simp only [cache_heapWrite]
      rw [← hx]
      exact hj2
    have hcg : ∀ i, cacheGet (writeHeadAdvance (some e) s) i = cacheGet s i := by
      intro i
      unfold writeHeadAdvance
      simp only []
      exact cacheGet_heapWrite s s.head _ i
    have hcF : (writeHeadAdvance (some e) s).cacheF = s.cacheF := by
      unfold writeHeadAdvance
      simp only [cacheF_heapWrite]
    have hcn : (writeHeadAdvance (some e) s).cache.length = s.cache.length := by
      unfold writeHeadAdvance
      simp only [cache_heapWrite]
    rw [hcF, hcn, hcg]
    exact hv j hja hjb

end Squeue

namespace Squeue

variable {α : Type}

/-- Allocating a fresh tail at a vacant directory slot and writing the pushed
element into it: complete description of the resulting state. -/
theorem CRep_freshTail (s : Sq α) (e : α) (cap : Int) (hcap2 : 2 ≤ cap)
    (hmiss : cacheGet s s.cacheL = none)
    (hL0 : 0 ≤ s.cacheL) (hL1 : s.cacheL < (s.cache.length : Int)) :
    (writeTailAdvance (some e) (pushNewTail cap s)).head = s.head ∧
    (writeTailAdvance (some e) (pushNewTail cap s)).headF = s.headF ∧
    (writeTailAdvance (some e) (pushNewTail cap s)).headL = s.headL ∧
    (∀ q : Nat, q < s.arrays.length →
      deref (writeTailAdvance (some e) (pushNewTail cap s)) (some q) = deref s (some q)) ∧
    (writeTailAdvance (some e) (pushNewTail cap s)).cacheF = s.cacheF ∧
    (writeTailAdvance (some e) (pushNewTail cap s)).cacheL
      = (s.cacheL + 1) % (s.cache.length : Int) ∧
    (writeTailAdvance (some e) (pushNewTail cap s)).cache.length = s.cache.length ∧
    (∀ i, i ≠ s.cacheL →
      cacheGet (writeTailAdvance (some e) (pushNewTail cap s)) i = cacheGet s i) ∧
    cacheGet (writeTailAdvance (some e) (pushNewTail cap s)) s.cacheL
      = some ⟨s.arrays.length, 0⟩ ∧
    (writeTailAdvance (some e) (pushNewTail cap s)).tail = some s.arrays.length ∧
    (writeTailAdvance (some e) (pushNewTail cap s)).tailF = 0 ∧
    (writeTailAdvance (some e) (pushNewTail cap s)).tailL = 1 ∧
    alenI (writeTailAdvance (some e) (pushNewTail cap s)) (some s.arrays.length) = cap ∧
    RunAt (deref (writeTailAdvance (some e) (pushNewTail cap s))
      (some s.arrays.length)) 0 [e] ∧
    DeadFrom (deref (writeTailAdvance (some e) (pushNewTail cap s))
      (some s.arrays.length)) 0 1 := by
  obtain ⟨hNarr, hNhd, hNt, hNhF, hNhL, hNtF, hNtL, hNcF, hNcL, hNcn, hNself, hNother⟩ :=
    pushNewTail_facts cap s hmiss
  set sN := pushNewTail cap s with hsN
  set pnew := s.arrays.length with hpnew
  have hplt : pnew < sN.arrays.length := by
    rw [hNarr]
    simp only [List.length_append, List.length_cons, List.length_nil]
    omega
  have hDrep : deref sN (some pnew) = List.replicate cap.toNat none := by
    show sN.arrays.getD pnew [] = _
    rw [hNarr, hpnew]
    simp
  have heqW : writeTailAdvance (some e) sN =
      { heapWrite sN sN.tail (aset (deref sN sN.tail) sN.tailL (some e)) with
        tailL := ((heapWrite sN sN.tail (aset (deref sN sN.tail) sN.tailL (some e))).tailL
          + 1) % (((deref sN sN.tail).length : Int)) } := rfl
  rw [heqW]
  set sW := heapWrite sN sN.tail (aset (deref sN sN.tail) sN.tailL (some e)) with hsW
  have hsW2 : sW = heapWrite sN (some pnew) (aset (deref sN (some pnew)) sN.tailL (some e)) := by
    rw [hsW, hNt]
  have hWd : deref sW (some pnew) =
      aset (List.replicate cap.toNat none) 0 (some e) := by
    rw [hsW2, deref_heapWrite_self sN pnew _ hplt, hDrep, hNtL]
  have hWd_old : ∀ q, q ≠ pnew → deref sW (some q) = deref sN (some q) := by
    intro q hq
    rw [hsW2]
    exact deref_heapWrite_ne sN pnew q _ (fun hz => hq hz.symm)
  have hWt : sW.tail = some pnew := by rw [hsW, tail_heapWrite]; exact hNt
  have hWtF : sW.tailF = 0 := by rw [hsW, tailF_heapWrite]; exact hNtF
  have hWtL : sW.tailL = 0 := by rw [hsW, tailL_heapWrite]; exact hNtL
  have hWhd : sW.head = s.head := by rw [hsW, head_heapWrite]; exact hNhd
  have hWhF : sW.headF = s.headF := by rw [hsW, headF_heapWrite]; exact hNhF
  have hWhL : sW.headL = s.headL := by rw [hsW, headL_heapWrite]; exact hNhL
  have hWcF : sW.cacheF = s.cacheF := by rw [hsW, cacheF_heapWrite]; exact hNcF
  have hWcL : sW.cacheL = (s.cacheL + 1) % (s.cache.length : Int) := by
    rw [hsW, cacheL_heapWrite]; exact hNcL
  have hWcn : sW.cache.length = s.cache.length := by
    rw [hsW, cache_heapWrite]; exact hNcn
  have hWcg : ∀ i, cacheGet sW i = cacheGet sN i := by
    intro i
    rw [hsW]
    exact cacheGet_heapWrite sN sN.tail _ i
  have hmod : ((deref sN sN.tail).length : Int) = cap := by
    rw [hNt, hDrep]
    simp only [List.length_replicate]
    omega
  set s1 : Sq α := { sW with
    tailL := (sW.tailL + 1) % (((deref sN sN.tail).length : Int)) } with hs1
  have h1tL : s1.tailL = 1 := by
    show (sW.tailL + 1) % (((deref sN sN.tail).length : Int)) = 1
    rw [hWtL, hmod, zero_add]
    exact Int.emod_eq_of_lt (by omega) (by omega)
  have h1d : ∀ q, deref s1 q = deref sW q := fun _ => rfl
  have h1cg : ∀ i, cacheGet s1 i = cacheGet sW i := fun i => rfl
  have hlenA : (deref s1 (some pnew)).length = cap.toNat := by
    rw [h1d, hWd, length_aset]
    simp
  refine ⟨hWhd, hWhF, hWhL, ?_, hWcF, hWcL, hWcn, ?_, ?_, hWt, hWtF, h1tL, ?_, ?_, ?_⟩
  · intro q hq
    have hNd_old : deref sN (some q) = deref s (some q) := by
      show sN.arrays.getD q [] = s.arrays.getD q []
      rw [hNarr]
      exact getD_append_lt s.arrays _ q hq
    rw [h1d, hWd_old q (by omega), hNd_old]
  · intro i hi
    rw [h1cg, hWcg]
    exact hNother i hi
  · rw [h1cg, hWcg]
    exact hNself hL0 hL1
  · show ((deref s1 (some pnew)).length : Int) = cap
    rw [hlenA]
    omega
  · intro k hk
    simp only [List.length_cons, List.length_nil] at hk
    have hk0 : k = 0 := by omega
    subst hk0
    rw [h1d, hWd]
    unfold circGet
    rw [length_aset]
    simp only [List.length_replicate]
    have hidx : ((0 : Int) + ((0 : Nat) : Int)) % ((cap.toNat : Nat) : Int) = 0 := by
      push_cast
      simp
    rw [hidx]
    rw [aget_aset_self _ 0 (some e) (by omega) (by simp; omega)]
    rfl
  · intro k hk hk2
    rw [h1d, hWd] at hk2 ⊢
    rw [length_aset] at hk2
    simp only [List.length_replicate] at hk2
    unfold circGet
    rw [length_aset]
    simp only [List.length_replicate]
    have hidx : ((0 : Int) + (k : Int)) % ((cap.toNat : Nat) : Int) = (k : Int) := by
      push_cast
      rw [zero_add]
      rw [Int.emod_eq_of_lt (by omega) (by omega)]
    rw [hidx]
    rw [aget_aset_ne _ 0 (k : Int) (some e) (by omega)]
    exact aget_replicate cap.toNat (k : Int)

end Squeue

namespace Squeue

variable {α : Type}

/-- `Push` when there is no tail and the head is completely full: a fresh
tail segment is allocated and the element written there. -/
theorem CRep_push_newtail (s : Sq α) (e y : α) (rest : List α)
    (h : CRep s (y :: rest) [] []) (hv : Vacant s []) (htl : s.tail = none)
    (hfull : (y :: rest).length = (deref s s.head).length) :
    ∃ s1, pushOp (some e) s = some s1 ∧ CRep s1 (y :: rest) [] [e] ∧ Vacant s1 [] := by
  have hI := h.sinv
  have hn6 := hI.cacheLen
  obtain ⟨hh, hhs⟩ := Option.ne_none_iff_exists'.mp hI.headSome
  have hhv := hI.headValid hh hhs
  have hF0 := hI.hFlo
  have hF1 : s.headF < (((deref s (some hh)).length) : Int) := by
    have hx := hI.hFhi
    rw [hhs] at hx
    exact hx
  have hfullI : (((y :: rest).length : Nat) : Int) = (((deref s (some hh)).length) : Int) := by
    rw [hhs] at hfull
    exact_mod_cast hfull
  have hLF : s.headL = s.headF := by
    have hx := h.hLeq
    rw [hhs] at hx
    have hx2 : s.headL = (s.headF + (((y :: rest).length : Nat) : Int))
        % (((deref s (some hh)).length) : Int) := hx
    rw [hfullI] at hx2
    rw [hx2, show s.headF + (((deref s (some hh)).length) : Int)
        = s.headF + (((deref s (some hh)).length) : Int) * 1 from by ring,
      Int.add_mul_emod_self_left]
    exact Int.emod_eq_of_lt hF0 hF1
  have hFid : (s.headF + ((0 : Nat) : Int)) % (((deref s (some hh)).length) : Int)
      = s.headF := by
    push_cast
    rw [add_zero]
    exact Int.emod_eq_of_lt hF0 hF1
  have hhit : aget (deref s s.head) s.headL = some y := by
    rw [hLF, hhs]
    have hx := h.hrun
    rw [hhs] at hx
    have hy := hx 0 (by simp)
    unfold circGet at hy
    rw [hFid] at hy
    exact hy
  have hguard : s.headL = s.headF ∧ (aget (deref s s.head) s.headL).isSome = true :=
    ⟨hLF, by rw [hhit]; rfl⟩
  have hpush : pushOp (some e) s = some (writeTailAdvance (some e)
      (pushNewTail (gmin (2 * alenI s s.head) 100000) s)) := by
    unfold pushOp
    rw [htl]
    simp only []
    rw [if_neg (fun hx => hx hguard)]
  have hnil := hI.tailNilA htl
  have hdu1 : dUsed s ([] : List (List α)) = 1 := by
    unfold dUsed
    rw [htl]
  have hmiss : cacheGet s s.cacheL = none := by
    have hx := hv 1 (by rw [hdu1]) (by omega)
    rw [show ((1 : Nat) : Int) = 1 from rfl, hnil] at hx
    exact hx
  have hcap2 : 2 ≤ gmin (2 * alenI s s.head) 100000 := by
    have hx := hI.headLen
    unfold gmin
    split <;> omega
  obtain ⟨f1hd, f1hF, f1hL, f1dq, f1cF, f1cL, f1cn, f1other, f1self, f1t, f1tF,
    f1tL, f1alen, f1run, f1dead⟩ :=
    CRep_freshTail s e (gmin (2 * alenI s s.head) 100000) hcap2 hmiss hI.cLlo hI.cLhi
  set s1 := writeTailAdvance (some e)
    (pushNewTail (gmin (2 * alenI s s.head) 100000) s) with hs1
  have hSI : SInv s1 := by
    obtain ⟨s1x, hp', hI'⟩ := SInv_pushOp (some e) s hI
    rw [hpush] at hp'
    injection hp' with hx
    rw [← hx] at hI'
    exact hI'
  have h1tne : s1.tail ≠ none := by rw [f1t]; intro hz; cases hz
  have hDh : deref s1 (some hh) = deref s (some hh) := f1dq hh hhv
  have hAh : alenI s1 (some hh) = alenI s (some hh) := by
    show ((deref s1 (some hh)).length : Int) = _
    rw [hDh]
    rfl
  refine ⟨s1, hpush, ?_, ?_⟩
  · constructor
    case sinv => exact hSI
    case hcnt =>
      rw [f1hd, hhs, hDh, ← hhs]
      exact h.hcnt
    case hrun =>
      rw [f1hd, hhs, hDh, f1hF, ← hhs]
      exact h.hrun
    case hdead =>
      rw [f1hd, hhs, hDh, f1hF, ← hhs]
      exact h.hdead
    case hLeq =>
      rw [f1hL, f1hF, f1hd, hhs, hAh, ← hhs]
      exact h.hLeq
    case tnil => intro hz; exact absurd hz h1tne
    case tcnt =>
      intro _
      rw [f1t]
      have hx : (1 : Int) ≤ ((deref s1 (some s.arrays.length)).length : Int) := by
        have hy : ((deref s1 (some s.arrays.length)).length : Int)
            = gmin (2 * alenI s s.head) 100000 := f1alen
        omega
      simp only [List.length_cons, List.length_nil]
      exact_mod_cast hx
    case tne => intro _; simp
    case trun =>
      intro _
      rw [f1t, f1tF]
      exact f1run
    case tdead =>
      intro _
      rw [f1t, f1tF]
      exact f1dead
    case tLeq =>
      intro _
      rw [f1tL, f1tF, f1t, f1alen]
      simp only [List.length_cons, List.length_nil]
      rw [zero_add]
      exact (Int.emod_eq_of_lt (by omega) (by omega)).symm
    case dcnt =>
      intro _
      rw [f1cn]
      simp only [List.length_nil]
      omega
    case cLeq =>
      intro _
      rw [f1cL, f1cF, f1cn, ← hnil, emod_lift]
      congr 1
      simp only [List.length_nil]
      push_cast
      ring
    case mids => intro j hj; exact absurd hj (by simp)
  · intro j hj hj2
    have hdu2 : dUsed s1 ([] : List (List α)) = 2 := by
      unfold dUsed
      rw [f1t]
      rfl
    rw [hdu2] at hj
    rw [f1cn] at hj2
    rw [f1cF, f1cn]
    rw [f1other _ ?_]
    · exact hv j (by omega) hj2
    · intro hz
      rw [← hnil] at hz
      have hc := emod_cancel_left s.cacheF (j : Int) 1 (s.cache.length : Int)
        (by omega) (by omega) (by exact_mod_cast hj2) (by omega) (by omega) hz
      omega

end Squeue

namespace Squeue

variable {α : Type}

/-- The tail's directory slot, expressed as an offset from `cacheF`. -/
theorem tailslot_eq (s : Sq α) (h : SInv s) (msegs : List (List α))
    (hcLeq : s.cacheL = (s.cacheF + ((msegs.length : Int) + 2)) % (s.cache.length : Int)) :
    prevSlot s s.cacheL
      = (s.cacheF + ((msegs.length : Int) + 1)) % (s.cache.length : Int) := by
  have hn6 := h.cacheLen
  rw [hcLeq]
  rw [show s.cacheF + ((msegs.length : Int) + 2)
      = s.cacheF + ((msegs.length : Int) + 1) + 1 from by ring]
  rw [← emod_lift (s.cacheF + ((msegs.length : Int) + 1)) 1 (s.cache.length : Int)]
  have hr := Int.emod_range (s.cacheF + ((msegs.length : Int) + 1))
    (s.cache.length : Int) (by omega)
  exact prevSlot_succ s _ hr.1 hr.2

/-- No filed middle segment aliases the tail segment. -/
theorem CRep_mid_ne_tail (s : Sq α) (hseg : List α) (msegs : List (List α))
    (tseg : List α) (h : CRep s hseg msegs tseg) (t : Nat) (htl : s.tail = some t)
    (j : Nat) (hj : j < msegs.length) (c : Cached)
    (hc : cacheGet s ((s.cacheF + 1 + (j : Int)) % (s.cache.length : Int)) = some c) :
    c.ptr ≠ t := by
  have hI := h.sinv
  have hn6 := hI.cacheLen
  have htne : s.tail ≠ none := by rw [htl]; intro hz; cases hz
  have hm2 := h.dcnt htne
  obtain ⟨cT, hcT, hpT⟩ := hI.tailEntry htne
  have hts := tailslot_eq s hI msegs (h.cLeq htne)
  have hslot : (s.cacheF + 1 + (j : Int)) % (s.cache.length : Int)
      ≠ prevSlot s s.cacheL := by
    rw [hts]
    rw [show s.cacheF + 1 + (j : Int) = s.cacheF + (1 + (j : Int)) from by ring]
    intro hz
    have hx := emod_cancel_left s.cacheF (1 + (j : Int)) ((msegs.length : Int) + 1)
      (s.cache.length : Int) (by omega) (by omega) (by omega) (by omega) (by omega) hz
    omega
  have hptr := hI.inj _ _ _ _ hc hcT hslot
  intro hz
  apply hptr
  rw [hz]
  have hx := htl.symm.trans hpT
  injection hx

/-- `Push` when a tail exists and still has room: the element is appended to
the tail run in place. -/
theorem CRep_push_tailroom (s : Sq α) (e : α) (hseg : List α)
    (msegs : List (List α)) (tseg : List α)
    (h : CRep s hseg msegs tseg) (hv : Vacant s msegs)
    (t : Nat) (htl : s.tail = some t)
    (hroom : tseg.length < (deref s s.tail).length) :
    pushOp (some e) s = some (writeTailAdvance (some e) s) ∧
    CRep (writeTailAdvance (some e) s) hseg msegs (tseg ++ [e]) ∧
    Vacant (writeTailAdvance (some e) s) msegs := by
  have hI := h.sinv
  have htne : s.tail ≠ none := by rw [htl]; intro hz; cases hz
  obtain ⟨hh, hhs⟩ := Option.ne_none_iff_exists'.mp hI.headSome
  have hht : hh ≠ t := head_ne_tail s hI t htl hh hhs
  have htv := hI.tailValid t htl
  have htF0 := hI.tFlo htne
  have htF1 : s.tailF < (((deref s (some t)).length) : Int) := by
    have hx := hI.tFhi htne
    rw [htl] at hx
    exact hx
  have hvacL : aget (deref s s.tail) s.tailL = none := by
    rw [h.tLeq htne]
    show circGet (deref s s.tail) s.tailF tseg.length = none
    exact h.tdead htne tseg.length (le_refl _) hroom
  have hguard : ¬(s.tailL = s.tailF ∧ (aget (deref s s.tail) s.tailL).isSome = true) := by
    rintro ⟨-, h2⟩
    rw [hvacL] at h2
    cases h2
  have hguard2 : ¬(s.tailL = s.tailF ∧ (aget (deref s (some t)) s.tailL).isSome = true) := by
    rw [← htl]
    exact hguard
  have hpush : pushOp (some e) s = some (writeTailAdvance (some e) s) := by
    unfold pushOp
    rw [htl]
    simp only []
    rw [if_neg hguard2]
  refine ⟨hpush, ?_, ?_⟩
  · have heqW : writeTailAdvance (some e) s =
        { heapWrite s s.tail (aset (deref s s.tail) s.tailL (some e)) with
          tailL := ((heapWrite s s.tail (aset (deref s s.tail) s.tailL (some e))).tailL
            + 1) % (((deref s s.tail).length : Int)) } := rfl
    rw [heqW]
    set sW := heapWrite s s.tail (aset (deref s s.tail) s.tailL (some e)) with hsW
    have hsW2 : sW = heapWrite s (some t) (aset (deref s (some t)) s.tailL (some e)) := by
      rw [hsW, htl]
    have hWd : deref sW (some t) = aset (deref s (some t)) s.tailL (some e) := by
      rw [hsW2]
      exact deref_heapWrite_self s t _ htv
    have hWd_ne : ∀ p, p ≠ t → deref sW (some p) = deref s (some p) := by
      intro p hp
      rw [hsW2]
      exact deref_heapWrite_ne s t p _ (fun hz => hp hz.symm)
    have hWlen : ∀ q, alenI sW q = alenI s q := by
      intro q
      rw [hsW2]
      exact alenI_heapWrite s t _ (by rw [length_aset]) q
    have hWcg : ∀ i, cacheGet sW i = cacheGet s i := by
      intro i
      rw [hsW]
      exact cacheGet_heapWrite s s.tail _ i
    have hWhd : sW.head = s.head := by rw [hsW]; exact head_heapWrite s s.tail _
    have hWhF : sW.headF = s.headF := by rw [hsW]; exact headF_heapWrite s s.tail _
    have hWhL : sW.headL = s.headL := by rw [hsW]; exact headL_heapWrite s s.tail _
    have hWtl : sW.tail = s.tail := by rw [hsW]; exact tail_heapWrite s s.tail _
    have hWtF : sW.tailF = s.tailF := by rw [hsW]; exact tailF_heapWrite s s.tail _
    have hWtL : sW.tailL = s.tailL := by rw [hsW]; exact tailL_heapWrite s s.tail _
    have hWcF : sW.cacheF = s.cacheF := by rw [hsW]; exact cacheF_heapWrite s s.tail _
    have hWcL : sW.cacheL = s.cacheL := by rw [hsW]; exact cacheL_heapWrite s s.tail _
    have hWcn : sW.cache.length = s.cache.length := by rw [hsW, cache_heapWrite]
    set s2 : Sq α := { sW with
      tailL := (sW.tailL + 1) % (((deref s s.tail).length : Int)) } with hs2
    have hSI : SInv s2 := by
      obtain ⟨s1x, hp', hI'⟩ := SInv_pushOp (some e) s hI
      rw [hpush] at hp'
      injection hp' with hx
      rw [← hx] at hI'
      exact hI'
    have h2tl : s2.tail = some t := by
      rw [show s2.tail = sW.tail from rfl, hWtl]
      exact htl
    have h2tne : s2.tail ≠ none := by rw [h2tl]; intro hz; cases hz
    have h2hd : s2.head = some hh := by
      rw [show s2.head = sW.head from rfl, hWhd]
      exact hhs
    have h2d : ∀ q, deref s2 q = deref sW q := fun _ => rfl
    have h2len : ∀ q, alenI s2 q = alenI s q := fun q => hWlen q
    have h2cg : ∀ i, cacheGet s2 i = cacheGet s i := fun i => hWcg i
    have h2D : deref s2 s2.tail = aset (deref s (some t)) s.tailL (some e) := by
      rw [h2tl]
      exact hWd
    have hLid : s.tailL = (s.tailF + (tseg.length : Int))
        % (((deref s (some t)).length) : Int) := by
      have hx := h.tLeq htne
      rw [htl] at hx
      exact hx
    have hcnt' : tseg.length < (deref s (some t)).length := by
      rw [← htl]
      exact hroom
    have hrun' : RunAt (deref s (some t)) s.tailF tseg := by
      have hx := h.trun htne
      rw [htl] at hx
      exact hx
    have hdead' : DeadFrom (deref s (some t)) s.tailF tseg.length := by
      have hx := h.tdead htne
      rw [htl] at hx
      exact hx
    have h2tL : s2.tailL = (s.tailL + 1) % (((deref s (some t)).length) : Int) := by
      show (sW.tailL + 1) % (((deref s s.tail).length : Int)) = _
      rw [hWtL, htl]
    constructor
    case sinv => exact hSI
    case hcnt =>
      rw [h2hd, h2d, hWd_ne hh hht, ← hhs]
      exact h.hcnt
    case hrun =>
      rw [h2hd, h2d, hWd_ne hh hht, show s2.headF = s.headF from by
        rw [show s2.headF = sW.headF from rfl, hWhF], ← hhs]
      exact h.hrun
    case hdead =>
      rw [h2hd, h2d, hWd_ne hh hht, show s2.headF = s.headF from by
        rw [show s2.headF = sW.headF from rfl, hWhF], ← hhs]
      exact h.hdead
    case hLeq =>
      rw [show s2.headL = s.headL from by rw [show s2.headL = sW.headL from rfl, hWhL],
        show s2.headF = s.headF from by rw [show s2.headF = sW.headF from rfl, hWhF],
        h2hd, h2len, ← hhs]
      exact h.hLeq
    case tnil => intro hz; rw [h2tl] at hz; cases hz
    case tcnt =>
      intro _
      rw [h2D, length_aset]
      simp only [List.length_append, List.length_cons, List.length_nil]
      omega
    case tne => intro _; simp
    case trun =>
      rw [h2D, show s2.tailF = s.tailF from by
        rw [show s2.tailF = sW.tailF from rfl, hWtF]]
      intro _ k hk
      simp only [List.length_append, List.length_cons, List.length_nil] at hk
      rw [circGet_aset2 (deref s (some t)) s.tailF s.tailL tseg.length k (some e)
        htF0 hcnt' (by omega) hLid]
      rcases eq_or_ne tseg.length k with hjk | hjk
      · rw [if_pos hjk, ← hjk]
        exact (List.get?_concat_length tseg e).symm
      · rw [if_neg hjk]
        have hk2 : k < tseg.length := by omega
        rw [hrun' k hk2]
        exact (List.get?_append hk2).symm
    case tdead =>
      rw [h2D, show s2.tailF = s.tailF from by
        rw [show s2.tailF = sW.tailF from rfl, hWtF]]
      intro _ k hk hk2
      rw [length_aset] at hk2
      simp only [List.length_append, List.length_cons, List.length_nil] at hk
      rw [circGet_aset2 (deref s (some t)) s.tailF s.tailL tseg.length k (some e)
        htF0 hcnt' hk2 hLid]
      rw [if_neg (by omega)]
      exact hdead' k (by omega) hk2
    case tLeq =>
      intro _
      rw [h2tL, show s2.tailF = s.tailF from by
        rw [show s2.tailF = sW.tailF from rfl, hWtF],
        show alenI s2 s2.tail = (((deref s (some t)).length) : Int) from by
          rw [h2tl, h2len]; rfl]
      rw [hLid, emod_lift]
      congr 1
      simp only [List.length_append, List.length_cons, List.length_nil]
      push_cast
      ring
    case dcnt =>
      intro _
      rw [show s2.cache.length = s.cache.length from hWcn]
      exact h.dcnt htne
    case cLeq =>
      intro _
      rw [show s2.cacheL = s.cacheL from hWcL, show s2.cacheF = s.cacheF from hWcF,
        show s2.cache.length = s.cache.length from hWcn]
      exact h.cLeq htne
    case mids =>
      refine mids_pres s s2 msegs hWcF hWcn h2cg ?_ h.mids
      intro j hj c hc
      have hct := CRep_mid_ne_tail s hseg msegs tseg h t htl j hj c hc
      rw [h2d]
      exact hWd_ne c.ptr hct
  · intro j hj hj2
    have hdu : dUsed (writeTailAdvance (some e) s) msegs = dUsed s msegs := by
      unfold dUsed writeTailAdvance
      simp only [tail_heapWrite]
    have hcg : ∀ i, cacheGet (writeTailAdvance (some e) s) i = cacheGet s i := by
      intro i
      unfold writeTailAdvance
      simp only []
      exact cacheGet_heapWrite s s.tail _ i
    have hcF : (writeTailAdvance (some e) s).cacheF = s.cacheF := by
      unfold writeTailAdvance
      simp only [cacheF_heapWrite]
    have hcn : (writeTailAdvance (some e) s).cache.length = s.cache.length := by
      unfold writeTailAdvance
      simp only [cache_heapWrite]
    rw [hcF, hcn, hcg]
    exact hv j (by rw [← hdu]; exact hj) (by rw [← hcn]; exact hj2)

end Squeue

namespace Squeue

variable {α : Type}

/-- A middle's directory slot never collides with the tail's slot. -/
theorem mid_slot_ne_tailslot (s : Sq α) (h : SInv s) (msegs : List (List α)) (j : Nat)
    (hj : j < msegs.length) (hm2 : msegs.length + 2 ≤ s.cache.length)
    (hcLeq : s.cacheL = (s.cacheF + ((msegs.length : Int) + 2)) % (s.cache.length : Int)) :
    (s.cacheF + 1 + (j : Int)) % (s.cache.length : Int) ≠ prevSlot s s.cacheL := by
  have hn6 := h.cacheLen
  have hts := tailslot_eq s h msegs hcLeq
  rw [hts]
  rw [show s.cacheF + 1 + (j : Int) = s.cacheF + (1 + (j : Int)) from by ring]
  intro hz
  have hx := emod_cancel_left s.cacheF (1 + (j : Int)) ((msegs.length : Int) + 1)
    (s.cache.length : Int) (by omega) (by omega) (by omega) (by omega) (by omega) hz
  omega

/-- Filing the full tail into the directory (no growth needed): the state
keeps representing the same queue, and the tail's entry now records the
tail's start offset. -/
theorem fileEntry_step (w : Sq α) (hseg : List α) (msegs : List (List α))
    (tseg : List α) (hC : CRep w hseg msegs tseg)
    (hvw : Vacant w msegs) (t : Nat) (htl : w.tail = some t)
    (hne : w.cacheL ≠ w.cacheF) :
    ∃ s3, pushFile w = some s3 ∧ CRep s3 hseg msegs tseg ∧ Vacant s3 msegs ∧
      s3.tail = some t ∧ s3.tailF = w.tailF ∧
      cacheGet s3 (prevSlot s3 s3.cacheL) = some ⟨t, s3.tailF⟩ ∧
      (∀ q : Option Nat, deref s3 q = deref w q) ∧
      s3.cacheL ≠ s3.cacheF ∧ s3.cacheF = w.cacheF ∧ s3.cacheL = w.cacheL ∧
      s3.cache.length = w.cache.length := by
  have hI := hC.sinv
  have hn6 := hI.cacheLen
  have htne : w.tail ≠ none := by rw [htl]; intro hz; cases hz
  have hm2 := hC.dcnt htne
  obtain ⟨cT, hcT, hpT⟩ := hI.tailEntry htne
  have hcp : cT.ptr = t := by
    have hx := htl.symm.trans hpT
    injection hx with hx2
    exact hx2.symm
  have hcT2 : cacheGet w (if w.cacheL - 1 < 0 then w.cacheL - 1 + (w.cache.length : Int)
      else w.cacheL - 1) = some cT := hcT
  have heq := pushFile_no_grow w cT hne hcT2
  set X : Sq α := cacheSet w (if w.cacheL - 1 < 0 then w.cacheL - 1 + (w.cache.length : Int)
    else w.cacheL - 1) (some { cT with idx := w.tailF }) with hX
  have hX2 : X = cacheSet w (prevSlot w w.cacheL) (some { cT with idx := w.tailF }) := rfl
  set s3 : Sq α := { X with cacheSize := w.cacheSize + alenI w w.tail } with hs3
  have hpr := prevSlot_range w w.cacheL hI.cLlo hI.cLhi (by omega)
  have h3cg : ∀ i, cacheGet s3 i = cacheGet X i := fun _ => rfl
  have hcg_ne : ∀ i, i ≠ prevSlot w w.cacheL → cacheGet s3 i = cacheGet w i := by
    intro i hi
    rw [h3cg, hX2]
    exact cacheGet_cacheSet_ne w _ i _ (fun hz => hi hz.symm)
  have hcg_self : cacheGet s3 (prevSlot w w.cacheL) = some ⟨t, w.tailF⟩ := by
    rw [h3cg, hX2]
    rw [cacheGet_cacheSet_self w _ _ hpr.1 hpr.2]
    show some (⟨cT.ptr, w.tailF⟩ : Cached) = _
    rw [hcp]
  have h3ar : s3.arrays = w.arrays := by
    rw [show s3.arrays = X.arrays from rfl, hX2]
    exact arrays_cacheSet w _ _
  have h3d : ∀ q, deref s3 q = deref w q := fun q => deref_congr_arrays s3 w q h3ar
  have h3len : ∀ q, alenI s3 q = alenI w q := fun q => alenI_congr s3 w q h3ar
  have h3hd : s3.head = w.head := by
    rw [show s3.head = X.head from rfl, hX2]; exact head_cacheSet w _ _
  have h3tl : s3.tail = w.tail := by
    rw [show s3.tail = X.tail from rfl, hX2]; exact tail_cacheSet w _ _
  have h3hF : s3.headF = w.headF := by
    rw [show s3.headF = X.headF from rfl, hX2]; exact headF_cacheSet w _ _
  have h3hL : s3.headL = w.headL := by
    rw [show s3.headL = X.headL from rfl, hX2]; exact headL_cacheSet w _ _
  have h3tF : s3.tailF = w.tailF := by
    rw [show s3.tailF = X.tailF from rfl, hX2]; exact tailF_cacheSet w _ _
  have h3tL : s3.tailL = w.tailL := by
    rw [show s3.tailL = X.tailL from rfl, hX2]; exact tailL_cacheSet w _ _
  have h3cF : s3.cacheF = w.cacheF := by
    rw [show s3.cacheF = X.cacheF from rfl, hX2]; exact cacheF_cacheSet w _ _
  have h3cL : s3.cacheL = w.cacheL := by
    rw [show s3.cacheL = X.cacheL from rfl, hX2]; exact cacheL_cacheSet w _ _
  have h3cn : s3.cache.length = w.cache.length := by
    rw [show s3.cache = X.cache from rfl, hX2]; exact length_cache_cacheSet w _ _
  have h3pv : prevSlot s3 s3.cacheL = prevSlot w w.cacheL := by
    unfold prevSlot
    rw [h3cL, h3cn]
  have hSI : SInv s3 := by
    obtain ⟨s3x, hp', hI', -⟩ := SInv_pushFile w t htl hI
    rw [heq] at hp'
    injection hp' with hx
    rw [← hx] at hI'
    exact hI'
  have h3tne : s3.tail ≠ none := by rw [h3tl, htl]; intro hz; cases hz
  refine ⟨s3, heq, ?_, ?_, by rw [h3tl]; exact htl, h3tF, by rw [h3pv, h3tF]; exact hcg_self,
    h3d, by rw [h3cL, h3cF]; exact hne, h3cF, h3cL, h3cn⟩
  · constructor
    case sinv => exact hSI
    case hcnt => rw [h3hd, h3d]; exact hC.hcnt
    case hrun => rw [h3hd, h3d, h3hF]; exact hC.hrun
    case hdead => rw [h3hd, h3d, h3hF]; exact hC.hdead
    case hLeq => rw [h3hL, h3hF, h3hd, h3len]; exact hC.hLeq
    case tnil => intro hz; rw [h3tl, htl] at hz; cases hz
    case tcnt => intro _; rw [h3tl, h3d]; exact hC.tcnt htne
    case tne => intro _; exact hC.tne htne
    case trun => intro _; rw [h3tl, h3d, h3tF]; exact hC.trun htne
    case tdead => intro _; rw [h3tl, h3d, h3tF]; exact hC.tdead htne
    case tLeq => intro _; rw [h3tL, h3tF, h3tl, h3len]; exact hC.tLeq htne
    case dcnt => intro _; rw [h3cn]; exact hm2
    case cLeq => intro _; rw [h3cL, h3cF, h3cn]; exact hC.cLeq htne
    case mids =>
      intro j hj
      obtain ⟨c, hc, hl, hr⟩ := hC.mids j hj
      refine ⟨c, ?_, by rw [h3d]; exact hl, ?_⟩
      · rw [h3cF, h3cn]
        rw [hcg_ne _ (mid_slot_ne_tailslot w hI msegs j hj hm2 (hC.cLeq htne))]
        exact hc
      · intro k hk
        rw [show circGet (deref s3 (some c.ptr)) c.idx k
            = circGet (deref w (some c.ptr)) c.idx k from by rw [h3d]]
        exact hr k hk
  · intro j hj hj2
    have hdu : dUsed s3 msegs = dUsed w msegs := by
      unfold dUsed
      rw [h3tl]
    have hduW : dUsed w msegs = msegs.length + 2 := by
      unfold dUsed
      rw [htl]
    rw [hdu, hduW] at hj
    rw [h3cn] at hj2
    rw [h3cF, h3cn]
    rw [hcg_ne _ ?_]
    · exact hvw j (by rw [hduW]; exact hj) hj2
    · rw [tailslot_eq w hI msegs (hC.cLeq htne)]
      intro hz
      have hx := emod_cancel_left w.cacheF (j : Int) ((msegs.length : Int) + 1)
        (w.cache.length : Int) (by omega) (by omega) (by exact_mod_cast hj2)
        (by omega) (by omega) hz
      omega

end Squeue

namespace Squeue

variable {α : Type}

/-- Growing a full directory preserves the representation and leaves all
slots beyond the (rotated) occupied window vacant. -/
theorem CRep_grow (s : Sq α) (hseg : List α) (msegs : List (List α)) (tseg : List α)
    (h : CRep s hseg msegs tseg) (t : Nat) (htl : s.tail = some t)
    (hfc : s.cacheL = s.cacheF) :
    ∃ s2, grow s = some s2 ∧ CRep s2 hseg msegs tseg ∧ Vacant s2 msegs ∧
      s2.tail = some t ∧ s2.cacheL ≠ s2.cacheF ∧
      (∀ q : Option Nat, deref s2 q = deref s q) := by
  have hI := h.sinv
  have hn6 := hI.cacheLen
  have htne : s.tail ≠ none := by rw [htl]; intro hz; cases hz
  have hm2 := h.dcnt htne
  have hcLeq := h.cLeq htne
  have hmn : msegs.length + 2 = s.cache.length := by
    have hx : (s.cacheF + ((msegs.length : Int) + 2)) % (s.cache.length : Int)
        = (s.cacheF + 0) % (s.cache.length : Int) := by
      rw [add_zero, Int.emod_eq_of_lt hI.cFlo hI.cFhi]
      have hc2 := hcLeq
      rw [hfc] at hc2
      exact hc2.symm
    have hy := emod_shift_cancel s.cacheF ((msegs.length : Int) + 2) 0
      (s.cache.length : Int) (by omega) hx
    rw [Int.zero_emod] at hy
    rcases lt_or_eq_of_le (by exact_mod_cast hm2 :
        ((msegs.length : Int) + 2) ≤ (s.cache.length : Int)) with hlt | heq
    · rw [Int.emod_eq_of_lt (by omega) hlt] at hy
      omega
    · exact_mod_cast heq
  obtain ⟨s2, hg, hI2, hcF2, hcL2, hne2, harr, hhd, htl2, hhF, hhL, htF, htL, hcS, hmapI⟩ :=
    SInv_grow s hI hfc.symm
  obtain ⟨s2x, hg', hlen', -, -, -, hhigh, -⟩ :=
    grow_spec s hI.cFhi hI.cFlo hfc.symm
  rw [hg] at hg'
  injection hg' with hg2
  subst hg2
  have hlen2 : (s2.cache.length : Int) = 2 * (s.cache.length : Int) := by
    rw [hlen']
    rw [if_neg (by omega)]
  have hhighG : ∀ i : Int, (s.cache.length : Int) ≤ i → i < (s2.cache.length : Int) →
      cacheGet s2 i = none := by
    intro i hi1 hi2
    unfold cacheGet
    rw [if_pos ⟨by omega, hi2⟩]
    exact hhigh i.toNat (by omega) (by omega)
  have hd2 : ∀ q, deref s2 q = deref s q := fun q => deref_congr_arrays s2 s q harr
  have hl2 : ∀ q, alenI s2 q = alenI s q := fun q => alenI_congr s2 s q harr
  have h2tl : s2.tail = some t := by rw [htl2]; exact htl
  have h2tne : s2.tail ≠ none := by rw [h2tl]; intro hz; cases hz
  refine ⟨s2, hg, ?_, ?_, h2tl, Ne.symm hne2, hd2⟩
  · constructor
    case sinv => exact hI2
    case hcnt => rw [hhd, hd2]; exact h.hcnt
    case hrun => rw [hhd, hd2, hhF]; exact h.hrun
    case hdead => rw [hhd, hd2, hhF]; exact h.hdead
    case hLeq => rw [hhL, hhF, hhd, hl2]; exact h.hLeq
    case tnil => intro hz; rw [h2tl] at hz; cases hz
    case tcnt => intro _; rw [htl2, hd2]; exact h.tcnt htne
    case tne => intro _; exact h.tne htne
    case trun => intro _; rw [htl2, hd2, htF]; exact h.trun htne
    case tdead => intro _; rw [htl2, hd2, htF]; exact h.tdead htne
    case tLeq => intro _; rw [htL, htF, htl2, hl2]; exact h.tLeq htne
    case dcnt =>
      intro _
      have hx : (s.cache.length : Int) ≤ (s2.cache.length : Int) := by omega
      omega
    case cLeq =>
      intro _
      rw [hcL2, hcF2]
      rw [show ((msegs.length : Int) + 2) = (s.cache.length : Int) from by
        exact_mod_cast congrArg (Nat.cast : Nat → Int) hmn]
      rw [zero_add]
      exact (Int.emod_eq_of_lt (by omega) (by omega)).symm
    case mids =>
      intro j hj
      obtain ⟨c, hc, hl, hr⟩ := h.mids j hj
      refine ⟨c, ?_, by rw [hd2]; exact hl, ?_⟩
      · rw [show (s2.cacheF + 1 + (j : Int)) % (s2.cache.length : Int) = 1 + (j : Int)
            from by
          rw [show s2.cacheF + 1 + (j : Int) = 1 + (j : Int) from by rw [hcF2]; ring]
          exact Int.emod_eq_of_lt (by omega) (by omega)]
        rw [hmapI (1 + (j : Int)) (by omega) (by omega)]
        rw [show s.cacheF + (1 + (j : Int)) = s.cacheF + 1 + (j : Int) from by ring]
        exact hc
      · intro k hk
        rw [show circGet (deref s2 (some c.ptr)) c.idx k
            = circGet (deref s (some c.ptr)) c.idx k from by rw [hd2]]
        exact hr k hk
  · intro j hj hj2
    have hdu : dUsed s2 msegs = msegs.length + 2 := by
      unfold dUsed
      rw [h2tl]
    rw [hdu] at hj
    rw [show (s2.cacheF + (j : Int)) % (s2.cache.length : Int) = (j : Int) from by
      rw [hcF2, zero_add]
      exact Int.emod_eq_of_lt (by omega) (by exact_mod_cast hj2)]
    exact hhighG (j : Int) (by omega) (by exact_mod_cast hj2)

end Squeue

namespace Squeue

variable {α : Type}

/-- The complete filing prefix of a full-tail `Push`: grow if needed, then
record the tail's entry; the queue representation is unchanged. -/
theorem CRep_pushFile (s : Sq α) (hseg : List α) (msegs : List (List α))
    (tseg : List α) (h : CRep s hseg msegs tseg) (hv : Vacant s msegs)
    (t : Nat) (htl : s.tail = some t) :
    ∃ s3, pushFile s = some s3 ∧ CRep s3 hseg msegs tseg ∧ Vacant s3 msegs ∧
      s3.tail = some t ∧
      cacheGet s3 (prevSlot s3 s3.cacheL) = some ⟨t, s3.tailF⟩ ∧
      (∀ q : Option Nat, deref s3 q = deref s q) ∧
      s3.cacheL ≠ s3.cacheF := by
  rcases eq_or_ne s.cacheL s.cacheF with hfc | hfc
  · obtain ⟨s2, hg, hC2, hv2, h2tl, hne2, hd2⟩ :=
      CRep_grow s hseg msegs tseg h t htl hfc
    obtain ⟨s3, hp3, hC3, hv3, h3tl, h3tF, h3entry, h3d, h3ne, -, -, -⟩ :=
      fileEntry_step s2 hseg msegs tseg hC2 hv2 t h2tl hne2
    refine ⟨s3, ?_, hC3, hv3, h3tl, h3entry, ?_, h3ne⟩
    · rw [pushFile_grow_eq s s2 hfc hg hne2]
      exact hp3
    · intro q
      rw [h3d q, hd2 q]
  · obtain ⟨s3, hp3, hC3, hv3, h3tl, h3tF, h3entry, h3d, h3ne, -, -, -⟩ :=
      fileEntry_step s hseg msegs tseg h hv t htl hfc
    exact ⟨s3, hp3, hC3, hv3, h3tl, h3entry, h3d, h3ne⟩

end Squeue

namespace Squeue

variable {α : Type}

/-- `Push` when the tail is completely full: the tail is filed as a new
directory middle and the element goes into a fresh tail segment. -/
theorem CRep_push_filetail (s : Sq α) (e : α) (hseg : List α)
    (msegs : List (List α)) (tseg : List α)
    (h : CRep s hseg msegs tseg) (hv : Vacant s msegs)
    (t : Nat) (htl : s.tail = some t)
    (hfull : tseg.length = (deref s s.tail).length) :
    ∃ s1, pushOp (some e) s = some s1 ∧ CRep s1 hseg (msegs ++ [tseg]) [e] ∧
      Vacant s1 (msegs ++ [tseg]) := by
  have hI := h.sinv
  have htne : s.tail ≠ none := by rw [htl]; intro hz; cases hz
  have htF0 := hI.tFlo htne
  have htF1 : s.tailF < (((deref s (some t)).length) : Int) := by
    have hx := hI.tFhi htne
    rw [htl] at hx
    exact hx
  have hfullT : tseg.length = (deref s (some t)).length := by
    rw [← htl]
    exact hfull
  have hfullI : ((tseg.length : Nat) : Int) = (((deref s (some t)).length) : Int) := by
    exact_mod_cast hfullT
  have hLFt : s.tailL = s.tailF := by
    have hx := h.tLeq htne
    rw [htl] at hx
    have hx2 : s.tailL = (s.tailF + ((tseg.length : Nat) : Int))
        % (((deref s (some t)).length) : Int) := hx
    rw [hfullI] at hx2
    rw [hx2, show s.tailF + (((deref s (some t)).length) : Int)
        = s.tailF + (((deref s (some t)).length) : Int) * 1 from by ring,
      Int.add_mul_emod_self_left]
    exact Int.emod_eq_of_lt htF0 htF1
  have h0lt : 0 < tseg.length := List.length_pos.mpr (h.tne htne)
  have htFid : (s.tailF + ((0 : Nat) : Int)) % (((deref s (some t)).length) : Int)
      = s.tailF := by
    push_cast
    rw [add_zero]
    exact Int.emod_eq_of_lt htF0 htF1
  obtain ⟨v0, hv0⟩ : ∃ v, tseg.get? 0 = some v := by
    cases hget : tseg.get? 0 with
    | none =>
      exfalso
      have hx := List.get?_eq_none.mp hget
      omega
    | some v => exact ⟨v, rfl⟩
  have hhitT : aget (deref s s.tail) s.tailL = some v0 := by
    rw [hLFt, htl]
    have hx := h.trun htne 0 h0lt
    rw [htl] at hx
    unfold circGet at hx
    rw [htFid] at hx
    rw [hx]
    exact hv0
  have hguard : s.tailL = s.tailF ∧ (aget (deref s s.tail) s.tailL).isSome = true :=
    ⟨hLFt, by rw [hhitT]; rfl⟩
  have hguard2 : s.tailL = s.tailF ∧ (aget (deref s (some t)) s.tailL).isSome = true := by
    rw [← htl]
    exact hguard
  obtain ⟨s3, hp3, hC3, hv3, h3tl, h3entry, h3d, h3ne⟩ :=
    CRep_pushFile s hseg msegs tseg h hv t htl
  have hI3 := hC3.sinv
  have hn3 := hI3.cacheLen
  have htne3 : s3.tail ≠ none := by rw [h3tl]; intro hz; cases hz
  have hm23 := hC3.dcnt htne3
  have hcLeq3 := hC3.cLeq htne3
  have htv3 := hI3.tailValid t h3tl
  have hcap2 : 2 ≤ gmin (2 * gmax (alenI s3 s3.head) (alenI s3 s3.tail)) 100000 := by
    have hx := hI3.headLen
    have hy := alenI_nonneg s3 s3.tail
    unfold gmin gmax
    repeat' split
    all_goals omega
  have hlt3 : msegs.length + 2 < s3.cache.length := by
    rcases lt_or_eq_of_le hm23 with hlt | heq
    · exact hlt
    · exfalso
      apply h3ne
      rw [hcLeq3]
      rw [show ((msegs.length : Int) + 2) = ((s3.cache.length : Nat) : Int) from by
        exact_mod_cast congrArg (Nat.cast : Nat → Int) heq]
      rw [show s3.cacheF + ((s3.cache.length : Nat) : Int)
          = s3.cacheF + ((s3.cache.length : Nat) : Int) * 1 from by ring,
        Int.add_mul_emod_self_left]
      exact Int.emod_eq_of_lt hI3.cFlo hI3.cFhi
  have hdu3 : dUsed s3 msegs = msegs.length + 2 := by
    unfold dUsed
    rw [h3tl]
  have hmiss3 : cacheGet s3 s3.cacheL = none := by
    have hx := hv3 (msegs.length + 2) (by rw [hdu3]) hlt3
    rw [show (s3.cacheF + ((msegs.length + 2 : Nat) : Int)) % (s3.cache.length : Int)
        = s3.cacheL from by rw [hcLeq3]; congr 1; try push_cast; try ring] at hx
    exact hx
  obtain ⟨f1hd, f1hF, f1hL, f1dq, f1cF, f1cL, f1cn, f1other, f1self, f1t, f1tF,
    f1tL, f1alen, f1run, f1dead⟩ :=
    CRep_freshTail s3 e (gmin (2 * gmax (alenI s3 s3.head) (alenI s3 s3.tail)) 100000)
      hcap2 hmiss3 hI3.cLlo hI3.cLhi
  set s1 := writeTailAdvance (some e)
    (pushNewTail (gmin (2 * gmax (alenI s3 s3.head) (alenI s3 s3.tail)) 100000) s3)
    with hs1
  have hpush : pushOp (some e) s = some s1 := by
    unfold pushOp
    rw [htl]
    simp only []
    rw [if_pos hguard2, hp3]
    rfl
  have hSI : SInv s1 := by
    obtain ⟨s1x, hp', hI'⟩ := SInv_pushOp (some e) s hI
    rw [hpush] at hp'
    injection hp' with hx
    rw [← hx] at hI'
    exact hI'
  obtain ⟨hh3, hh3s⟩ := Option.ne_none_iff_exists'.mp hI3.headSome
  have hh3v := hI3.headValid hh3 hh3s
  have hDh : deref s1 (some hh3) = deref s3 (some hh3) := f1dq hh3 hh3v
  have hAh : alenI s1 (some hh3) = alenI s3 (some hh3) := by
    show ((deref s1 (some hh3)).length : Int) = _
    rw [hDh]
    rfl
  have h1tne : s1.tail ≠ none := by rw [f1t]; intro hz; cases hz
  have hDt : deref s1 (some t) = deref s3 (some t) := f1dq t htv3
  refine ⟨s1, hpush, ?_, ?_⟩
  · constructor
    case sinv => exact hSI
    case hcnt =>
      rw [f1hd, hh3s, hDh, ← hh3s]
      exact hC3.hcnt
    case hrun =>
      rw [f1hd, hh3s, hDh, f1hF, ← hh3s]
      exact hC3.hrun
    case hdead =>
      rw [f1hd, hh3s, hDh, f1hF, ← hh3s]
      exact hC3.hdead
    case hLeq =>
      rw [f1hL, f1hF, f1hd, hh3s, hAh, ← hh3s]
      exact hC3.hLeq
    case tnil => intro hz; exact absurd hz h1tne
    case tcnt =>
      intro _
      rw [f1t]
      have hx : (1 : Int) ≤ ((deref s1 (some s3.arrays.length)).length : Int) := by
        have hy : ((deref s1 (some s3.arrays.length)).length : Int)
            = gmin (2 * gmax (alenI s3 s3.head) (alenI s3 s3.tail)) 100000 := f1alen
        omega
      simp only [List.length_cons, List.length_nil]
      exact_mod_cast hx
    case tne => intro _; simp
    case trun =>
      intro _
      rw [f1t, f1tF]
      exact f1run
    case tdead =>
      intro _
      rw [f1t, f1tF]
      exact f1dead
    case tLeq =>
      intro _
      rw [f1tL, f1tF, f1t, f1alen]
      simp only [List.length_cons, List.length_nil]
      rw [zero_add]
      exact (Int.emod_eq_of_lt (by omega) (by omega)).symm
    case dcnt =>
      intro _
      rw [f1cn]
      simp only [List.length_append, List.length_cons, List.length_nil]
      omega
    case cLeq =>
      intro _
      rw [f1cL, f1cF, f1cn, hcLeq3, emod_lift]
      congr 1
      simp only [List.length_append, List.length_cons, List.length_nil]
      push_cast
      ring
    case mids =>
      intro j hj
      simp only [List.length_append, List.length_cons, List.length_nil] at hj
      rcases lt_or_ge j msegs.length with hjm | hjm
      · obtain ⟨c, hc, hl, hr⟩ := hC3.mids j hjm
        have hne_slot : (s3.cacheF + 1 + (j : Int)) % (s3.cache.length : Int)
            ≠ s3.cacheL := by
          rw [hcLeq3]
          rw [show s3.cacheF + 1 + (j : Int) = s3.cacheF + (1 + (j : Int)) from by ring]
          intro hz
          have hx := emod_cancel_left s3.cacheF (1 + (j : Int))
            ((msegs.length : Int) + 2) (s3.cache.length : Int)
            (by omega) (by omega) (by omega) (by omega) (by omega) hz
          omega
        have hptr := (hI3.entryValid _ _ hc).1
        refine ⟨c, ?_, ?_, ?_⟩
        · rw [f1cF, f1cn, f1other _ hne_slot]
          exact hc
        · rw [f1dq c.ptr hptr]
          rw [show (msegs ++ [tseg]).getD j [] = msegs.getD j [] from by
            rw [List.getD_eq_getElem?_getD, List.getElem?_append_left hjm,
              ← List.getD_eq_getElem?_getD]]
          exact hl
        · rw [show (msegs ++ [tseg]).getD j [] = msegs.getD j [] from by
            rw [List.getD_eq_getElem?_getD, List.getElem?_append_left hjm,
              ← List.getD_eq_getElem?_getD]]
          intro k hk
          rw [show circGet (deref s1 (some c.ptr)) c.idx k
              = circGet (deref s3 (some c.ptr)) c.idx k from by rw [f1dq c.ptr hptr]]
          exact hr k hk
      · have hjm2 : j = msegs.length := by omega
        subst hjm2
        have hts := tailslot_eq s3 hI3 msegs hcLeq3
        have hslot : (s3.cacheF + 1 + (msegs.length : Int)) % (s3.cache.length : Int)
            = prevSlot s3 s3.cacheL := by
          rw [hts]
          congr 1
          ring
        have hne_slot : (s3.cacheF + 1 + (msegs.length : Int)) % (s3.cache.length : Int)
            ≠ s3.cacheL := by
          rw [hslot]
          exact prevSlot_ne_self s3 s3.cacheL hI3.cLlo hI3.cLhi (by omega)
        have hgd : (msegs ++ [tseg]).getD msegs.length [] = tseg := by
          rw [List.getD_eq_getElem?_getD, List.getElem?_concat_length]
          rfl
        refine ⟨⟨t, s3.tailF⟩, ?_, ?_, ?_⟩
        · rw [f1cF, f1cn, f1other _ hne_slot, hslot]
          exact h3entry
        · rw [hgd]
          show tseg.length = (deref s1 (some t)).length
          rw [hDt, h3d (some t)]
          exact hfullT
        · rw [hgd]
          show RunAt (deref s1 (some t)) s3.tailF tseg
          rw [hDt]
          have hx := hC3.trun htne3
          rw [h3tl] at hx
          exact hx
  · intro j hj hj2
    have hdu1 : dUsed s1 (msegs ++ [tseg]) = msegs.length + 3 := by
      unfold dUsed
      rw [f1t]
      simp
    rw [hdu1] at hj
    rw [f1cn] at hj2
    have hne_slot : (s3.cacheF + (j : Int)) % (s3.cache.length : Int) ≠ s3.cacheL := by
      rw [hcLeq3]
      intro hz
      have hx := emod_cancel_left s3.cacheF (j : Int) ((msegs.length : Int) + 2)
        (s3.cache.length : Int) (by omega) (by omega) (by exact_mod_cast hj2)
        (by omega) (by omega) hz
      omega
    rw [f1cF, f1cn, f1other _ hne_slot]
    exact hv3 j (by rw [hdu3]; omega) hj2

end Squeue

namespace Squeue

variable {α : Type}

/-- Any `Push` of a non-nil element on a represented clean state succeeds and
appends the element to the queue's contents. -/
theorem CRep_push (s : Sq α) (e : α) (hseg : List α) (msegs : List (List α))
    (tseg : List α) (h : CRep s hseg msegs tseg) (hv : Vacant s msegs) :
    ∃ s1 hseg1 msegs1 tseg1, pushOp (some e) s = some s1 ∧
      CRep s1 hseg1 msegs1 tseg1 ∧ Vacant s1 msegs1 ∧
      hseg1 ++ msegs1.flatten ++ tseg1 = hseg ++ msegs.flatten ++ tseg ++ [e] := by
  cases htl : s.tail with
  | none =>
    obtain ⟨hm, ht⟩ := h.tnil htl
    subst hm
    subst ht
    rcases lt_or_eq_of_le h.hcnt with hroom | hfull
    · obtain ⟨hp, hC, hV⟩ := CRep_push_headroom s e hseg h hv htl hroom
      exact ⟨_, hseg ++ [e], [], [], hp, hC, hV, by simp⟩
    · rcases hxs : hseg with _ | ⟨y, rest⟩
      · exfalso
        rw [hxs] at hfull
        have hx := h.sinv.headLen
        have hx2 : (0 : Int) < ((deref s s.head).length : Int) := hx
        simp only [List.length_nil] at hfull
        omega
      · rw [hxs] at h hfull
        obtain ⟨s1, hp, hC, hV⟩ := CRep_push_newtail s e y rest h hv htl hfull
        refine ⟨s1, y :: rest, [], [e], hp, hC, hV, ?_⟩
        simp
  | some t =>
    have htne : s.tail ≠ none := by rw [htl]; intro hz; cases hz
    rcases lt_or_eq_of_le (h.tcnt htne) with hroom | hfull
    · obtain ⟨hp, hC, hV⟩ := CRep_push_tailroom s e hseg msegs tseg h hv t htl hroom
      refine ⟨_, hseg, msegs, tseg ++ [e], hp, hC, hV, ?_⟩
      simp [List.append_assoc]
    · obtain ⟨s1, hp, hC, hV⟩ := CRep_push_filetail s e hseg msegs tseg h hv t htl hfull
      refine ⟨s1, hseg, msegs ++ [tseg], [e], hp, hC, hV, ?_⟩
      simp [List.flatten_append, List.append_assoc]

/-- One successful push unfolds a `pushList` run. -/
theorem pushList_cons (s : Sq α) (v : Val α) (vs : List (Val α)) (s1 : Sq α)
    (hp : pushOp v s = some s1) :
    pushList s (v :: vs) = pushList s1 vs := by
  unfold pushList runTrace
  rw [List.map_cons, List.foldl_cons]
  rw [show ((some s).bind fun s2 => stepOp s2 (Op.push v)) = some s1 from hp]

/-- Pushing a list of non-nil elements from a represented clean state
succeeds and appends them all, in order. -/
theorem CRep_pushList (xs : List α) : ∀ (s : Sq α) (hseg : List α)
    (msegs : List (List α)) (tseg : List α),
    CRep s hseg msegs tseg → Vacant s msegs →
    ∃ sF hsegF msegsF tsegF, pushList s (xs.map some) = some sF ∧
      CRep sF hsegF msegsF tsegF ∧
      hsegF ++ msegsF.flatten ++ tsegF = (hseg ++ msegs.flatten ++ tseg) ++ xs := by
  induction xs with
  | nil =>
    intro s hseg msegs tseg hC _
    exact ⟨s, hseg, msegs, tseg, rfl, hC, by simp⟩
  | cons x xs2 ih =>
    intro s hseg msegs tseg hC hV
    obtain ⟨s1, h1, m1, t1, hp, hC1, hV1, hcat⟩ := CRep_push s x hseg msegs tseg hC hV
    obtain ⟨sF, hF, mF, tF, hpL, hCF, hcat2⟩ := ih s1 h1 m1 t1 hC1 hV1
    refine ⟨sF, hF, mF, tF, ?_, hCF, ?_⟩
    · rw [List.map_cons, pushList_cons s (some x) (xs2.map some) s1 hp]
      exact hpL
    · rw [hcat2, hcat]
      simp [List.append_assoc]

end Squeue

namespace Squeue

/-- C3: for every sequence of non-nil elements, pushing them all and then
unshifting the same number of times returns exactly the pushed elements, in
insertion order, every `Unshift` succeeding with an element. -/
theorem C3_fifo_order (α : Type) (xs : List α) :
    ∃ sF sE, pushList (new0 α) (xs.map some) = some sF ∧
      unshiftN xs.length sF = some (xs.map some, sE) := by
  obtain ⟨hC0, hV0⟩ := (CRep_new0 : CRep (new0 α) [] [] [] ∧ Vacant (new0 α) [])
  obtain ⟨sF, hF, mF, tF, hpL, hCF, hcat⟩ := CRep_pushList xs (new0 α) [] [] [] hC0 hV0
  have hcat2 : hF ++ mF.flatten ++ tF = xs := by simpa using hcat
  obtain ⟨sE, hdr⟩ := CRep_drain xs sF hF mF tF hCF hcat2
  exact ⟨sF, sE, hpL, hdr⟩

end Squeue

namespace Squeue

/-- C2 (amended): on a freshly constructed `New()`, `Unshift`, `Pop`,
`PeekFront` and `PeekBack` all fail with the `EmptyQueue` error, and
`Empty()` returns true iff `Size()` is zero; but a deque merely drained back
to size 0 does not satisfy the four-failures contract (see the
counterexample). -/
theorem C2_fresh_empty_contract :
    (unshiftOp (new0 Int)).isErr = true ∧
    (popOp (new0 Int)).isErr = true ∧
    (peekFront (new0 Int)).isErr = true ∧
    (peekBack (new0 Int)).isErr = true ∧
    ∀ (s : Sq Int), emptyOf s = true ↔ sizeOf s = 0 := by
  refine ⟨by decide, by decide, by decide, by decide, ?_⟩
  intro s
  unfold emptyOf
  exact decide_eq_true_iff

end Squeue
